import Mathlib

/-!
# dex-method-counts: count trees, reference filters and name resolution

A shallow embedding of the Go sources under `cmd/dex-method-counts` and
`internal/dex`, followed by theorems about them.

Conventions of the embedding

* A Go `string` is a sequence of bytes: `Str := List Byte`, `Byte := Fin 256`.
  The order used by `sort.Strings` is the bytewise lexicographic order, which is
  the order of `List (Fin 256)`.
* A Go `map[string]V` is an association list `List (Str × V)`.  `mapGet` is the
  two-valued lookup `v, ok := m[k]`, `mapSet` is the assignment `m[k] = v`
  (overwrite the entry when the key is present, add one otherwise).  A Go map
  holds each key once; `keysNodup` states this for an association list and
  `node.wf` states it for every map of a tree.
* Go `int` counters are `Int`; `uint` is `Nat`.  The counters count references
  of the input files and stay far below `2^63`, so no wrap-around is modelled.
* A run-time panic (index out of range) is `none`.
* The functions that read the file work on a state: `Run σ α` is a call that
  ends with a value, an `error` or a panic and leaves a state.  An `os.File` is
  a regular file, given by its bytes, the current offset and the record of the
  `Read` calls made on it; integers of the file are `Int` values of 32 or 16
  bits, decoded from their bytes.
* Writes to standard output and standard error are not part of the embedding.
-/

namespace DexMethodCounts

/-! ## Strings -/

abbrev Byte := Fin 256

abbrev Str := List Byte

/-- The Go string literal with the given ASCII text. -/
def ascii (s : String) : Str := s.toList.map (fun c => Fin.ofNat c.toNat)

/-- `sort.Strings`: the sorted rearrangement of the slice, ascending in the
bytewise lexicographic order of Go strings.  The order is total and
antisymmetric, so every sorting algorithm returns this list. -/
def sortStrings (l : List Str) : List Str := l.insertionSort (· ≤ ·)

/-! ## Go maps with string keys -/

/-- Lookup `v, ok := m[key]`. -/
def mapGet {β : Type} : List (Str × β) → Str → Option β
  | [], _ => none
  | (k, v) :: rest, key => if k = key then some v else mapGet rest key

/-- Assignment `m[key] = v`. -/
def mapSet {β : Type} : List (Str × β) → Str → β → List (Str × β)
  | [], key, v => [(key, v)]
  | (k, w) :: rest, key, v =>
    if k = key then (k, v) :: rest else (k, w) :: mapSet rest key v

/-- The keys of a map. -/
def keys {β : Type} (m : List (Str × β)) : List Str := m.map Prod.fst

/-- Each key occurs once: the association list stands for a Go map. -/
def keysNodup {β : Type} (m : List (Str × β)) : Prop := (keys m).Nodup

instance {β : Type} (m : List (Str × β)) : Decidable (keysNodup m) := by
  unfold keysNodup; infer_instance

/-! ## node.go -/

/-- The struct `node`: `count int`, `names []string`,
`children map[string]*node`. -/
inductive node where
  | mk (count : Int) (names : List Str) (children : List (Str × node))

namespace node

def count : node → Int
  | .mk c _ _ => c

def names : node → List Str
  | .mk _ ns _ => ns

def children : node → List (Str × node)
  | .mk _ _ ch => ch

end node

mutual
/-- Decidable equality of trees. -/
def node.decEq : (a b : node) → Decidable (a = b)
  | .mk c ns ch, .mk c2 ns2 ch2 =>
    if h1 : c = c2 then
      if h2 : ns = ns2 then
        match node.decEqChildren ch ch2 with
        | isTrue h3 => isTrue (by rw [h1, h2, h3])
        | isFalse h3 => isFalse (fun h => h3 (by cases h; rfl))
      else isFalse (fun h => h2 (by cases h; rfl))
    else isFalse (fun h => h1 (by cases h; rfl))
/-- Decidable equality of child maps. -/
def node.decEqChildren : (a b : List (Str × node)) → Decidable (a = b)
  | [], [] => isTrue rfl
  | [], _ :: _ => isFalse (fun h => by cases h)
  | _ :: _, [] => isFalse (fun h => by cases h)
  | (k, n) :: r, (k2, n2) :: r2 =>
    if h1 : k = k2 then
      match node.decEq n n2 with
      | isTrue h2 =>
        match node.decEqChildren r r2 with
        | isTrue h3 => isTrue (by rw [h1, h2, h3])
        | isFalse h3 => isFalse (fun h => h3 (by cases h; rfl))
      | isFalse h2 => isFalse (fun h => h2 (by cases h; rfl))
    else isFalse (fun h => h1 (by cases h; rfl))
end

instance : DecidableEq node := node.decEq

/-- `newNode()`: count 0, no names, an empty map. -/
def newNode : node := .mk 0 [] []

/-- `mergeNames`: both slices are appended, their elements become the keys of
the map `uniqueNames`, the keys are collected by a `range` over that map and
sorted with `sort.Strings`.  The `range` visits the keys in an unspecified
order; `List.dedup` is one such order, and `mergeNames_range_order` shows that
the sorted result is the same for every other one. -/
def mergeNames (n n2 : List Str) : List Str :=
  let allNames := n ++ n2
  let uniqueNames := allNames.dedup
  sortStrings uniqueNames

mutual
/-- `mergeNodes`. The third field is `mergeChildren n.children n2.children`,
written out as its two loops (see `mergeNodes_eq`). -/
def mergeNodes : node → node → node
  | .mk count names children, n2 =>
    .mk (count + n2.count) (mergeNames names n2.names)
      (mergeChildren.second children n2.children
        (mergeChildren.first children n2.children []))
/-- The first loop of `mergeChildren`, `for name, n := range c`, over the
entries of `c` that are still to be visited; `merged` is the map built so far. -/
def mergeChildren.first :
    List (Str × node) → List (Str × node) → List (Str × node) → List (Str × node)
  | [], _, merged => merged
  | (name, n) :: rest, c2, merged =>
    match mapGet c2 name with
    | some otherNode =>
      mergeChildren.first rest c2 (mapSet merged name (mergeNodes n otherNode))
    | none => mergeChildren.first rest c2 (mapSet merged name n)
/-- The second loop of `mergeChildren`, `for name, n := range c2`, over the
entries of `c2` that are still to be visited. -/
def mergeChildren.second (c : List (Str × node)) :
    List (Str × node) → List (Str × node) → List (Str × node)
  | [], merged => merged
  | (name, n) :: rest, merged =>
    match mapGet c name with
    | some _ => mergeChildren.second c rest merged
    | none => mergeChildren.second c rest (mapSet merged name n)
end

/-- `mergeChildren`: a fresh map filled by the two loops. -/
def mergeChildren (c c2 : List (Str × node)) : List (Str × node) :=
  mergeChildren.second c c2 (mergeChildren.first c c2 [])

/-! ## dexcounter.go -/

/-- The struct `countState`. -/
structure countState where
  overallCount : Int
  packageTree : node
deriving DecidableEq

/-- `mergeCountState`. -/
def mergeCountState (s s2 : countState) : countState :=
  { overallCount := s.overallCount + s2.overallCount
    packageTree := mergeNodes s.packageTree s2.packageTree }

/-! ## Go library functions used by the sources -/

/-- The byte of an ASCII character, as in the Go literal `'['`. -/
def ch (c : Char) : Byte := Fin.ofNat c.toNat

/-- Indexing `s[i]` of a string; out of range is a panic. -/
def byteAt (s : Str) (i : Nat) : Option Byte := s[i]?

/-- Assignment `buf[i] = b` to a byte slice; out of range is a panic. -/
def setByte (buf : List Byte) (i : Nat) (b : Byte) : Option (List Byte) :=
  if i < buf.length then some (buf.set i b) else none

/-- Indexing `xs[i]` of a slice by a signed integer; a negative index and an
index beyond the length are panics. -/
def index {α : Type} (xs : List α) (i : Int) : Option α :=
  if i < 0 then none else xs[i.toNat]?

/-- Apply a function that may panic to every element, in order. -/
def mapOption {α β : Type} (f : α → Option β) : List α → Option (List β)
  | [] => some []
  | x :: xs =>
    match f x with
    | none => none
    | some y =>
      match mapOption f xs with
      | none => none
      | some ys => some (y :: ys)

/-- `strings.Replace(s, old, new, -1)` for one-byte `old` and `new`. -/
def stringsReplace (s : Str) (old new : Byte) : Str :=
  s.map (fun b => if b = old then new else b)

/-- `strings.HasPrefix(s, p)`. -/
def stringsHasPrefix (s p : Str) : Bool := p.isPrefixOf s

/-- `strings.Split(s, sep)` for a one-byte separator: the pieces between the
separators, one more than there are separators. -/
def stringsSplit : Str → Byte → List Str
  | [], _ => [[]]
  | b :: rest, sep =>
    if b = sep then [] :: stringsSplit rest sep
    else
      match stringsSplit rest sep with
      | [] => [[b]]
      | piece :: pieces => (b :: piece) :: pieces

/-- `strings.Join(elems, sep)`. -/
def stringsJoin (elems : List Str) (sep : Str) : Str := sep.intercalate elems

/-- `strings.LastIndexByte(s, c)`: the index of the last `c` in `s`, or -1. -/
def stringsLastIndexByte : Str → Byte → Int
  | [], _ => -1
  | b :: rest, c =>
    let r := stringsLastIndexByte rest c
    if 0 ≤ r then r + 1 else if b = c then 0 else -1

/-! ## internal/dex/output.go -/

/-- `primitiveTypeLabel`. -/
def primitiveTypeLabel (typeChar : Byte) : Str :=
  if typeChar = ch 'B' then ascii "byte"
  else if typeChar = ch 'C' then ascii "char"
  else if typeChar = ch 'D' then ascii "double"
  else if typeChar = ch 'F' then ascii "float"
  else if typeChar = ch 'I' then ascii "int"
  else if typeChar = ch 'J' then ascii "long"
  else if typeChar = ch 'S' then ascii "short"
  else if typeChar = ch 'V' then ascii "void"
  else if typeChar = ch 'Z' then ascii "boolean"
  else ascii "UNKNOWN"

/-- The loop `for targetLen > 1 && descr[offset] == '['` of `DescriptorToDot`;
returns `offset` and `targetLen` after the loop. -/
def DescriptorToDot.strip (descr : Str) : Nat → Nat → Option (Nat × Nat)
  | offset, 0 => some (offset, 0)
  | offset, 1 => some (offset, 1)
  | offset, targetLen + 2 =>
    match byteAt descr offset with
    | none => none
    | some b =>
      if b = ch '[' then DescriptorToDot.strip descr (offset + 1) (targetLen + 1)
      else some (offset, targetLen + 2)

/-- The loop `for i = 0; i < targetLen; i++` of `DescriptorToDot`; the first
argument is `targetLen - i`. -/
def DescriptorToDot.copy (descr : Str) (offset : Nat) :
    Nat → Nat → List Byte → Option (List Byte)
  | 0, _, buf => some buf
  | remaining + 1, i, buf =>
    match byteAt descr (offset + i) with
    | none => none
    | some c =>
      match setByte buf i (if c = ch '/' then ch '.' else c) with
      | none => none
      | some buf1 => DescriptorToDot.copy descr offset remaining (i + 1) buf1

/-- The loop `for arrayDepth > 0` of `DescriptorToDot`. -/
def DescriptorToDot.brackets : Nat → Nat → List Byte → Option (List Byte)
  | 0, _, buf => some buf
  | arrayDepth + 1, i, buf =>
    match setByte buf i (ch '[') with
    | none => none
    | some buf1 =>
      match setByte buf1 (i + 1) (ch ']') with
      | none => none
      | some buf2 => DescriptorToDot.brackets arrayDepth (i + 2) buf2

/-- The conditional between the two loops of `DescriptorToDot`: returns the new
`descr`, `offset` and `targetLen`. -/
def DescriptorToDot.target (descr : Str) (offset targetLen : Nat) :
    Option (Str × Nat × Nat) :=
  if targetLen = 1 then
    match byteAt descr offset with
    | none => none
    | some b => some (primitiveTypeLabel b, 0, (primitiveTypeLabel b).length)
  else if 2 ≤ targetLen then
    match byteAt descr offset with
    | none => none
    | some b =>
      if b = ch 'L' then
        match byteAt descr (offset + targetLen - 1) with
        | none => none
        | some e =>
          if e = ch ';' then some (descr, offset + 1, targetLen - 2)
          else some (descr, offset, targetLen)
      else some (descr, offset, targetLen)
  else some (descr, offset, targetLen)

/-- `DescriptorToDot`. -/
def DescriptorToDot (descr : Str) : Option Str :=
  match DescriptorToDot.strip descr 0 descr.length with
  | none => none
  | some (offset, targetLen) =>
    let arrayDepth := offset
    match DescriptorToDot.target descr offset targetLen with
    | none => none
    | some (descr1, offset1, targetLen1) =>
      let buf : List Byte := List.replicate (targetLen1 + arrayDepth * 2) 0
      match DescriptorToDot.copy descr1 offset1 targetLen1 0 buf with
      | none => none
      | some buf1 => DescriptorToDot.brackets arrayDepth targetLen1 buf1

/-- `PackageNameOnly`. -/
def PackageNameOnly (typeName : Str) : Option Str :=
  match DescriptorToDot typeName with
  | none => none
  | some dotted =>
    let last := stringsLastIndexByte dotted (ch '.')
    if last < 0 then some [] else some (dotted.take last.toNat)

/-! ## methodgenerator.go: insertion into a tree -/

/-- `n.count++`. -/
def node.increment (n : node) : node := .mk (n.count + 1) n.names n.children

/-- `incrementCount`.  The node behind a pointer is updated in place; here the
updated node is put back under its name. -/
def incrementCount : node → List Str → node
  | n, [] => n.increment
  | n, piece :: rest =>
    let name := if piece.length = 0 then ascii "<default>" else piece
    match mapGet n.children name with
    | some child =>
      .mk n.count n.names (mapSet n.children name (incrementCount child rest))
    | none =>
      .mk n.count (n.names ++ [name])
        (mapSet n.children name (incrementCount newNode rest))

/-- The loop of `stringsSequence`,
`for i := 0; i < len(strs)+1 && i < maxDepth; i++`; the first argument is
`len(strs) + 1 - i`. -/
def stringsSequence.loop (strs : List Str) (maxDepth : Nat) :
    Nat → Nat → List (List Str)
  | 0, _ => []
  | remaining + 1, i =>
    if i < maxDepth then
      strs.take i :: stringsSequence.loop strs maxDepth remaining (i + 1)
    else []

/-- `stringsSequence`: the prefixes `strs[:i]`. -/
def stringsSequence (strs : List Str) (maxDepth : Nat) : List (List Str) :=
  stringsSequence.loop strs maxDepth (strs.length + 1) 0

/-- `nodeForNamePieces`. -/
def nodeForNamePieces (packageTree : node) (namePieces : List Str)
    (maxDepth : Nat) : node :=
  (stringsSequence namePieces maxDepth).foldl incrementCount packageTree

/-! ## internal/dex/data.go: the loaded tables and the resolved references -/

/-- The struct `typeIdItem`. -/
structure typeIdItem where
  descriptorIdx : Int
  internal : Bool
deriving DecidableEq

/-- The struct `protoIdItem`. -/
structure protoIdItem where
  shortyIdx : Int
  returnTypeIdx : Int
  parametersOff : Int
  types : List Int
deriving DecidableEq

/-- The struct `fieldIdItem`; `classIdx` and `typeIdx` are `int16`. -/
structure fieldIdItem where
  classIdx : Int
  typeIdx : Int
  nameIdx : Int
deriving DecidableEq

/-- The struct `methodIdItem`; `classIdx` and `protoIdx` are `int16`. -/
structure methodIdItem where
  classIdx : Int
  protoIdx : Int
  nameIdx : Int
deriving DecidableEq

/-- The struct `classDefItem`. -/
structure classDefItem where
  classIdx : Int
deriving DecidableEq

/-- How a call ends that did not return a value: the kinds of `error` the
reader returns. -/
inductive Err where
  | eof
  | shortRead
  | seek
  | wrongMagic
  | unexpectedEndian
deriving DecidableEq

/-- A call returns a value, returns an `error`, or panics. -/
inductive Outcome (α : Type) where
  | ok (a : α)
  | error (e : Err)
  | panic
deriving DecidableEq

/-- A call that works on a state: its outcome and the state it leaves. -/
def Run (σ α : Type) : Type := σ → Outcome α × σ

/-- The call that returns `a`. -/
def Run.pure {σ α : Type} (a : α) : Run σ α := fun s => (.ok a, s)

/-- One call after another: an `error` or a panic of the first one ends both. -/
def Run.bind {σ α β : Type} (x : Run σ α) (f : α → Run σ β) : Run σ β := fun s =>
  match x s with
  | (.ok a, s1) => f a s1
  | (.error e, s1) => (.error e, s1)
  | (.panic, s1) => (.panic, s1)

instance {σ : Type} : Monad (Run σ) where
  pure := Run.pure
  bind := Run.bind

/-- The statement `return err`. -/
def Run.fail {σ α : Type} (e : Err) : Run σ α := fun s => (.error e, s)

/-- A run-time panic. -/
def Run.crash {σ α : Type} : Run σ α := fun s => (.panic, s)

/-- The current state. -/
def Run.get {σ : Type} : Run σ σ := fun s => (.ok s, s)

/-- An assignment to the state. -/
def Run.update {σ : Type} (f : σ → σ) : Run σ Unit := fun s => (.ok (), f s)

/-- The loop `for i := 0; i < count; i++`; the first argument is `count - i`. -/
def forRange {σ : Type} (body : Nat → Run σ Unit) : Nat → Nat → Run σ Unit
  | 0, _ => Run.pure ()
  | remaining + 1, i => Run.bind (body i) (fun _ => forRange body remaining (i + 1))

/-- The loop `for _, x := range xs`. -/
def forEach {σ α : Type} (body : α → Run σ Unit) : List α → Run σ Unit
  | [] => Run.pure ()
  | x :: rest => Run.bind (body x) (fun _ => forEach body rest)

/-- The call `make([]T, count)`: panics for a negative length, otherwise gives
the length. -/
def makeSlice {σ : Type} (count : Int) : Run σ Nat :=
  if count < 0 then Run.crash else Run.pure count.toNat

/-- The assignment `xs[i].field = v` for an index in range. -/
def updateAt {α : Type} (xs : List α) (i : Nat) (f : α → α) : List α :=
  match xs[i]? with
  | some x => xs.set i (f x)
  | none => xs

/-- An `os.File` that is a regular file: its bytes, the current offset, and the
record of the `Read` calls made on it (offset and number of bytes delivered). -/
structure File where
  data : List Byte
  pos : Nat
  log : List (Nat × Nat)
deriving DecidableEq

/-- `f.Seek(offset, os.SEEK_SET)`: an error for a negative offset. -/
def File.Seek (offset : Int) : Run File Unit := fun f =>
  if offset < 0 then (.error .seek, f) else (.ok (), { f with pos := offset.toNat })

/-- `f.Read(buf)` for a buffer of `n` bytes: delivers the bytes from the current
offset on, as many as there are up to `n`, and `io.EOF` when there is none. -/
def File.Read (n : Nat) : Run File (List Byte) := fun f =>
  let buf := (f.data.drop f.pos).take n
  if n ≠ 0 ∧ buf.length = 0 then
    (.error .eof, { f with log := f.log ++ [(f.pos, 0)] })
  else
    (.ok buf, { f with pos := f.pos + buf.length, log := f.log ++ [(f.pos, buf.length)] })

/-- `readFully` for a buffer of `n` bytes; returns the filled buffer. -/
def readFully (n : Nat) : Run File (List Byte) := do
  let buf ← File.Read n
  if buf.length ≠ n then Run.fail .shortRead else pure buf

/-- `readByte` (the buffer has one byte). -/
def readByte : Run File Byte := do
  let buf ← File.Read 1
  match buf with
  | [b] => pure b
  | _ => Run.fail .shortRead

/-- The loop of `readUnsignedLeb128`; `result` is a `uint32`.  The first
argument bounds the number of rounds: each round reads a byte. -/
def readUnsignedLeb128.loop : Nat → Nat → Run File Nat
  | 0, _ => Run.crash
  | fuel + 1, result => do
    let val ← readByte
    let result1 := ((result <<< 7) % 2 ^ 32) ||| (val.val &&& 0x7f)
    if val.val ≥ 0x80 then readUnsignedLeb128.loop fuel result1 else pure result1

/-- `readUnsignedLeb128`.  The loop is given one round more than there are
bytes left in the file, so that it ends by its own test or by `io.EOF`. -/
def readUnsignedLeb128 : Run File Nat := fun f =>
  readUnsignedLeb128.loop (f.data.length - f.pos + 1) 0 f

/-- The loop of `readString`; the first argument is `len(inBuf) - idx`, the
second one is `inBuf[:idx]`. -/
def readString.loop : Nat → List Byte → Run File Str
  | 0, acc => pure acc
  | remaining + 1, acc => do
    let val ← readByte
    if val = 0 then pure acc else readString.loop remaining (acc ++ [val])

/-- `readString`; the length `utf16len*3` of `inBuf` is a `uint32` product. -/
def readString : Run File Str := do
  let utf16len ← readUnsignedLeb128
  readString.loop ((utf16len * 3) % 2 ^ 32) []

/-- The unsigned value of bytes in little-endian order. -/
def littleEndian (buf : List Byte) : Nat := buf.foldr (fun b acc => b.val + 256 * acc) 0

/-- The unsigned value of bytes in big-endian order. -/
def bigEndian (buf : List Byte) : Nat := buf.foldl (fun acc b => 256 * acc + b.val) 0

/-- The signed integer of `bits` bits with the given unsigned value. -/
def signed (bits : Nat) (u : Nat) : Int :=
  if u < 2 ^ (bits - 1) then (u : Int) else (u : Int) - 2 ^ bits

/-- The struct `headerItem`. -/
structure headerItem where
  fileSize : Int := 0
  headerSize : Int := 0
  endianTag : Int := 0
  stringIdsSize : Int := 0
  stringIdsOff : Int := 0
  typeIdsSize : Int := 0
  typeIdsOff : Int := 0
  protoIdsSize : Int := 0
  protoIdsOff : Int := 0
  fieldIdsSize : Int := 0
  fieldIdsOff : Int := 0
  methodIdsSize : Int := 0
  methodIdsOff : Int := 0
  classDefsSize : Int := 0
  classDefsOff : Int := 0
deriving DecidableEq

/-- The struct `Data`: the tables, the file, the header and the byte order.
The three scratch buffers are not state.  The queries read the tables only;
a `Data` given by its tables has the zero values in the other fields. -/
structure Data where
  strings : List Str
  typeIds : List typeIdItem
  protoIds : List protoIdItem
  fieldIds : List fieldIdItem
  methodIds : List methodIdItem
  classDefs : List classDefItem
  dexFile : File := { data := [], pos := 0, log := [] }
  headerItem : DexMethodCounts.headerItem := {}
  isBigEndian : Bool := false
deriving DecidableEq

/-- Modelled from the spec: the declaration of the struct `FieldRef` is not
among the sources; the fields are those the sources assign and read
(declaring class, field type, field name), compared over all fields. -/
structure FieldRef where
  DeclClass : Str
  FieldType : Str
  FieldName : Str
deriving DecidableEq

/-- Modelled from the spec: the declaration of the struct `MethodRef` is not
among the sources; the fields are those the sources assign and read
(declaring class, ordered argument types, return type, method name). -/
structure MethodRef where
  DeclClass : Str
  ArgTypes : List Str
  ReturnType : Str
  MethodName : Str
deriving DecidableEq

/-- Modelled from the spec: the declaration of the struct `ClassRef` is not
among the sources; a class name with the lists of field and method references
of that class. -/
structure ClassRef where
  ClassName : Str
  FieldRefs : List FieldRef
  MethodRefs : List MethodRef
deriving DecidableEq

/-- `classNameFromTypeIndex`. -/
def classNameFromTypeIndex (d : Data) (idx : Int) : Option Str :=
  match index d.typeIds idx with
  | none => none
  | some typeId => index d.strings typeId.descriptorIdx

/-- `argArrayFromProtoIndex`. -/
def argArrayFromProtoIndex (d : Data) (idx : Int) : Option (List Str) :=
  match index d.protoIds idx with
  | none => none
  | some protoId => mapOption (fun ty => classNameFromTypeIndex d ty) protoId.types

/-- `returnTypeFromProtoIndex`. -/
def returnTypeFromProtoIndex (d : Data) (idx : Int) : Option Str :=
  match index d.protoIds idx with
  | none => none
  | some protoId => classNameFromTypeIndex d protoId.returnTypeIdx

/-- The field reference resolved from a `fieldIdItem`. -/
def resolveFieldRef (d : Data) (fieldId : fieldIdItem) : Option FieldRef :=
  match classNameFromTypeIndex d fieldId.classIdx with
  | none => none
  | some declClass =>
    match classNameFromTypeIndex d fieldId.typeIdx with
    | none => none
    | some fieldType =>
      match index d.strings fieldId.nameIdx with
      | none => none
      | some fieldName =>
        some { DeclClass := declClass, FieldType := fieldType, FieldName := fieldName }

/-- The method reference resolved from a `methodIdItem`. -/
def resolveMethodRef (d : Data) (methodId : methodIdItem) : Option MethodRef :=
  match classNameFromTypeIndex d methodId.classIdx with
  | none => none
  | some declClass =>
    match argArrayFromProtoIndex d methodId.protoIdx with
    | none => none
    | some argTypes =>
      match returnTypeFromProtoIndex d methodId.protoIdx with
      | none => none
      | some returnType =>
        match index d.strings methodId.nameIdx with
        | none => none
        | some methodName =>
          some { DeclClass := declClass, ArgTypes := argTypes,
                 ReturnType := returnType, MethodName := methodName }

/-- `GetMethodRefs`. -/
def GetMethodRefs (d : Data) : Option (List MethodRef) :=
  mapOption (resolveMethodRef d) d.methodIds

/-- `GetFieldRefs`. -/
def GetFieldRefs (d : Data) : Option (List FieldRef) :=
  mapOption (resolveFieldRef d) d.fieldIds

/-- The zero value of `ClassRef`. -/
def ClassRef.zero : ClassRef := { ClassName := [], FieldRefs := [], MethodRefs := [] }

/-- The first loop of `GetExternalReferences`: the slice `sparseRefs` that
parallels `d.typeIds`, with an entry for every type that is not internal. -/
def GetExternalReferences.sparse (d : Data) : Option (List ClassRef) :=
  mapOption (fun typeId =>
    if typeId.internal then some ClassRef.zero
    else
      match index d.strings typeId.descriptorIdx with
      | none => none
      | some name => some { ClassName := name, FieldRefs := [], MethodRefs := [] })
    d.typeIds

/-- `addExternalFieldReferences`, over the field ids still to be visited.
`classRef := sparseRefs[fieldId.classIdx]` copies the struct, and the
`append` assigns to the copy: `sparseRefs` is returned as it came. -/
def addExternalFieldReferences (d : Data) (sparseRefs : List ClassRef) :
    List fieldIdItem → Option (List ClassRef)
  | [] => some sparseRefs
  | fieldId :: rest =>
    match index d.typeIds fieldId.classIdx with
    | none => none
    | some typeId =>
      if typeId.internal then addExternalFieldReferences d sparseRefs rest
      else
        match resolveFieldRef d fieldId with
        | none => none
        | some newFieldRef =>
          match index sparseRefs fieldId.classIdx with
          | none => none
          | some classRef =>
            let _classRef : ClassRef :=
              { classRef with FieldRefs := classRef.FieldRefs ++ [newFieldRef] }
            addExternalFieldReferences d sparseRefs rest

/-- `addExternalMethodReferences`, over the method ids still to be visited.
As for the fields, the `append` assigns to a copy of the slice element. -/
def addExternalMethodReferences (d : Data) (sparseRefs : List ClassRef) :
    List methodIdItem → Option (List ClassRef)
  | [] => some sparseRefs
  | methodId :: rest =>
    match index d.typeIds methodId.classIdx with
    | none => none
    | some typeId =>
      if typeId.internal then addExternalMethodReferences d sparseRefs rest
      else
        match resolveMethodRef d methodId with
        | none => none
        | some newMethodRef =>
          match index sparseRefs methodId.classIdx with
          | none => none
          | some classRef =>
            let _classRef : ClassRef :=
              { classRef with MethodRefs := classRef.MethodRefs ++ [newMethodRef] }
            addExternalMethodReferences d sparseRefs rest

/-- `GetExternalReferences`.  The result has `count` elements: the entries of
`sparseRefs` with a class name or a reference, in order, then zero values. -/
def GetExternalReferences (d : Data) : Option (List ClassRef) :=
  match GetExternalReferences.sparse d with
  | none => none
  | some sparse0 =>
    let count := (d.typeIds.filter (fun typeId => !typeId.internal)).length
    match addExternalFieldReferences d sparse0 d.fieldIds with
    | none => none
    | some sparse1 =>
      match addExternalMethodReferences d sparse1 d.methodIds with
      | none => none
      | some sparseRefs =>
        let kept := sparseRefs.filter (fun ref =>
          ref.ClassName ≠ [] || ref.FieldRefs.length ≠ 0 || ref.MethodRefs.length ≠ 0)
        some (kept ++ List.replicate (count - kept.length) ClassRef.zero)

/-! ## internal/dex/data.go: reading the file -/

def endianConstant : Int := 0x12345678

def reverseEndianConstant : Int := 0x78563412

/-- `verifyMagic`. -/
def verifyMagic (magic : List Byte) : Bool :=
  let dexFileMagic : List Byte := [0x64, 0x65, 0x78, 0x0a, 0x30, 0x33, 0x36, 0x00]
  let dexFileMagicApi13 : List Byte := [0x64, 0x65, 0x78, 0x0a, 0x30, 0x33, 0x35, 0x00]
  decide (magic = dexFileMagic) || decide (magic = dexFileMagicApi13)

/-- A call on `d.dexFile`. -/
def onFile {α : Type} (x : Run File α) : Run Data α := fun d =>
  match x d.dexFile with
  | (o, f) => (o, { d with dexFile := f })

/-- `readShort`. -/
def readShort : Run Data Int := do
  let buf ← onFile (readFully 2)
  let d ← Run.get
  pure (signed 16 (if d.isBigEndian then bigEndian buf else littleEndian buf))

/-- `readInt`. -/
def readInt : Run Data Int := do
  let buf ← onFile (readFully 4)
  let d ← Run.get
  pure (signed 32 (if d.isBigEndian then bigEndian buf else littleEndian buf))

/-- An assignment to a field of `d.headerItem`. -/
def setHeader (f : headerItem → headerItem) : Run Data Unit :=
  Run.update (fun d => { d with headerItem := f d.headerItem })

/-- `parseHeaderItem`. -/
def parseHeaderItem : Run Data Unit := do
  Run.update (fun d => { d with headerItem := {} })
  onFile (File.Seek 0)
  let magic ← onFile (readFully 8)
  if verifyMagic magic = false then Run.fail .wrongMagic else do
  onFile (File.Seek (8 + 4 + 20 + 4 + 4))
  let endianTag ← readInt
  setHeader (fun h => { h with endianTag := endianTag })
  if endianTag ≠ endianConstant ∧ endianTag ≠ reverseEndianConstant then
    Run.fail .unexpectedEndian
  else do
  if endianTag = endianConstant then pure ()
    else Run.update (fun d => { d with isBigEndian := true })
  onFile (File.Seek (8 + 4 + 20))
  let fileSize ← readInt
  setHeader (fun h => { h with fileSize := fileSize })
  let headerSize ← readInt
  setHeader (fun h => { h with headerSize := headerSize })
  let _endianTag ← readInt
  let _linkSize ← readInt
  let _linkOff ← readInt
  let _mapOff ← readInt
  let stringIdsSize ← readInt
  setHeader (fun h => { h with stringIdsSize := stringIdsSize })
  let stringIdsOff ← readInt
  setHeader (fun h => { h with stringIdsOff := stringIdsOff })
  let typeIdsSize ← readInt
  setHeader (fun h => { h with typeIdsSize := typeIdsSize })
  let typeIdsOff ← readInt
  setHeader (fun h => { h with typeIdsOff := typeIdsOff })
  let protoIdsSize ← readInt
  setHeader (fun h => { h with protoIdsSize := protoIdsSize })
  let protoIdsOff ← readInt
  setHeader (fun h => { h with protoIdsOff := protoIdsOff })
  let fieldIdsSize ← readInt
  setHeader (fun h => { h with fieldIdsSize := fieldIdsSize })
  let fieldIdsOff ← readInt
  setHeader (fun h => { h with fieldIdsOff := fieldIdsOff })
  let methodIdsSize ← readInt
  setHeader (fun h => { h with methodIdsSize := methodIdsSize })
  let methodIdsOff ← readInt
  setHeader (fun h => { h with methodIdsOff := methodIdsOff })
  let classDefsSize ← readInt
  setHeader (fun h => { h with classDefsSize := classDefsSize })
  let classDefsOff ← readInt
  setHeader (fun h => { h with classDefsOff := classDefsOff })
  let _dataSize ← readInt
  let _dataOff ← readInt
  pure ()

/-- A loop that fills a local slice of `n` elements with `readInt`. -/
def readInts : Nat → Run Data (List Int)
  | 0 => pure []
  | n + 1 => do
    let v ← readInt
    let rest ← readInts n
    pure (v :: rest)

/-- A loop that fills a local slice of `n` elements with `readShort`. -/
def readShorts : Nat → Run Data (List Int)
  | 0 => pure []
  | n + 1 => do
    let v ← readShort
    let rest ← readShorts n
    pure (v :: rest)

/-- The second loop of `loadStrings`, over the offsets still to be visited,
`i` being the index of the first of them. -/
def loadStrings.loop : List Int → Nat → Run Data Unit
  | [], _ => pure ()
  | offset :: rest, i => do
    onFile (File.Seek offset)
    let str ← onFile readString
    Run.update (fun d => { d with strings := d.strings.set i str })
    loadStrings.loop rest (i + 1)

/-- `loadStrings`. -/
def loadStrings : Run Data Unit := do
  let d ← Run.get
  let count ← makeSlice d.headerItem.stringIdsSize
  onFile (File.Seek d.headerItem.stringIdsOff)
  let stringOffsets ← readInts count
  Run.update (fun d => { d with strings := List.replicate count [] })
  match stringOffsets with
  | [] => Run.crash
  | first :: _ => do
    onFile (File.Seek first)
    loadStrings.loop stringOffsets 0

/-- `loadTypeIds`. -/
def loadTypeIds : Run Data Unit := do
  let d ← Run.get
  let count ← makeSlice d.headerItem.typeIdsSize
  Run.update (fun d => { d with typeIds := List.replicate count ⟨0, false⟩ })
  onFile (File.Seek d.headerItem.typeIdsOff)
  forRange (fun i => do
    Run.update (fun d => { d with typeIds := d.typeIds.set i ⟨0, false⟩ })
    let descriptorIdx ← readInt
    Run.update (fun d =>
      { d with typeIds := updateAt d.typeIds i (fun t => { t with descriptorIdx := descriptorIdx }) })) count 0

/-- The body of the second loop of `loadProtoIds`.  `protoId` is the loop
variable of `for _, protoId := range d.protoIds`, a copy of the element: the
assignments to `protoId.types` do not reach `d.protoIds`. -/
def loadProtoIds.typeList (protoId : protoIdItem) : Run Data Unit := do
  let offset := protoId.parametersOff
  if offset = 0 then
    let _protoId : protoIdItem := { protoId with types := [] }
    pure ()
  else do
    onFile (File.Seek offset)
    let size ← readInt
    let n ← makeSlice size
    let types ← readShorts n
    let _protoId : protoIdItem := { protoId with types := types }
    pure ()

/-- `loadProtoIds`. -/
def loadProtoIds : Run Data Unit := do
  let d ← Run.get
  let count ← makeSlice d.headerItem.protoIdsSize
  Run.update (fun d => { d with protoIds := List.replicate count ⟨0, 0, 0, []⟩ })
  onFile (File.Seek d.headerItem.protoIdsOff)
  forRange (fun i => do
    Run.update (fun d => { d with protoIds := d.protoIds.set i ⟨0, 0, 0, []⟩ })
    let shortyIdx ← readInt
    Run.update (fun d =>
      { d with protoIds := updateAt d.protoIds i (fun p => { p with shortyIdx := shortyIdx }) })
    let returnTypeIdx ← readInt
    Run.update (fun d =>
      { d with protoIds := updateAt d.protoIds i (fun p => { p with returnTypeIdx := returnTypeIdx }) })
    let parametersOff ← readInt
    Run.update (fun d =>
      { d with protoIds := updateAt d.protoIds i (fun p => { p with parametersOff := parametersOff }) })) count 0
  let d ← Run.get
  forEach loadProtoIds.typeList d.protoIds

/-- `loadFieldIds`. -/
def loadFieldIds : Run Data Unit := do
  let d ← Run.get
  let count ← makeSlice d.headerItem.fieldIdsSize
  Run.update (fun d => { d with fieldIds := List.replicate count ⟨0, 0, 0⟩ })
  onFile (File.Seek d.headerItem.fieldIdsOff)
  forRange (fun i => do
    Run.update (fun d => { d with fieldIds := d.fieldIds.set i ⟨0, 0, 0⟩ })
    let classIdx ← readShort
    Run.update (fun d =>
      { d with fieldIds := updateAt d.fieldIds i (fun x => { x with classIdx := classIdx }) })
    let typeIdx ← readShort
    Run.update (fun d =>
      { d with fieldIds := updateAt d.fieldIds i (fun x => { x with typeIdx := typeIdx }) })
    let nameIdx ← readInt
    Run.update (fun d =>
      { d with fieldIds := updateAt d.fieldIds i (fun x => { x with nameIdx := nameIdx }) })) count 0

/-- `loadMethodIds`. -/
def loadMethodIds : Run Data Unit := do
  let d ← Run.get
  let count ← makeSlice d.headerItem.methodIdsSize
  Run.update (fun d => { d with methodIds := List.replicate count ⟨0, 0, 0⟩ })
  onFile (File.Seek d.headerItem.methodIdsOff)
  forRange (fun i => do
    Run.update (fun d => { d with methodIds := d.methodIds.set i ⟨0, 0, 0⟩ })
    let classIdx ← readShort
    Run.update (fun d =>
      { d with methodIds := updateAt d.methodIds i (fun x => { x with classIdx := classIdx }) })
    let protoIdx ← readShort
    Run.update (fun d =>
      { d with methodIds := updateAt d.methodIds i (fun x => { x with protoIdx := protoIdx }) })
    let nameIdx ← readInt
    Run.update (fun d =>
      { d with methodIds := updateAt d.methodIds i (fun x => { x with nameIdx := nameIdx }) })) count 0

/-- `loadClassDefs`. -/
def loadClassDefs : Run Data Unit := do
  let d ← Run.get
  let count ← makeSlice d.headerItem.classDefsSize
  Run.update (fun d => { d with classDefs := List.replicate count ⟨0⟩ })
  onFile (File.Seek d.headerItem.classDefsOff)
  forRange (fun i => do
    Run.update (fun d => { d with classDefs := d.classDefs.set i ⟨0⟩ })
    let classIdx ← readInt
    Run.update (fun d =>
      { d with classDefs := updateAt d.classDefs i (fun x => { x with classIdx := classIdx }) })
    let _accessFlags ← readInt
    let _superclassIdx ← readInt
    let _interfacesOff ← readInt
    let _sourceFileIdx ← readInt
    let _annotationsOff ← readInt
    let _classDataOff ← readInt
    let _staticValuesOff ← readInt
    pure ()) count 0

/-- The body of the first loop of `markInternalClasses`:
`d.typeIds[classDef.classIdx].internal = true`. -/
def markInternalClasses.declared (classDef : classDefItem) : Run Data Unit := do
  let d ← Run.get
  match index d.typeIds classDef.classIdx with
  | none => Run.crash
  | some _ =>
    Run.update (fun d =>
      { d with typeIds := updateAt d.typeIds classDef.classIdx.toNat (fun t => { t with internal := true }) })

/-- The body of the second loop of `markInternalClasses`.  `typeId` is the loop
variable of `for _, typeId := range d.typeIds`, a copy of the element: the
assignments to `typeId.internal` do not reach `d.typeIds`. -/
def markInternalClasses.builtin (typeId : typeIdItem) : Run Data Unit := do
  let d ← Run.get
  match index d.strings typeId.descriptorIdx with
  | none => Run.crash
  | some className =>
    if className.length = 1 then
      let _typeId : typeIdItem := { typeId with internal := true }
      pure ()
    else
      match byteAt className 0 with
      | none => Run.crash
      | some b =>
        if b = ch '[' then
          let _typeId : typeIdItem := { typeId with internal := true }
          pure ()
        else pure ()

/-- `markInternalClasses`. -/
def markInternalClasses : Run Data Unit := do
  let d ← Run.get
  forEach markInternalClasses.declared d.classDefs
  let d ← Run.get
  forEach markInternalClasses.builtin d.typeIds

/-- `load`. -/
def load : Run Data Unit := do
  parseHeaderItem
  loadStrings
  loadTypeIds
  loadProtoIds
  loadFieldIds
  loadMethodIds
  loadClassDefs
  markInternalClasses

/-- The `Data` that `New` sets up for a file before it calls `load`. -/
def Data.init (f : File) : Data :=
  { strings := [], typeIds := [], protoIds := [], fieldIds := [], methodIds := [],
    classDefs := [], dexFile := f }

/-- `New`. -/
def New (f : File) : Outcome Data :=
  match load (Data.init f) with
  | (.ok _, d) => .ok d
  | (.error e, _) => .error e
  | (.panic, _) => .panic

/-! ## filter.go, output.go -/

def filterAll : Int := 0

def filterDefinedOnly : Int := 1

def filterReferencedOnly : Int := 2

/-- The struct `filter`. -/
structure filter where
  val : Int
deriving DecidableEq

def outputTree : Int := 0

def outputFlat : Int := 1

/-- The struct `output`. -/
structure output where
  val : Int
deriving DecidableEq

/-! ## methodgenerator.go, fieldgenerator.go: filtering and counting -/

/-- The struct `methodRefKey`. -/
structure methodRefKey where
  declClass : Str
  argTypes : Str
  returnType : Str
  methodName : Str
deriving DecidableEq

/-- `newMethodRefKey`. -/
def newMethodRefKey (m : MethodRef) : methodRefKey :=
  { declClass := m.DeclClass
    argTypes := stringsJoin m.ArgTypes (ascii ",")
    returnType := m.ReturnType
    methodName := m.MethodName }

/-- `getMethodRefs`.  The set `externalMethodRefs` is the list of its keys. -/
def getMethodRefs (dexData : Data) (f : filter) : Option (List MethodRef) :=
  match GetMethodRefs dexData with
  | none => none
  | some methodRefs =>
    if f.val = filterAll then some methodRefs
    else
      match GetExternalReferences dexData with
      | none => none
      | some externalClassRefs =>
        let externalMethodRefs : List methodRefKey :=
          (externalClassRefs.flatMap (fun classRef => classRef.MethodRefs)).map newMethodRefKey
        some (methodRefs.filter (fun methodRef =>
          let isExternal := decide (newMethodRefKey methodRef ∈ externalMethodRefs)
          (decide (f.val = filterDefinedOnly) && !isExternal) ||
            (decide (f.val = filterReferencedOnly) && isExternal)))

/-- `getFieldRefs`.  The set `externalFieldRefs` is the list of its keys. -/
def getFieldRefs (dexData : Data) (f : filter) : Option (List FieldRef) :=
  match GetFieldRefs dexData with
  | none => none
  | some fieldRefs =>
    if f.val = filterAll then some fieldRefs
    else
      match GetExternalReferences dexData with
      | none => none
      | some externalClassRefs =>
        let externalFieldRefs : List FieldRef :=
          externalClassRefs.flatMap (fun classRef => classRef.FieldRefs)
        some (fieldRefs.filter (fun fieldRef =>
          let isExternal := decide (fieldRef ∈ externalFieldRefs)
          (decide (f.val = filterDefinedOnly) && !isExternal) ||
            (decide (f.val = filterReferencedOnly) && isExternal)))

/-- The name a reference is counted under: the dotted class name with `$`
replaced by `.` when `includeClasses` is set, the package name otherwise. -/
def packageNameOf (includeClasses : Bool) (classDescriptor : Str) : Option Str :=
  if includeClasses then
    match DescriptorToDot classDescriptor with
    | none => none
    | some dotted => some (stringsReplace dotted (ch '$') (ch '.'))
  else PackageNameOnly classDescriptor

/-- The flat branch of the loop body of `generate`: the child of the root
under `packageName` is created when absent, and its count is incremented. -/
def insertFlat (packageTree : node) (packageName : Str) : node :=
  match mapGet packageTree.children packageName with
  | some n =>
    .mk packageTree.count packageTree.names
      (mapSet packageTree.children packageName n.increment)
  | none =>
    .mk packageTree.count (packageTree.names ++ [packageName])
      (mapSet packageTree.children packageName newNode.increment)

/-- The body of the loop of `generate` for one reference with the declaring
class `classDescriptor`; it is the same text in `methodGenerator.generate` and
in `fieldGenerator.generate`. -/
def generate.body (outputStyle : output) (includeClasses : Bool)
    (packageFilter : Str) (maxDepth : Nat) (state : countState)
    (classDescriptor : Str) : Option countState :=
  match packageNameOf includeClasses classDescriptor with
  | none => none
  | some packageName =>
    if packageFilter ≠ [] ∧ stringsHasPrefix packageName packageFilter = false then
      some state
    else
      let overallCount := state.overallCount + 1
      if outputStyle.val = outputTree then
        some { overallCount := overallCount
               packageTree := nodeForNamePieces state.packageTree
                 (stringsSplit packageName (ch '.')) maxDepth }
      else if outputStyle.val = outputFlat then
        some { overallCount := overallCount
               packageTree := insertFlat state.packageTree packageName }
      else some { overallCount := overallCount, packageTree := state.packageTree }

/-- The loop of `generate` over the declaring classes of the references. -/
def generate.loop (outputStyle : output) (includeClasses : Bool)
    (packageFilter : Str) (maxDepth : Nat) :
    countState → List Str → Option countState
  | state, [] => some state
  | state, classDescriptor :: rest =>
    match generate.body outputStyle includeClasses packageFilter maxDepth state
        classDescriptor with
    | none => none
    | some state1 =>
      generate.loop outputStyle includeClasses packageFilter maxDepth state1 rest

/-- The struct `methodGenerator`. -/
structure methodGenerator where
  outputStyle : output

/-- The struct `fieldGenerator`. -/
structure fieldGenerator where
  outputStyle : output

/-- `methodGenerator.generate`. -/
def methodGenerator.generate (g : methodGenerator) (d : Data)
    (includeClasses : Bool) (packageFilter : Str) (maxDepth : Nat)
    (f : filter) : Option countState :=
  match getMethodRefs d f with
  | none => none
  | some methodRefs =>
    generate.loop g.outputStyle includeClasses packageFilter maxDepth
      { overallCount := 0, packageTree := newNode }
      (methodRefs.map (fun methodRef => methodRef.DeclClass))

/-- `fieldGenerator.generate`. -/
def fieldGenerator.generate (g : fieldGenerator) (d : Data)
    (includeClasses : Bool) (packageFilter : Str) (maxDepth : Nat)
    (f : filter) : Option countState :=
  match getFieldRefs d f with
  | none => none
  | some fieldRefs =>
    generate.loop g.outputStyle includeClasses packageFilter maxDepth
      { overallCount := 0, packageTree := newNode }
      (fieldRefs.map (fun fieldRef => fieldRef.DeclClass))

/-! ## dexcounter.go, main.go: the counter and the loops of `main` -/

/-- Modelled from the spec: the declarations of the interface `generator` and
of `newGenerator` are not among the sources; there is one generator per kind
of reference, the field generator when `countFields` is set and the method
generator otherwise. -/
inductive generator where
  | methods (g : methodGenerator)
  | fields (g : fieldGenerator)

/-- Modelled from the spec: `newGenerator`, see `generator`. -/
def newGenerator (countFields : Bool) (outputStyle : output) : generator :=
  if countFields then .fields ⟨outputStyle⟩ else .methods ⟨outputStyle⟩

/-- The call `c.generator.generate(...)` of the interface method. -/
def generator.generate (g : generator) (d : Data) (includeClasses : Bool)
    (packageFilter : Str) (maxDepth : Nat) (f : filter) : Option countState :=
  match g with
  | .methods m => m.generate d includeClasses packageFilter maxDepth f
  | .fields m => m.generate d includeClasses packageFilter maxDepth f

/-- The struct `dexCounter`. -/
structure dexCounter where
  generator : DexMethodCounts.generator
  countState : DexMethodCounts.countState
  outputStyle : output

/-- `newDexCounter`. -/
def newDexCounter (countFields : Bool) (outputStyle : output) : dexCounter :=
  { generator := newGenerator countFields outputStyle
    countState := { overallCount := 0, packageTree := newNode }
    outputStyle := outputStyle }

/-- `dexCounter.generate`; the counter behind the pointer is returned. -/
def dexCounter.generate (c : dexCounter) (d : Data) (includeClasses : Bool)
    (packageFilter : Str) (maxDepth : Nat) (f : filter) : Option dexCounter :=
  match c.generator.generate d includeClasses packageFilter maxDepth f with
  | none => none
  | some state => some { c with countState := mergeCountState c.countState state }

/-- The inner loop of `main`, `for _, dexFile := range dexFiles`, over the
`Data` that `dex.New` returned for the dex files of one input. -/
def main.files (includeClasses : Bool) (packageFilter : Str) (maxDepth : Nat) (f : filter) :
    dexCounter → List Data → Option dexCounter
  | counter, [] => some counter
  | counter, data :: rest =>
    match counter.generate data includeClasses packageFilter maxDepth f with
    | none => none
    | some counter1 => main.files includeClasses packageFilter maxDepth f counter1 rest

/-- The counter of one input of `main`, after the inner loop. -/
def main.counter (countFields includeClasses : Bool) (packageFilter : Str) (maxDepth : Nat)
    (f : filter) (out : output) (dexFiles : List Data) : Option dexCounter :=
  main.files includeClasses packageFilter maxDepth f (newDexCounter countFields out) dexFiles

/-- The outer loop of `main`, `for _, fileName := range collectFileNames(...)`,
over the inputs still to be processed, each given by the `Data` of its dex
files; the first argument is the variable `overallCount`. -/
def main.loop (countFields includeClasses : Bool) (packageFilter : Str) (maxDepth : Nat)
    (f : filter) (out : output) : Int → List (List Data) → Option Int
  | overallCount, [] => some overallCount
  | _, dexFiles :: rest =>
    match main.counter countFields includeClasses packageFilter maxDepth f out dexFiles with
    | none => none
    | some counter =>
      main.loop countFields includeClasses packageFilter maxDepth f out
        counter.countState.overallCount rest

/-- The count that `main` prints after the loop (`var overallCount int` is 0
before it). -/
def main.overallCount (countFields includeClasses : Bool) (packageFilter : Str)
    (maxDepth : Nat) (f : filter) (out : output) (inputs : List (List Data)) : Option Int :=
  main.loop countFields includeClasses packageFilter maxDepth f out 0 inputs

/-! ## Reading a tree -/

/-- The child of a node under a name, `n.children[name]`. -/
def node.child (n : node) (name : Str) : Option node := mapGet n.children name

/-- The node reached from `n` by following the child names of a path. -/
def nodeAt : node → List Str → Option node
  | n, [] => some n
  | n, name :: path =>
    match n.child name with
    | some c => nodeAt c path
    | none => none

mutual
/-- Every map of the tree holds each key once. -/
def node.wf : node → Bool
  | .mk _ _ ch => decide (keysNodup ch) && node.wfChildren ch
/-- Every tree stored in the map is well formed. -/
def node.wfChildren : List (Str × node) → Bool
  | [] => true
  | (_, n) :: rest => node.wf n && node.wfChildren rest
end

/-- Two nodes carry the same count, the same names and the same set of child
names. -/
def sameNode (a b : node) : Prop :=
  a.count = b.count ∧ a.names = b.names ∧
    ∀ name, name ∈ keys a.children ↔ name ∈ keys b.children

/-- Both absent, or both present and the same as nodes. -/
def sameOption : Option node → Option node → Prop
  | some x, some y => sameNode x y
  | none, none => True
  | _, _ => False

/-- Two trees have the same nodes, and at every node the same count, the same
names and the same set of child names: whatever path is followed from the two
roots, it leads to a node in both trees or in neither, and the two nodes are
the same. -/
def sameTree (a b : node) : Prop :=
  ∀ path, sameOption (nodeAt a path) (nodeAt b path)

/-- The child of a merged node under a name, from the children of the two
merged nodes under that name. -/
def mergeOption : Option node → Option node → Option node
  | some a, some b => some (mergeNodes a b)
  | some a, none => some a
  | none, some b => some b
  | none, none => none

/-- The key under which `incrementCount` stores the child for a piece: the
piece itself, or `<default>` for the empty piece. -/
def childName (piece : Str) : Str :=
  if piece.length = 0 then ascii "<default>" else piece

/-- The count of the node at a path; 0 when there is no node. -/
def countAt (t : node) (p : List Str) : Int :=
  match nodeAt t p with
  | some n => n.count
  | none => 0

/-! ## Words of the claims on `generate` -/

/-- The names of a list in the order of their first occurrence, each once. -/
def firstOccurrences : List Str → List Str
  | [] => []
  | x :: xs => x :: (firstOccurrences xs).filter (fun y => decide (y ≠ x))

/-- How often a name occurs in a list. -/
def occurrences (name : Str) (l : List Str) : Int :=
  (l.countP (fun x => decide (x = name)) : Nat)

/-- A name passes the package filter of `generate`: the filter is empty or a
prefix of the name. -/
def passesFilter (packageFilter name : Str) : Bool :=
  decide (packageFilter = []) || stringsHasPrefix name packageFilter

/-- The state `st` is the flat count of the names `passing`: `overallCount` is
their number, the `names` of the root are the distinct names in order of first
occurrence, the children of the root are exactly the distinct names, the child
under a name has the number of occurrences of the name as its count, and the
counts of the children add up to `overallCount`. -/
def flatCountOf (passing : List Str) (st : countState) : Prop :=
  st.overallCount = passing.length ∧
  st.packageTree.names = firstOccurrences passing ∧
  (∀ name, name ∈ keys st.packageTree.children ↔ name ∈ passing) ∧
  keysNodup st.packageTree.children ∧
  (∀ name, name ∈ passing →
    ∃ c, st.packageTree.child name = some c ∧ c.count = occurrences name passing) ∧
  (st.packageTree.children.map (fun e => e.2.count)).sum = st.overallCount

/-- The invariant of the loop of `generate` for flat style, after the names
`passing` have been counted: the children of the root are leaves. -/
def flatInvariant (passing : List Str) (st : countState) : Prop :=
  st.overallCount = passing.length ∧
  st.packageTree.names = firstOccurrences passing ∧
  (∀ k, mapGet st.packageTree.children k
    = if k ∈ passing then some (node.mk (occurrences k passing) [] []) else none) ∧
  (st.packageTree.children.map (fun e => e.2.count)).sum = st.overallCount ∧
  keysNodup st.packageTree.children

/-- A small file for the examples: the class `com.a.Foo` is defined in it, the
classes `java.lang.String` and `b.Bar` are referenced only. -/
def exampleData : Data :=
  { strings := [ascii "Lcom/a/Foo;", ascii "Ljava/lang/String;", ascii "V",
                ascii "run", ascii "x", ascii "Lb/Bar;"]
    typeIds := [⟨0, true⟩, ⟨1, false⟩, ⟨2, true⟩, ⟨5, false⟩]
    protoIds := [⟨2, 2, 0, []⟩, ⟨2, 2, 0, [1, 1]⟩]
    fieldIds := [⟨0, 1, 4⟩, ⟨1, 1, 4⟩, ⟨0, 0, 3⟩]
    methodIds := [⟨0, 0, 3⟩, ⟨1, 1, 3⟩, ⟨0, 1, 3⟩, ⟨3, 0, 4⟩]
    classDefs := [⟨0⟩] }

/-! ## Words of the claims on the reader -/

/-- The state `s` of a reader: the file has the bytes `D`, the byte order is
`b` (big-endian when true), the offset is `p` and the header is `h`. -/
def HeaderAt (D : List Byte) (b : Bool) (p : Nat) (h : headerItem) (s : Data) : Prop :=
  s.dexFile.data = D ∧ s.isBigEndian = b ∧ s.dexFile.pos = p ∧ s.headerItem = h

/-- The state `s` of a reader: the file has the bytes `D` and the byte order
is `b`. -/
def Inv (D : List Byte) (b : Bool) (s : Data) : Prop :=
  s.dexFile.data = D ∧ s.isBigEndian = b

/-- Every call of `m` in a state with `P` ends with an outcome and in a state
with `Q`. -/
def Holds {α : Type} (P : Data → Prop) (m : Run Data α) (Q : Outcome α → Data → Prop) : Prop :=
  ∀ s, P s → Q (m s).1 (m s).2

/-- The 32-bit integer that the four bytes of `D` at offset `p` are in the
byte order `b`. -/
def intAt (D : List Byte) (b : Bool) (p : Nat) : Int :=
  signed 32 (if b then bigEndian ((D.drop p).take 4) else littleEndian ((D.drop p).take 4))

/-- The header of a file with the bytes `D`: the tag read in the order `b0`,
the other fields in the order `b`, each at its offset. -/
def headerOf (D : List Byte) (b0 b : Bool) : headerItem :=
  { fileSize := intAt D b 32, headerSize := intAt D b 36, endianTag := intAt D b0 40,
    stringIdsSize := intAt D b 56, stringIdsOff := intAt D b 60,
    typeIdsSize := intAt D b 64, typeIdsOff := intAt D b 68,
    protoIdsSize := intAt D b 72, protoIdsOff := intAt D b 76,
    fieldIdsSize := intAt D b 80, fieldIdsOff := intAt D b 84,
    methodIdsSize := intAt D b 88, methodIdsOff := intAt D b 92,
    classDefsSize := intAt D b 96, classDefsOff := intAt D b 100 }

/-- A file of 288 bytes for the examples: a little-endian header, seven
strings, four types, two prototypes (the second one with a parameter list of
one type), two fields, two methods and one class definition. -/
def exampleFile : File :=
  { data := [
    0x64, 0x65, 0x78, 0x0a, 0x30, 0x33, 0x35, 0x00, 0x00, 0x00, 0x00, 0x00, 0x00, 0x00, 0x00, 0x00,
    0x00, 0x00, 0x00, 0x00, 0x00, 0x00, 0x00, 0x00, 0x00, 0x00, 0x00, 0x00, 0x00, 0x00, 0x00, 0x00,
    0x20, 0x01, 0x00, 0x00, 0x70, 0x00, 0x00, 0x00, 0x78, 0x56, 0x34, 0x12, 0x00, 0x00, 0x00, 0x00,
    0x00, 0x00, 0x00, 0x00, 0x00, 0x00, 0x00, 0x00, 0x07, 0x00, 0x00, 0x00, 0x70, 0x00, 0x00, 0x00,
    0x04, 0x00, 0x00, 0x00, 0x8c, 0x00, 0x00, 0x00, 0x02, 0x00, 0x00, 0x00, 0x9c, 0x00, 0x00, 0x00,
    0x02, 0x00, 0x00, 0x00, 0xb4, 0x00, 0x00, 0x00, 0x02, 0x00, 0x00, 0x00, 0xc4, 0x00, 0x00, 0x00,
    0x01, 0x00, 0x00, 0x00, 0xd4, 0x00, 0x00, 0x00, 0x2c, 0x00, 0x00, 0x00, 0xf4, 0x00, 0x00, 0x00,
    0xfc, 0x00, 0x00, 0x00, 0xff, 0x00, 0x00, 0x00, 0x08, 0x01, 0x00, 0x00, 0x11, 0x01, 0x00, 0x00,
    0x14, 0x01, 0x00, 0x00, 0x19, 0x01, 0x00, 0x00, 0x1c, 0x01, 0x00, 0x00, 0x00, 0x00, 0x00, 0x00,
    0x01, 0x00, 0x00, 0x00, 0x02, 0x00, 0x00, 0x00, 0x03, 0x00, 0x00, 0x00, 0x03, 0x00, 0x00, 0x00,
    0x03, 0x00, 0x00, 0x00, 0x00, 0x00, 0x00, 0x00, 0x06, 0x00, 0x00, 0x00, 0x03, 0x00, 0x00, 0x00,
    0xf4, 0x00, 0x00, 0x00, 0x01, 0x00, 0x00, 0x00, 0x05, 0x00, 0x00, 0x00, 0x02, 0x00, 0x00, 0x00,
    0x05, 0x00, 0x00, 0x00, 0x01, 0x00, 0x00, 0x00, 0x04, 0x00, 0x00, 0x00, 0x02, 0x00, 0x01, 0x00,
    0x04, 0x00, 0x00, 0x00, 0x01, 0x00, 0x00, 0x00, 0x01, 0x00, 0x00, 0x00, 0xff, 0xff, 0xff, 0xff,
    0x00, 0x00, 0x00, 0x00, 0xff, 0xff, 0xff, 0xff, 0x00, 0x00, 0x00, 0x00, 0x00, 0x00, 0x00, 0x00,
    0x00, 0x00, 0x00, 0x00, 0x01, 0x00, 0x00, 0x00, 0x00, 0x00, 0x00, 0x00, 0x01, 0x49, 0x00, 0x07,
    0x4c, 0x61, 0x2f, 0x46, 0x6f, 0x6f, 0x3b, 0x00, 0x07, 0x4c, 0x62, 0x2f, 0x42, 0x61, 0x72, 0x3b,
    0x00, 0x01, 0x56, 0x00, 0x03, 0x72, 0x75, 0x6e, 0x00, 0x01, 0x78, 0x00, 0x02, 0x56, 0x49, 0x00],
    pos := 0, log := [] }

/-- The `Data` that `load` leaves for the example file. -/
def exampleLoaded : Data := (load (Data.init exampleFile)).2

/-! ## Words of the claims on trees -/

/-- Every node of the tree `t`, the root and whatever a path of child names
leads to, has the property `P`. -/
def everyNode (P : node → Prop) (t : node) : Prop :=
  ∀ path n, nodeAt t path = some n → P n

/-- The names of the node are the keys of its children, each once; the map of
the children holds each key once, as every Go map does. -/
def namesAreKeys (n : node) : Prop :=
  keysNodup n.children ∧ n.names.Nodup ∧ ∀ k, k ∈ n.names ↔ k ∈ keys n.children

/-- The count of the node is at least the sum of the counts of its children;
the map of the children holds each key once, as every Go map does. -/
def countCoversChildren (n : node) : Prop :=
  keysNodup n.children ∧ (n.children.map (fun e => e.2.count)).sum ≤ n.count

/-- The trees built from the empty tree by insertions of tree style, all with
the same `maxDepth`. -/
inductive builtByInsertions (maxDepth : Nat) : node → Prop where
  | empty : builtByInsertions maxDepth newNode
  | insert (t : node) (pieces : List Str) :
      builtByInsertions maxDepth t →
      builtByInsertions maxDepth (nodeForNamePieces t pieces maxDepth)

/-- Both absent, or both present with the same count and with names that are
a rearrangement of each other. -/
def sameButNamesOrder : Option node → Option node → Prop
  | some x, some y => x.count = y.count ∧ x.names.Perm y.names
  | none, none => True
  | _, _ => False

/-- The tree `a2` differs from the tree `a` only in the order of the names of
its nodes: whatever path is followed from the two roots, it leads to a node in
both trees or in neither, and the two nodes have the same count and the same
names up to their order. -/
def differsInNamesOrder (a a2 : node) : Prop :=
  ∀ path, sameButNamesOrder (nodeAt a path) (nodeAt a2 path)

/-- The tree of the two paths `x.b` and `x.a`, inserted in this order. -/
def exampleTreeBA : node :=
  nodeForNamePieces (nodeForNamePieces newNode [ascii "x", ascii "b"] 3)
    [ascii "x", ascii "a"] 3

/-- The tree of the two paths `x.a` and `x.b`, inserted in this order. -/
def exampleTreeAB : node :=
  nodeForNamePieces (nodeForNamePieces newNode [ascii "x", ascii "a"] 3)
    [ascii "x", ascii "b"] 3

/-! ## Examples for the claims on the reader -/

/-- A file of 112 bytes that is a header and nothing else: the magic number,
the file size and the header size 112, the little-endian tag, and zero for
every count and offset. -/
def headerOnlyFile : File :=
  { data := [0x64, 0x65, 0x78, 0x0a, 0x30, 0x33, 0x35, 0x00] ++ List.replicate 24 0 ++
      [0x70, 0x00, 0x00, 0x00, 0x70, 0x00, 0x00, 0x00, 0x78, 0x56, 0x34, 0x12] ++
      List.replicate 68 0,
    pos := 0, log := [] }

/-- Tables with 32769 types and one field, whose declaring-class index is
stored in the file as the two bytes `00 80` (little-endian), the unsigned
value 32768; `readShort` returns -32768 for them. -/
def manyTypesData : Data :=
  { strings := [ascii "I"]
    typeIds := List.replicate 32769 ⟨0, false⟩
    protoIds := []
    fieldIds := [⟨-32768, 0, 0⟩]
    methodIds := []
    classDefs := [] }

/-! # Theorems -/

/-! ## Maps -/

theorem mapGet_mapSet {β : Type} (m : List (Str × β)) (k k2 : Str) (v : β) :
    mapGet (mapSet m k v) k2 = if k = k2 then some v else mapGet m k2 := by
  induction m with
  | nil => simp [mapSet, mapGet]
  | cons e rest ih =>
    obtain ⟨a, w⟩ := e
    by_cases h : a = k
    · subst h
      by_cases h2 : a = k2 <;> simp [mapSet, mapGet, h2]
    · by_cases h2 : a = k2
      · subst h2
        have h3 : ¬ k = a := fun e => h e.symm
        simp [mapSet, mapGet, h, h3]
      · simp [mapSet, mapGet, h, h2, ih]

theorem mem_keys_iff {β : Type} (m : List (Str × β)) (k : Str) :
    k ∈ keys m ↔ ∃ v, mapGet m k = some v := by
  induction m with
  | nil => simp [keys, mapGet]
  | cons e rest ih =>
    obtain ⟨a, w⟩ := e
    by_cases h : a = k
    · subst h
      simp [keys, mapGet]
    · have h3 : ¬ k = a := fun e => h e.symm
      have ih2 : k ∈ List.map Prod.fst rest ↔ ∃ v, mapGet rest k = some v := ih
      simp only [keys, List.map_cons, List.mem_cons, mapGet, h, if_false, h3, false_or]
      exact ih2

theorem not_mem_keys_iff {β : Type} (m : List (Str × β)) (k : Str) :
    k ∉ keys m ↔ mapGet m k = none := by
  rw [mem_keys_iff]
  cases mapGet m k <;> simp

theorem keys_mapSet {β : Type} (m : List (Str × β)) (k : Str) (v : β) :
    keys (mapSet m k v) = if k ∈ keys m then keys m else keys m ++ [k] := by
  induction m with
  | nil => simp [mapSet, keys]
  | cons e rest ih =>
    obtain ⟨a, w⟩ := e
    by_cases h : a = k
    · subst h
      simp [mapSet, keys]
    · have h3 : ¬ k = a := fun e => h e.symm
      have ih2 : List.map Prod.fst (mapSet rest k v)
          = if k ∈ List.map Prod.fst rest then List.map Prod.fst rest
            else List.map Prod.fst rest ++ [k] := ih
      simp only [mapSet, h, if_false, keys, List.map_cons, List.mem_cons, h3, false_or, ih2]
      split <;> simp

theorem keysNodup_mapSet {β : Type} (m : List (Str × β)) (k : Str) (v : β)
    (h : keysNodup m) : keysNodup (mapSet m k v) := by
  unfold keysNodup at *
  rw [keys_mapSet]
  split
  · exact h
  · rename_i hk
    rw [List.nodup_append]
    refine ⟨h, List.nodup_singleton k, ?_⟩
    intro x hx hx2
    simp only [List.mem_singleton] at hx2
    subst hx2
    exact hk hx

theorem mapGet_mem {β : Type} (m : List (Str × β)) (k : Str) (v : β)
    (h : mapGet m k = some v) : (k, v) ∈ m := by
  induction m with
  | nil => simp [mapGet] at h
  | cons e rest ih =>
    obtain ⟨a, w⟩ := e
    by_cases hk : a = k
    · subst hk
      simp [mapGet] at h
      subst h
      simp
    · simp [mapGet, hk] at h
      exact List.mem_cons_of_mem _ (ih h)

theorem keysNodup_tail {β : Type} (e : Str × β) (rest : List (Str × β))
    (h : keysNodup (e :: rest)) : keysNodup rest := by
  unfold keysNodup keys at *
  simp only [List.map_cons, List.nodup_cons] at h
  exact h.2

theorem keysNodup_head {β : Type} (k : Str) (v : β) (rest : List (Str × β))
    (h : keysNodup ((k, v) :: rest)) : mapGet rest k = none := by
  rw [← not_mem_keys_iff]
  unfold keysNodup keys at *
  simp only [List.map_cons, List.nodup_cons] at h
  exact h.1

/-! ## mergeNames -/

theorem sortStrings_sorted (l : List Str) : (sortStrings l).Sorted (· ≤ ·) :=
  List.sorted_insertionSort _ l

theorem sortStrings_perm (l : List Str) : (sortStrings l).Perm l :=
  List.perm_insertionSort _ l

theorem sortStrings_congr (l1 l2 : List Str) (h : l1.Perm l2) :
    sortStrings l1 = sortStrings l2 :=
  List.eq_of_perm_of_sorted
    (((sortStrings_perm l1).trans h).trans (sortStrings_perm l2).symm)
    (sortStrings_sorted l1) (sortStrings_sorted l2)

theorem mem_sortStrings (l : List Str) (x : Str) : x ∈ sortStrings l ↔ x ∈ l :=
  (sortStrings_perm l).mem_iff

theorem mem_mergeNames (n n2 : List Str) (x : Str) :
    x ∈ mergeNames n n2 ↔ x ∈ n ∨ x ∈ n2 := by
  simp [mergeNames, mem_sortStrings]

/-- The order in which `range` visits the keys of `uniqueNames` has no effect
on the result of `mergeNames`. -/
theorem mergeNames_range_order (n n2 l : List Str) (h : l.Perm (n ++ n2).dedup) :
    sortStrings l = mergeNames n n2 :=
  sortStrings_congr _ _ h

theorem mergeNames_comm (n n2 : List Str) : mergeNames n n2 = mergeNames n2 n :=
  sortStrings_congr _ _ (List.Perm.dedup List.perm_append_comm)

theorem mergeNames_assoc (a b c : List Str) :
    mergeNames (mergeNames a b) c = mergeNames a (mergeNames b c) := by
  apply sortStrings_congr
  rw [List.perm_ext_iff_of_nodup (List.nodup_dedup _) (List.nodup_dedup _)]
  intro x
  simp only [List.mem_dedup, List.mem_append, mem_mergeNames]
  tauto

/-! ## mergeChildren -/

theorem mergeNodes_eq (n n2 : node) :
    mergeNodes n n2 = .mk (n.count + n2.count) (mergeNames n.names n2.names)
      (mergeChildren n.children n2.children) := by
  cases n with
  | mk c ns chs => simp [mergeNodes, mergeChildren, node.count, node.names, node.children]

theorem mergeNodes_count (n n2 : node) :
    (mergeNodes n n2).count = n.count + n2.count := by
  rw [mergeNodes_eq]; rfl

theorem mergeNodes_names (n n2 : node) :
    (mergeNodes n n2).names = mergeNames n.names n2.names := by
  rw [mergeNodes_eq]; rfl

theorem mergeNodes_children (n n2 : node) :
    (mergeNodes n n2).children = mergeChildren n.children n2.children := by
  rw [mergeNodes_eq]; rfl

theorem mapGet_first (c c2 merged : List (Str × node)) (k : Str) (h : keysNodup c) :
    mapGet (mergeChildren.first c c2 merged) k =
      match mapGet c k with
      | some n => mergeOption (some n) (mapGet c2 k)
      | none => mapGet merged k := by
  induction c generalizing merged with
  | nil => simp [mergeChildren.first, mapGet]
  | cons e rest ih =>
    obtain ⟨name, n⟩ := e
    have hrest := keysNodup_tail _ _ h
    have hhead := keysNodup_head _ _ _ h
    by_cases hk : name = k
    · subst hk
      cases h2 : mapGet c2 name with
      | none =>
        simp [mergeChildren.first, h2, ih _ hrest, hhead, mapGet_mapSet, mapGet, mergeOption]
      | some o =>
        simp [mergeChildren.first, h2, ih _ hrest, hhead, mapGet_mapSet, mapGet, mergeOption]
    · cases h2 : mapGet c2 name with
      | none => simp [mergeChildren.first, h2, ih _ hrest, mapGet_mapSet, mapGet, hk]
      | some o => simp [mergeChildren.first, h2, ih _ hrest, mapGet_mapSet, mapGet, hk]

theorem mapGet_second (c c2 merged : List (Str × node)) (k : Str) (h : keysNodup c2) :
    mapGet (mergeChildren.second c c2 merged) k =
      match mapGet c2 k, mapGet c k with
      | some n, none => some n
      | _, _ => mapGet merged k := by
  induction c2 generalizing merged with
  | nil => simp [mergeChildren.second, mapGet]
  | cons e rest ih =>
    obtain ⟨name, n⟩ := e
    have hrest := keysNodup_tail _ _ h
    have hhead := keysNodup_head _ _ _ h
    by_cases hk : name = k
    · subst hk
      cases h2 : mapGet c name with
      | none =>
        simp [mergeChildren.second, h2, ih _ hrest, hhead, mapGet_mapSet, mapGet]
      | some o =>
        simp [mergeChildren.second, h2, ih _ hrest, hhead, mapGet_mapSet, mapGet]
    · cases h2 : mapGet c name with
      | none => simp [mergeChildren.second, h2, ih _ hrest, mapGet_mapSet, mapGet, hk]
      | some o => simp [mergeChildren.second, h2, ih _ hrest, mapGet_mapSet, mapGet, hk]

/-- The child of a merged map under a name. -/
theorem mapGet_mergeChildren (c c2 : List (Str × node)) (k : Str)
    (h : keysNodup c) (h2 : keysNodup c2) :
    mapGet (mergeChildren c c2) k = mergeOption (mapGet c k) (mapGet c2 k) := by
  unfold mergeChildren
  rw [mapGet_second _ _ _ _ h2, mapGet_first _ _ _ _ h]
  cases mapGet c k <;> cases mapGet c2 k <;> simp [mergeOption, mapGet]

theorem keysNodup_first (c c2 merged : List (Str × node)) (h : keysNodup merged) :
    keysNodup (mergeChildren.first c c2 merged) := by
  induction c generalizing merged with
  | nil => simpa [mergeChildren.first] using h
  | cons e rest ih =>
    obtain ⟨name, n⟩ := e
    cases h2 : mapGet c2 name with
    | none => simpa [mergeChildren.first, h2] using ih _ (keysNodup_mapSet _ _ _ h)
    | some o => simpa [mergeChildren.first, h2] using ih _ (keysNodup_mapSet _ _ _ h)

theorem keysNodup_second (c c2 merged : List (Str × node)) (h : keysNodup merged) :
    keysNodup (mergeChildren.second c c2 merged) := by
  induction c2 generalizing merged with
  | nil => simpa [mergeChildren.second] using h
  | cons e rest ih =>
    obtain ⟨name, n⟩ := e
    cases h2 : mapGet c name with
    | none => simpa [mergeChildren.second, h2] using ih _ (keysNodup_mapSet _ _ _ h)
    | some o => simpa [mergeChildren.second, h2] using ih _ h

/-- A merged map holds each key once, whatever the two maps. -/
theorem keysNodup_mergeChildren (c c2 : List (Str × node)) :
    keysNodup (mergeChildren c c2) :=
  keysNodup_second _ _ _ (keysNodup_first _ _ _ (by simp [keysNodup, keys]))

theorem mem_keys_mergeChildren (c c2 : List (Str × node)) (k : Str)
    (h : keysNodup c) (h2 : keysNodup c2) :
    k ∈ keys (mergeChildren c c2) ↔ k ∈ keys c ∨ k ∈ keys c2 := by
  simp only [mem_keys_iff, mapGet_mergeChildren c c2 k h h2]
  cases mapGet c k <;> cases mapGet c2 k <;> simp [mergeOption]

/-! ## Well-formed trees -/

theorem wfChildren_iff (ch : List (Str × node)) :
    node.wfChildren ch = true ↔ ∀ e ∈ ch, e.2.wf = true := by
  induction ch with
  | nil => simp [node.wfChildren]
  | cons e rest ih =>
    obtain ⟨k, n⟩ := e
    simp [node.wfChildren, ih]

theorem wf_iff (n : node) :
    n.wf = true ↔ keysNodup n.children ∧ ∀ e ∈ n.children, e.2.wf = true := by
  cases n with
  | mk c ns ch => simp [node.wf, node.children, wfChildren_iff]

theorem wf_keysNodup (n : node) (h : n.wf = true) : keysNodup n.children :=
  ((wf_iff n).1 h).1

theorem wf_child (n c : node) (k : Str) (h : n.wf = true) (hc : n.child k = some c) :
    c.wf = true :=
  ((wf_iff n).1 h).2 (k, c) (mapGet_mem _ _ _ hc)

/-! ## Paths in merged trees -/

theorem sameNode_refl (a : node) : sameNode a a := ⟨rfl, rfl, fun _ => Iff.rfl⟩

theorem sameOption_refl (a : Option node) : sameOption a a := by
  cases a with
  | none => trivial
  | some x => exact sameNode_refl x

theorem child_mergeNodes (a b : node) (k : Str)
    (ha : keysNodup a.children) (hb : keysNodup b.children) :
    (mergeNodes a b).child k = mergeOption (a.child k) (b.child k) := by
  unfold node.child
  rw [mergeNodes_children, mapGet_mergeChildren _ _ _ ha hb]

theorem keysNodup_mergeNodes (a b : node) : keysNodup (mergeNodes a b).children := by
  rw [mergeNodes_children]
  exact keysNodup_mergeChildren _ _

theorem nodeAt_cons (n : node) (k : Str) (p : List Str) :
    nodeAt n (k :: p) = (n.child k).bind (fun c => nodeAt c p) := by
  simp only [nodeAt]
  cases n.child k <;> rfl

theorem mergeNodes_comm_at (p : List Str) :
    ∀ a b : node, a.wf = true → b.wf = true →
      sameOption (nodeAt (mergeNodes a b) p) (nodeAt (mergeNodes b a) p) := by
  induction p with
  | nil =>
    intro a b ha hb
    have ka := wf_keysNodup a ha
    have kb := wf_keysNodup b hb
    simp only [nodeAt, sameOption, sameNode]
    refine ⟨?_, ?_, ?_⟩
    · rw [mergeNodes_count, mergeNodes_count, Int.add_comm]
    · rw [mergeNodes_names, mergeNodes_names, mergeNames_comm]
    · intro name
      rw [mergeNodes_children, mergeNodes_children,
        mem_keys_mergeChildren _ _ _ ka kb, mem_keys_mergeChildren _ _ _ kb ka]
      exact Or.comm
  | cons k p ih =>
    intro a b ha hb
    have ka := wf_keysNodup a ha
    have kb := wf_keysNodup b hb
    rw [nodeAt_cons, nodeAt_cons, child_mergeNodes a b k ka kb, child_mergeNodes b a k kb ka]
    cases hca : a.child k with
    | none =>
      cases hcb : b.child k with
      | none => simp [mergeOption, sameOption]
      | some y => simpa [mergeOption] using sameOption_refl _
    | some x =>
      cases hcb : b.child k with
      | none => simpa [mergeOption] using sameOption_refl _
      | some y =>
        simpa [mergeOption] using ih x y (wf_child a x k ha hca) (wf_child b y k hb hcb)

theorem mergeNodes_assoc_at (p : List Str) :
    ∀ a b c : node, a.wf = true → b.wf = true → c.wf = true →
      sameOption (nodeAt (mergeNodes (mergeNodes a b) c) p)
        (nodeAt (mergeNodes a (mergeNodes b c)) p) := by
  induction p with
  | nil =>
    intro a b c ha hb hc
    have ka := wf_keysNodup a ha
    have kb := wf_keysNodup b hb
    have kc := wf_keysNodup c hc
    simp only [nodeAt, sameOption, sameNode]
    refine ⟨?_, ?_, ?_⟩
    · simp only [mergeNodes_count, Int.add_assoc]
    · simp only [mergeNodes_names, mergeNames_assoc]
    · intro name
      simp only [mergeNodes_children]
      rw [mem_keys_mergeChildren _ _ _ (keysNodup_mergeChildren _ _) kc,
        mem_keys_mergeChildren _ _ _ ka (keysNodup_mergeChildren _ _),
        mem_keys_mergeChildren _ _ _ ka kb, mem_keys_mergeChildren _ _ _ kb kc]
      exact or_assoc
  | cons k p ih =>
    intro a b c ha hb hc
    have ka := wf_keysNodup a ha
    have kb := wf_keysNodup b hb
    have kc := wf_keysNodup c hc
    rw [nodeAt_cons, nodeAt_cons,
      child_mergeNodes _ c k (keysNodup_mergeNodes a b) kc,
      child_mergeNodes a _ k ka (keysNodup_mergeNodes b c),
      child_mergeNodes a b k ka kb, child_mergeNodes b c k kb kc]
    cases hca : a.child k with
    | none =>
      cases hcb : b.child k with
      | none =>
        cases hcc : c.child k with
        | none => simp [mergeOption, sameOption]
        | some z => simpa [mergeOption] using sameOption_refl _
      | some y =>
        cases hcc : c.child k with
        | none => simpa [mergeOption] using sameOption_refl _
        | some z => simpa [mergeOption] using sameOption_refl _
    | some x =>
      cases hcb : b.child k with
      | none =>
        cases hcc : c.child k with
        | none => simpa [mergeOption] using sameOption_refl _
        | some z => simpa [mergeOption] using sameOption_refl _
      | some y =>
        cases hcc : c.child k with
        | none => simpa [mergeOption] using sameOption_refl _
        | some z =>
          simpa [mergeOption] using
            ih x y z (wf_child a x k ha hca) (wf_child b y k hb hcb) (wf_child c z k hc hcc)

/-! ## Claims on the merge -/

/-- C1: `mergeNodes` is commutative.  For count trees `a` and `b` (each map
holding each key once), `mergeNodes a b` and `mergeNodes b a` have the same
nodes, and at every node the same count, the same names and the same set of
child names. -/
theorem mergeNodes_comm (a b : node) (ha : a.wf = true) (hb : b.wf = true) :
    sameTree (mergeNodes a b) (mergeNodes b a) :=
  fun p => mergeNodes_comm_at p a b ha hb

/-- C2: `mergeNodes` is associative.  For count trees `a`, `b` and `c`,
`mergeNodes (mergeNodes a b) c` and `mergeNodes a (mergeNodes b c)` have the
same nodes, and at every node the same count, the same names and the same set
of child names. -/
theorem mergeNodes_assoc (a b c : node)
    (ha : a.wf = true) (hb : b.wf = true) (hc : c.wf = true) :
    sameTree (mergeNodes (mergeNodes a b) c) (mergeNodes a (mergeNodes b c)) :=
  fun p => mergeNodes_assoc_at p a b c ha hb hc

/-- C3: the root count of `mergeNodes a b` is `a.count + b.count`, and the
`overallCount` of `mergeCountState s s2` is the sum of the two
`overallCount`s. -/
theorem merge_preserves_total_count (a b : node) (s s2 : countState) :
    (mergeNodes a b).count = a.count + b.count ∧
      (mergeCountState s s2).overallCount = s.overallCount + s2.overallCount ∧
      (mergeCountState s s2).packageTree.count
        = s.packageTree.count + s2.packageTree.count :=
  ⟨mergeNodes_count a b, rfl, mergeNodes_count _ _⟩

/-- C4: for child maps `c` and `c2`, the keys of `mergeChildren c c2` are the
keys of `c` together with the keys of `c2`; under a name present in both the
merged child is `mergeNodes` of the two children; under a name present in one
map only the merged child is the child of that map, unchanged. -/
theorem mergeChildren_spec (c c2 : List (Str × node))
    (h : keysNodup c) (h2 : keysNodup c2) :
    (∀ name, name ∈ keys (mergeChildren c c2) ↔ name ∈ keys c ∨ name ∈ keys c2) ∧
    (∀ name n otherNode, mapGet c name = some n → mapGet c2 name = some otherNode →
      mapGet (mergeChildren c c2) name = some (mergeNodes n otherNode)) ∧
    (∀ name n, mapGet c name = some n → mapGet c2 name = none →
      mapGet (mergeChildren c c2) name = some n) ∧
    (∀ name n, mapGet c name = none → mapGet c2 name = some n →
      mapGet (mergeChildren c c2) name = some n) ∧
    keysNodup (mergeChildren c c2) := by
  refine ⟨fun name => mem_keys_mergeChildren c c2 name h h2, ?_, ?_, ?_,
    keysNodup_mergeChildren c c2⟩
  · intro name n o e1 e2
    rw [mapGet_mergeChildren c c2 name h h2, e1, e2]; rfl
  · intro name n e1 e2
    rw [mapGet_mergeChildren c c2 name h h2, e1, e2]; rfl
  · intro name n e1 e2
    rw [mapGet_mergeChildren c c2 name h h2, e1, e2]; rfl

/-- A witness for C1. -/
theorem mergeNodes_comm_witness :
    (node.mk 2 [ascii "a"] [(ascii "a", .mk 1 [] [])]).wf = true ∧
    (node.mk 3 [ascii "b", ascii "a"]
      [(ascii "b", .mk 1 [] []),
       (ascii "a", .mk 2 [ascii "c"] [(ascii "c", .mk 2 [] [])])]).wf = true ∧
    sameTree
      (mergeNodes (.mk 2 [ascii "a"] [(ascii "a", .mk 1 [] [])])
        (.mk 3 [ascii "b", ascii "a"]
          [(ascii "b", .mk 1 [] []),
           (ascii "a", .mk 2 [ascii "c"] [(ascii "c", .mk 2 [] [])])]))
      (mergeNodes
        (.mk 3 [ascii "b", ascii "a"]
          [(ascii "b", .mk 1 [] []),
           (ascii "a", .mk 2 [ascii "c"] [(ascii "c", .mk 2 [] [])])])
        (.mk 2 [ascii "a"] [(ascii "a", .mk 1 [] [])])) :=
  ⟨by decide, by decide, mergeNodes_comm _ _ (by decide) (by decide)⟩

/-- A witness for C2. -/
theorem mergeNodes_assoc_witness :
    (node.mk 2 [ascii "a"] [(ascii "a", .mk 1 [] [])]).wf = true ∧
    (node.mk 3 [ascii "b", ascii "a"]
      [(ascii "b", .mk 1 [] []),
       (ascii "a", .mk 2 [ascii "c"] [(ascii "c", .mk 2 [] [])])]).wf = true ∧
    (node.mk 1 [ascii "c"] [(ascii "c", .mk 1 [] [])]).wf = true ∧
    sameTree
      (mergeNodes
        (mergeNodes (.mk 2 [ascii "a"] [(ascii "a", .mk 1 [] [])])
          (.mk 3 [ascii "b", ascii "a"]
            [(ascii "b", .mk 1 [] []),
             (ascii "a", .mk 2 [ascii "c"] [(ascii "c", .mk 2 [] [])])]))
        (.mk 1 [ascii "c"] [(ascii "c", .mk 1 [] [])]))
      (mergeNodes (.mk 2 [ascii "a"] [(ascii "a", .mk 1 [] [])])
        (mergeNodes
          (.mk 3 [ascii "b", ascii "a"]
            [(ascii "b", .mk 1 [] []),
             (ascii "a", .mk 2 [ascii "c"] [(ascii "c", .mk 2 [] [])])])
          (.mk 1 [ascii "c"] [(ascii "c", .mk 1 [] [])]))) :=
  ⟨by decide, by decide, by decide,
    mergeNodes_assoc _ _ _ (by decide) (by decide) (by decide)⟩

/-- A witness for C4. -/
theorem mergeChildren_spec_witness :
    mapGet (mergeChildren
        [(ascii "a", node.mk 1 [] []), (ascii "b", node.mk 2 [] [])]
        [(ascii "b", node.mk 3 [] []), (ascii "c", node.mk 4 [] [])]) (ascii "b")
      = some (mergeNodes (node.mk 2 [] []) (node.mk 3 [] [])) :=
  (mergeChildren_spec
      [(ascii "a", node.mk 1 [] []), (ascii "b", node.mk 2 [] [])]
      [(ascii "b", node.mk 3 [] []), (ascii "c", node.mk 4 [] [])]
      (by decide) (by decide)).2.1 (ascii "b") _ _ (by decide) (by decide)

/-! ## Insertion into a tree -/

theorem incrementCount_cons (n : node) (piece : Str) (rest : List Str) :
    incrementCount n (piece :: rest) =
      match mapGet n.children (childName piece) with
      | some child =>
        .mk n.count n.names
          (mapSet n.children (childName piece) (incrementCount child rest))
      | none =>
        .mk n.count (n.names ++ [childName piece])
          (mapSet n.children (childName piece) (incrementCount newNode rest)) := by
  simp [incrementCount, childName]

theorem nodeAt_newNode_cons (k : Str) (p : List Str) : nodeAt newNode (k :: p) = none := by
  simp [nodeAt, newNode, node.child, node.children, mapGet]

theorem countAt_newNode (p : List Str) : countAt newNode p = 0 := by
  cases p with
  | nil => simp [countAt, nodeAt, newNode, node.count]
  | cons k p => simp [countAt, nodeAt_newNode_cons]

theorem countAt_cons (t : node) (k : Str) (p : List Str) :
    countAt t (k :: p) = match t.child k with
      | some c => countAt c p
      | none => 0 := by
  unfold countAt
  rw [nodeAt_cons]
  cases t.child k <;> simp

/-- The counts after one `incrementCount`: on the path of the pieces every
node exists, the last one has its count incremented; elsewhere nothing
changes. -/
theorem nodeAt_incrementCount (q : List Str) :
    ∀ (t : node) (p : List Str),
      (nodeAt (incrementCount t q) p).map node.count =
        if p <+: q.map childName then
          some (countAt t p + (if p = q.map childName then 1 else 0))
        else (nodeAt t p).map node.count := by
  induction q with
  | nil =>
    intro t p
    cases p with
    | nil => simp [incrementCount, nodeAt, node.increment, node.count, countAt]
    | cons k p =>
      simp [incrementCount, nodeAt_cons, node.increment, node.child, node.children]
  | cons piece rest ih =>
    intro t p
    rw [incrementCount_cons]
    cases p with
    | nil =>
      cases hc : mapGet t.children (childName piece) <;>
        simp [nodeAt, node.count, countAt]
    | cons k p =>
      simp only [List.map_cons, List.cons_prefix_cons, List.cons.injEq]
      by_cases hk : childName piece = k
      · subst hk
        cases hc : mapGet t.children (childName piece) with
        | none =>
          have h1 : countAt t (childName piece :: p) = 0 := by
            rw [countAt_cons]; simp [node.child, hc]
          have h2 : nodeAt t (childName piece :: p) = none := by
            rw [nodeAt_cons]; simp [node.child, hc]
          have hR : ∀ (c : Int) (ns : List Str) (x : node),
              nodeAt (node.mk c ns (mapSet t.children (childName piece) x))
                (childName piece :: p) = nodeAt x p := by
            intro c ns x
            rw [nodeAt_cons]; simp [node.child, node.children, mapGet_mapSet]
          simp only [hR, true_and]
          rw [ih, h1, h2, countAt_newNode]
          by_cases hp : p <+: List.map childName rest
          · simp [hp]
          · cases p with
            | nil => exact absurd List.nil_prefix hp
            | cons a p => simp [hp, nodeAt_newNode_cons]
        | some child =>
          have h1 : countAt t (childName piece :: p) = countAt child p := by
            rw [countAt_cons]; simp [node.child, hc]
          have h2 : nodeAt t (childName piece :: p) = nodeAt child p := by
            rw [nodeAt_cons]; simp [node.child, hc]
          have hR : ∀ (c : Int) (ns : List Str) (x : node),
              nodeAt (node.mk c ns (mapSet t.children (childName piece) x))
                (childName piece :: p) = nodeAt x p := by
            intro c ns x
            rw [nodeAt_cons]; simp [node.child, node.children, mapGet_mapSet]
          simp only [hR, true_and]
          rw [ih, h1, h2]
      · have hk2 : ¬ k = childName piece := fun e => hk e.symm
        cases hc : mapGet t.children (childName piece) <;>
          simp [nodeAt_cons, node.child, node.children, mapGet_mapSet, hk, hk2]



theorem countAt_eq_getD (t : node) (p : List Str) :
    countAt t p = ((nodeAt t p).map node.count).getD 0 := by
  unfold countAt
  cases nodeAt t p <;> rfl

theorem countAt_incrementCount (q : List Str) (t : node) (p : List Str) :
    countAt (incrementCount t q) p
      = countAt t p + (if p = q.map childName then 1 else 0) := by
  rw [countAt_eq_getD, nodeAt_incrementCount]
  by_cases hp : p <+: q.map childName
  · simp [hp]
  · have hne : ¬ p = q.map childName := fun e => hp (e ▸ List.prefix_refl _)
    simp [hp, hne, countAt_eq_getD]

/-- The counts after a sequence of `incrementCount`s. -/
theorem nodeAt_foldl_incrementCount (L : List (List Str)) :
    ∀ (t : node) (p : List Str),
      (nodeAt (L.foldl incrementCount t) p).map node.count =
        if ∃ q ∈ L, p <+: q.map childName then
          some (countAt t p +
            ((L.map (fun q => q.map childName)).countP (fun q => decide (q = p)) : Int))
        else (nodeAt t p).map node.count := by
  induction L with
  | nil => intro t p; simp
  | cons q L ih =>
    intro t p
    rw [List.foldl_cons, ih, countAt_incrementCount, nodeAt_incrementCount]
    by_cases hE : ∃ q2 ∈ L, p <+: q2.map childName
    · have hE2 : ∃ q2 ∈ q :: L, p <+: q2.map childName := by
        obtain ⟨q2, h1, h2⟩ := hE
        exact ⟨q2, List.mem_cons_of_mem _ h1, h2⟩
      rw [if_pos hE, if_pos hE2, List.map_cons, List.countP_cons]
      congr 1
      by_cases hq : p = q.map childName
      · subst hq; simp; ring
      · have hq2 : ¬ q.map childName = p := fun e => hq e.symm
        simp [hq, hq2]
    · have hz : (L.map (fun q => q.map childName)).countP (fun q => decide (q = p)) = 0 := by
        rw [List.countP_eq_zero]
        intro a hm
        obtain ⟨q2, h1, h2⟩ := List.mem_map.1 hm
        intro ha
        have ha2 : a = p := by simpa using ha
        exact hE ⟨q2, h1, by rw [h2, ha2]⟩
      rw [if_neg hE]
      by_cases hP : p <+: q.map childName
      · have hE2 : ∃ q2 ∈ q :: L, p <+: q2.map childName := ⟨q, List.mem_cons_self _ _, hP⟩
        rw [if_pos hP, if_pos hE2, List.map_cons, List.countP_cons, hz]
        congr 1
        by_cases hq : p = q.map childName
        · subst hq; simp
        · have hq2 : ¬ q.map childName = p := fun e => hq e.symm
          simp [hq, hq2]
      · have hE2 : ¬ ∃ q2 ∈ q :: L, p <+: q2.map childName := by
          rintro ⟨q2, h1, h2⟩
          rcases List.mem_cons.1 h1 with h | h
          · exact hP (h ▸ h2)
          · exact hE ⟨q2, h, h2⟩
        rw [if_neg hP, if_neg hE2]

theorem stringsSequence_loop_eq (strs : List Str) (maxDepth : Nat) :
    ∀ remaining i, stringsSequence.loop strs maxDepth remaining i
      = (List.range' i (min remaining (maxDepth - i))).map (fun j => strs.take j) := by
  intro remaining
  induction remaining with
  | zero => intro i; simp [stringsSequence.loop]
  | succ r ih =>
    intro i
    by_cases h : i < maxDepth
    · have e : min (r + 1) (maxDepth - i) = min r (maxDepth - (i + 1)) + 1 := by omega
      simp only [stringsSequence.loop, if_pos h, ih, e, List.range'_succ, List.map_cons]
    · have e : min (r + 1) (maxDepth - i) = 0 := by omega
      simp [stringsSequence.loop, h, e]

/-- `stringsSequence` returns the prefixes `strs[:i]` for
`i < min (len(strs) + 1) maxDepth`, in ascending order of `i`. -/
theorem stringsSequence_eq (strs : List Str) (maxDepth : Nat) :
    stringsSequence strs maxDepth
      = (List.range (min (strs.length + 1) maxDepth)).map (fun j => strs.take j) := by
  unfold stringsSequence
  rw [stringsSequence_loop_eq, List.range_eq_range']
  simp

theorem take_inj_of_le (s : List Str) (i j : Nat) (hi : i ≤ s.length) (hj : j ≤ s.length)
    (h : s.take i = s.take j) : i = j := by
  have := congrArg List.length h
  simp only [List.length_take] at this
  omega

theorem count_prefixes (s : List Str) (n i : Nat) (hn : n ≤ s.length + 1) (hi : i < n) :
    ((List.range n).map (fun j => s.take j)).countP (fun q => decide (q = s.take i)) = 1 := by
  induction n with
  | zero => omega
  | succ n ih =>
    rw [List.range_succ, List.map_append, List.countP_append]
    by_cases h : i < n
    · have hne : ¬ s.take n = s.take i := fun e =>
        absurd (take_inj_of_le s n i (by omega) (by omega) e) (by omega)
      rw [ih (by omega) h]
      simp [hne]
    · have e : i = n := by omega
      subst e
      have hz : ((List.range i).map (fun j => s.take j)).countP
          (fun q => decide (q = s.take i)) = 0 := by
        rw [List.countP_eq_zero]
        intro a hm ha
        obtain ⟨j, hj, rfl⟩ := List.mem_map.1 hm
        have hj2 := List.mem_range.1 hj
        have e2 : s.take j = s.take i := by simpa using ha
        exact absurd (take_inj_of_le s j i (by omega) (by omega) e2) (by omega)
      rw [hz]
      simp

theorem map_childName_eq (s : List Str) (hs : ∀ x ∈ s, x ≠ []) : s.map childName = s := by
  induction s with
  | nil => rfl
  | cons x s ih =>
    have hx : x ≠ [] := hs x (List.mem_cons_self _ _)
    have hx2 : x.length ≠ 0 := fun e => hx (List.length_eq_zero.1 e)
    rw [List.map_cons, ih (fun y hy => hs y (List.mem_cons_of_mem _ hy))]
    simp [childName, hx2]

/-- The counts after `nodeForNamePieces`, for any pieces. -/
theorem nodeAt_nodeForNamePieces (t : node) (s : List Str) (d : Nat) (p : List Str) :
    (nodeAt (nodeForNamePieces t s d) p).map node.count =
      if ∃ i, i < min (s.length + 1) d ∧ p <+: (s.map childName).take i then
        some (countAt t p +
          (((List.range (min (s.length + 1) d)).map
            (fun j => (s.map childName).take j)).countP (fun q => decide (q = p)) : Int))
      else (nodeAt t p).map node.count := by
  unfold nodeForNamePieces
  rw [nodeAt_foldl_incrementCount, stringsSequence_eq]
  have e1 : (List.map (fun q => List.map childName q)
      (List.map (fun j => List.take j s) (List.range (min (s.length + 1) d))))
      = (List.range (min (s.length + 1) d)).map (fun j => (s.map childName).take j) := by
    rw [List.map_map]
    apply List.map_congr_left
    intro j _
    simp [List.map_take]
  have e2 : (∃ q ∈ List.map (fun j => List.take j s) (List.range (min (s.length + 1) d)),
      p <+: List.map childName q)
      ↔ ∃ i, i < min (s.length + 1) d ∧ p <+: (s.map childName).take i := by
    constructor
    · rintro ⟨q, hq, hp⟩
      obtain ⟨j, hj, rfl⟩ := List.mem_map.1 hq
      exact ⟨j, List.mem_range.1 hj, by simpa [List.map_take] using hp⟩
    · rintro ⟨i, hi, hp⟩
      exact ⟨s.take i, List.mem_map.2 ⟨i, List.mem_range.2 hi, rfl⟩,
        by simpa [List.map_take] using hp⟩
  rw [e1]
  simp only [e2]



theorem nodeForNamePieces_zero (t : node) (s : List Str) : nodeForNamePieces t s 0 = t := by
  simp [nodeForNamePieces, stringsSequence_eq]

/-- With `maxDepth >= 1` an insertion adds 1 to the count of the root, whatever
the pieces. -/
theorem nodeForNamePieces_count (t : node) (s : List Str) (d : Nat) (hd : 1 ≤ d) :
    (nodeForNamePieces t s d).count = t.count + 1 := by
  have h := nodeAt_nodeForNamePieces t s d []
  have hc : ∃ i, i < min (s.length + 1) d ∧ [] <+: (s.map childName).take i :=
    ⟨0, by omega, List.nil_prefix⟩
  have h1 := count_prefixes (s.map childName) (min (s.length + 1) d) 0
    (by simp) (by omega)
  rw [if_pos hc] at h
  simp only [List.take_zero] at h1
  rw [h1] at h
  simpa [nodeAt, countAt] using h

/-- C5, as the code has it: inserting the path `a.b.c.d` into an empty tree
with `maxDepth = 2` gives one level below the root, the node `a` with count 1
and without children, and root count 1; the two levels `a` and `a.b`, each
with count 1 under a root with count 1 and no node below `a.b`, are what
`maxDepth = 3` gives. -/
theorem nodeForNamePieces_depth_bound :
    nodeForNamePieces newNode [ascii "a", ascii "b", ascii "c", ascii "d"] 2
      = .mk 1 [ascii "a"] [(ascii "a", .mk 1 [] [])] ∧
    nodeForNamePieces newNode [ascii "a", ascii "b", ascii "c", ascii "d"] 3
      = .mk 1 [ascii "a"]
          [(ascii "a", .mk 1 [ascii "b"] [(ascii "b", .mk 1 [] [])])] := by
  decide

/-- C5 fails as stated: after inserting `a.b.c.d` with `maxDepth = 2` there is
no node `a.b`, so no node `a.b` with count 1. -/
theorem nodeForNamePieces_depth_two_no_second_level :
    ¬ ∃ n, nodeAt (nodeForNamePieces newNode
        [ascii "a", ascii "b", ascii "c", ascii "d"] 2) [ascii "a", ascii "b"] = some n
      ∧ n.count = 1 := by
  rintro ⟨n, h, _⟩
  have e : nodeAt (nodeForNamePieces newNode
      [ascii "a", ascii "b", ascii "c", ascii "d"] 2) [ascii "a", ascii "b"] = none := by
    decide
  rw [e] at h
  exact Option.noConfusion h

/-- C6: for a tree `t`, non-empty pieces `s` and `maxDepth = d >= 1`,
`nodeForNamePieces t s d` has a node at every prefix `s[:i]` with
`0 <= i <= min(len(s), d-1)`, whose count is the count that node had in `t`
plus 1 (the count 1 when `t` had no such node); at every other path there is a
node exactly when `t` has one, with the same count; and no node appears at
depth `d` or deeper. -/
theorem nodeForNamePieces_spec (t : node) (s : List Str) (d : Nat)
    (hd : 1 ≤ d) (hs : ∀ x ∈ s, x ≠ []) :
    (∀ i, i ≤ min s.length (d - 1) →
      ∃ n, nodeAt (nodeForNamePieces t s d) (s.take i) = some n ∧
        n.count = countAt t (s.take i) + 1) ∧
    (∀ p, (∀ i, i ≤ min s.length (d - 1) → p ≠ s.take i) →
      (nodeAt (nodeForNamePieces t s d) p).map node.count
        = (nodeAt t p).map node.count) ∧
    (∀ p, d ≤ p.length → nodeAt t p = none →
      nodeAt (nodeForNamePieces t s d) p = none) := by
  have hb : ∀ p, (∀ i, i ≤ min s.length (d - 1) → p ≠ s.take i) →
      (nodeAt (nodeForNamePieces t s d) p).map node.count
        = (nodeAt t p).map node.count := by
    intro p hp
    rw [nodeAt_nodeForNamePieces, map_childName_eq s hs]
    apply if_neg
    rintro ⟨i, hi, hpre⟩
    have hlen : p.length ≤ i := by
      have := hpre.length_le
      simp only [List.length_take] at this
      omega
    have hp2 : p <+: s := hpre.trans ( List.take_prefix i s)
    have e : p = s.take p.length := List.prefix_iff_eq_take.1 hp2
    exact hp p.length (by omega) e
  refine ⟨?_, hb, ?_⟩
  · intro i hi
    have h := nodeAt_nodeForNamePieces t s d (s.take i)
    rw [map_childName_eq s hs] at h
    have hc : ∃ j, j < min (s.length + 1) d ∧ s.take i <+: s.take j :=
      ⟨i, by omega, List.prefix_refl _⟩
    rw [if_pos hc, count_prefixes s _ i (by omega) (by omega)] at h
    cases hn : nodeAt (nodeForNamePieces t s d) (s.take i) with
    | none => rw [hn] at h; exact Option.noConfusion h
    | some n =>
      rw [hn] at h
      exact ⟨n, rfl, by simpa using h⟩
  · intro p hp hnone
    have h := hb p (by
      intro i hi e
      have := congrArg List.length e
      simp only [List.length_take] at this
      omega)
    rw [hnone] at h
    cases hn : nodeAt (nodeForNamePieces t s d) p with
    | none => rfl
    | some n => rw [hn] at h; exact Option.noConfusion h


/-- A witness for C6. -/
theorem nodeForNamePieces_spec_witness :
    ∃ n, nodeAt (nodeForNamePieces (.mk 1 [ascii "a"] [(ascii "a", .mk 1 [] [])])
        [ascii "a", ascii "b", ascii "c"] 3) [ascii "a", ascii "b"] = some n ∧
      n.count = countAt (.mk 1 [ascii "a"] [(ascii "a", .mk 1 [] [])])
        [ascii "a", ascii "b"] + 1 :=
  (nodeForNamePieces_spec (.mk 1 [ascii "a"] [(ascii "a", .mk 1 [] [])])
    [ascii "a", ascii "b", ascii "c"] 3 (by decide) (by decide)).1 2 (by decide)

/-! ## DescriptorToDot returns -/

theorem byteAt_some (s : Str) (i : Nat) (h : i < s.length) : ∃ b, byteAt s i = some b :=
  ⟨s[i], by simp [byteAt, h]⟩

theorem strip_total (descr : Str) :
    ∀ (targetLen offset : Nat), offset + targetLen = descr.length →
      ∃ o t, DescriptorToDot.strip descr offset targetLen = some (o, t) ∧
        o + t = descr.length := by
  intro targetLen
  induction targetLen using Nat.strong_induction_on with
  | _ n ih =>
    intro offset h
    match n, ih, h with
    | 0, _, h => exact ⟨offset, 0, by simp [DescriptorToDot.strip], h⟩
    | 1, _, h => exact ⟨offset, 1, by simp [DescriptorToDot.strip], h⟩
    | t + 2, ih, h =>
      obtain ⟨b, hb⟩ := byteAt_some descr offset (by omega)
      by_cases hc : b = ch '['
      · obtain ⟨o, t2, e, hl⟩ := ih (t + 1) (by omega) (offset + 1) (by omega)
        exact ⟨o, t2, by simp [DescriptorToDot.strip, hb, hc, e], hl⟩
      · exact ⟨offset, t + 2, by simp [DescriptorToDot.strip, hb, hc], h⟩

theorem target_total (descr : Str) (offset targetLen : Nat)
    (h : offset + targetLen = descr.length) :
    ∃ d1 o1 t1, DescriptorToDot.target descr offset targetLen = some (d1, o1, t1) ∧
      o1 + t1 ≤ d1.length := by
  unfold DescriptorToDot.target
  by_cases h1 : targetLen = 1
  · obtain ⟨b, hb⟩ := byteAt_some descr offset (by omega)
    exact ⟨primitiveTypeLabel b, 0, (primitiveTypeLabel b).length, by simp [h1, hb], by omega⟩
  · by_cases h2 : 2 ≤ targetLen
    · obtain ⟨b, hb⟩ := byteAt_some descr offset (by omega)
      by_cases hL : b = ch 'L'
      · obtain ⟨e, he⟩ := byteAt_some descr (offset + targetLen - 1) (by omega)
        by_cases hS : e = ch ';'
        · exact ⟨descr, offset + 1, targetLen - 2, by simp [h1, h2, hb, hL, he, hS], by omega⟩
        · exact ⟨descr, offset, targetLen, by simp [h1, h2, hb, hL, he, hS], by omega⟩
      · exact ⟨descr, offset, targetLen, by simp [h1, h2, hb, hL], by omega⟩
    · exact ⟨descr, offset, targetLen, by simp [h1, h2], by omega⟩

theorem setByte_some (buf : List Byte) (i : Nat) (b : Byte) (h : i < buf.length) :
    ∃ buf1, setByte buf i b = some buf1 ∧ buf1.length = buf.length :=
  ⟨buf.set i b, by simp [setByte, h], by simp⟩

theorem copy_total (descr : Str) (offset : Nat) :
    ∀ (remaining i : Nat) (buf : List Byte),
      offset + i + remaining ≤ descr.length → i + remaining ≤ buf.length →
      ∃ buf1, DescriptorToDot.copy descr offset remaining i buf = some buf1 ∧
        buf1.length = buf.length := by
  intro remaining
  induction remaining with
  | zero => intro i buf _ _; exact ⟨buf, by simp [DescriptorToDot.copy], rfl⟩
  | succ r ih =>
    intro i buf h1 h2
    obtain ⟨c, hc⟩ := byteAt_some descr (offset + i) (by omega)
    obtain ⟨buf1, hs, hl⟩ :=
      setByte_some buf i (if c = ch '/' then ch '.' else c) (by omega)
    obtain ⟨buf2, e, hl2⟩ := ih (i + 1) buf1 (by omega) (by omega)
    exact ⟨buf2, by simp [DescriptorToDot.copy, hc, hs, e], by omega⟩

theorem brackets_total :
    ∀ (arrayDepth i : Nat) (buf : List Byte), i + 2 * arrayDepth ≤ buf.length →
      ∃ buf1, DescriptorToDot.brackets arrayDepth i buf = some buf1 ∧
        buf1.length = buf.length := by
  intro arrayDepth
  induction arrayDepth with
  | zero => intro i buf _; exact ⟨buf, by simp [DescriptorToDot.brackets], rfl⟩
  | succ a ih =>
    intro i buf h
    obtain ⟨buf1, hs, hl⟩ := setByte_some buf i (ch '[') (by omega)
    obtain ⟨buf2, hs2, hl2⟩ := setByte_some buf1 (i + 1) (ch ']') (by omega)
    obtain ⟨buf3, e, hl3⟩ := ih (i + 2) buf2 (by omega)
    exact ⟨buf3, by simp [DescriptorToDot.brackets, hs, hs2, e], by omega⟩

/-- `DescriptorToDot` returns for every string: no index it reads or writes
is out of range. -/
theorem DescriptorToDot_total (descr : Str) : ∃ s, DescriptorToDot descr = some s := by
  obtain ⟨o, t, e1, h1⟩ := strip_total descr descr.length 0 (by omega)
  obtain ⟨d1, o1, t1, e2, h2⟩ := target_total descr o t h1
  obtain ⟨buf1, e3, h3⟩ := copy_total d1 o1 t1 0 (List.replicate (t1 + o * 2) 0)
    (by omega) (by simp)
  obtain ⟨buf2, e4, _⟩ := brackets_total o t1 buf1 (by simp [h3]; omega)
  exact ⟨buf2, by simp [DescriptorToDot, e1, e2, e3, e4]⟩

theorem PackageNameOnly_total (typeName : Str) : ∃ s, PackageNameOnly typeName = some s := by
  obtain ⟨dotted, e⟩ := DescriptorToDot_total typeName
  unfold PackageNameOnly
  rw [e]
  by_cases h : stringsLastIndexByte dotted (ch '.') < 0
  · exact ⟨[], by simp [h]⟩
  · exact ⟨dotted.take (stringsLastIndexByte dotted (ch '.')).toNat, by simp [h]⟩

theorem packageNameOf_total (includeClasses : Bool) (classDescriptor : Str) :
    ∃ s, packageNameOf includeClasses classDescriptor = some s := by
  unfold packageNameOf
  cases includeClasses with
  | true =>
    obtain ⟨dotted, e⟩ := DescriptorToDot_total classDescriptor
    exact ⟨stringsReplace dotted (ch '$') (ch '.'), by simp [e]⟩
  | false => simpa using PackageNameOnly_total classDescriptor

/-! ## generate: tree style -/

theorem generate_body_tree (includeClasses : Bool) (packageFilter : Str) (maxDepth : Nat)
    (hd : 1 ≤ maxDepth) (state : countState) (classDescriptor : Str) :
    ∃ st, generate.body ⟨outputTree⟩ includeClasses packageFilter maxDepth state
        classDescriptor = some st ∧
      st.packageTree.count - st.overallCount
        = state.packageTree.count - state.overallCount := by
  obtain ⟨name, e⟩ := packageNameOf_total includeClasses classDescriptor
  unfold generate.body
  rw [e]
  by_cases hf : packageFilter ≠ [] ∧ stringsHasPrefix name packageFilter = false
  · exact ⟨state, by simp only [if_pos hf], rfl⟩
  · refine ⟨{ overallCount := state.overallCount + 1
              packageTree := nodeForNamePieces state.packageTree
                (stringsSplit name (ch '.')) maxDepth }, ?_, ?_⟩
    · simp only [if_neg hf, if_true]
    · simp only [nodeForNamePieces_count _ _ _ hd]
      omega

theorem generate_loop_tree (includeClasses : Bool) (packageFilter : Str) (maxDepth : Nat)
    (hd : 1 ≤ maxDepth) (descrs : List Str) :
    ∀ state : countState,
      ∃ st, generate.loop ⟨outputTree⟩ includeClasses packageFilter maxDepth state descrs
          = some st ∧
        st.packageTree.count - st.overallCount
          = state.packageTree.count - state.overallCount := by
  induction descrs with
  | nil => intro state; exact ⟨state, rfl, rfl⟩
  | cons cd rest ih =>
    intro state
    obtain ⟨st1, e1, h1⟩ :=
      generate_body_tree includeClasses packageFilter maxDepth hd state cd
    obtain ⟨st2, e2, h2⟩ := ih st1
    exact ⟨st2, by simp only [generate.loop, e1, e2], by omega⟩

/-- C7, as the code has it: for tree style and every `maxDepth >= 1`, whatever
the references, the package filter and `includeClasses`, `generate` returns a
state (whenever `getMethodRefs` returns the references) whose root count is
its `overallCount`. -/
theorem generate_tree_root_count (d : Data) (includeClasses : Bool)
    (packageFilter : Str) (maxDepth : Nat) (f : filter)
    (hd : 1 ≤ maxDepth) (hrefs : (getMethodRefs d f).isSome = true) :
    ∃ st, methodGenerator.generate ⟨⟨outputTree⟩⟩ d includeClasses packageFilter
        maxDepth f = some st ∧
      st.packageTree.count = st.overallCount := by
  cases e0 : getMethodRefs d f with
  | none => rw [e0] at hrefs; exact absurd hrefs (by simp)
  | some methodRefs =>
    obtain ⟨st, e, h⟩ := generate_loop_tree includeClasses packageFilter maxDepth hd
      (methodRefs.map (fun methodRef => methodRef.DeclClass))
      { overallCount := 0, packageTree := newNode }
    refine ⟨st, by simp only [methodGenerator.generate, e0, e], ?_⟩
    have h0 : newNode.count = 0 := rfl
    simp only [h0] at h
    omega

/-- A witness for C7. -/
theorem generate_tree_root_count_witness :
    ∃ st, methodGenerator.generate ⟨⟨outputTree⟩⟩ exampleData false [] 2 ⟨filterAll⟩
        = some st ∧
      st.packageTree.count = st.overallCount :=
  generate_tree_root_count exampleData false [] 2 ⟨filterAll⟩ (by decide) (by decide)

/-- C7 fails for `maxDepth = 0`: on the example file `generate` counts four
references in `overallCount` and leaves the root count at 0. -/
theorem generate_tree_maxDepth_zero :
    ∃ st, methodGenerator.generate ⟨⟨outputTree⟩⟩ exampleData false [] 0 ⟨filterAll⟩
        = some st ∧
      st.overallCount = 4 ∧ st.packageTree.count = 0 ∧
      st.packageTree.count ≠ st.overallCount :=
  ⟨{ overallCount := 4, packageTree := newNode }, by decide, by decide, by decide, by decide⟩

/-! ## generate: flat style -/

theorem generate_body_flat_maxDepth (includeClasses : Bool) (packageFilter : Str)
    (d1 d2 : Nat) (state : countState) (classDescriptor : Str) :
    generate.body ⟨outputFlat⟩ includeClasses packageFilter d1 state classDescriptor
      = generate.body ⟨outputFlat⟩ includeClasses packageFilter d2 state classDescriptor := by
  have h : ¬ outputFlat = outputTree := by decide
  simp only [generate.body, h, if_false]

theorem generate_loop_flat_maxDepth (includeClasses : Bool) (packageFilter : Str)
    (d1 d2 : Nat) (descrs : List Str) :
    ∀ state : countState,
      generate.loop ⟨outputFlat⟩ includeClasses packageFilter d1 state descrs
        = generate.loop ⟨outputFlat⟩ includeClasses packageFilter d2 state descrs := by
  induction descrs with
  | nil => intro state; rfl
  | cons cd rest ih =>
    intro state
    simp only [generate.loop, generate_body_flat_maxDepth includeClasses packageFilter d1 d2]
    cases generate.body ⟨outputFlat⟩ includeClasses packageFilter d2 state cd with
    | none => rfl
    | some st1 => exact ih st1

/-- C9: for flat style `generate` does not depend on `maxDepth`: for every
input and all `d1`, `d2` the results of the method generator are equal, and so
are the results of the field generator. -/
theorem generate_flat_maxDepth (d : Data) (includeClasses : Bool) (packageFilter : Str)
    (d1 d2 : Nat) (f : filter) :
    methodGenerator.generate ⟨⟨outputFlat⟩⟩ d includeClasses packageFilter d1 f
      = methodGenerator.generate ⟨⟨outputFlat⟩⟩ d includeClasses packageFilter d2 f ∧
    fieldGenerator.generate ⟨⟨outputFlat⟩⟩ d includeClasses packageFilter d1 f
      = fieldGenerator.generate ⟨⟨outputFlat⟩⟩ d includeClasses packageFilter d2 f := by
  constructor
  · unfold methodGenerator.generate
    cases getMethodRefs d f with
    | none => rfl
    | some refs => exact generate_loop_flat_maxDepth _ _ d1 d2 _ _
  · unfold fieldGenerator.generate
    cases getFieldRefs d f with
    | none => rfl
    | some refs => exact generate_loop_flat_maxDepth _ _ d1 d2 _ _

theorem node.count_mk (c : Int) (ns : List Str) (chs : List (Str × node)) :
    (node.mk c ns chs).count = c := rfl

theorem node.names_mk (c : Int) (ns : List Str) (chs : List (Str × node)) :
    (node.mk c ns chs).names = ns := rfl

theorem node.children_mk (c : Int) (ns : List Str) (chs : List (Str × node)) :
    (node.mk c ns chs).children = chs := rfl

theorem mem_firstOccurrences (l : List Str) (x : Str) : x ∈ firstOccurrences l ↔ x ∈ l := by
  induction l with
  | nil => simp [firstOccurrences]
  | cons y ys ih =>
    by_cases h : x = y
    · simp [firstOccurrences, h]
    · simp [firstOccurrences, h, ih]

theorem firstOccurrences_snoc (l : List Str) (x : Str) :
    firstOccurrences (l ++ [x])
      = if x ∈ l then firstOccurrences l else firstOccurrences l ++ [x] := by
  induction l with
  | nil => simp [firstOccurrences]
  | cons y ys ih =>
    rw [List.cons_append, firstOccurrences, ih]
    by_cases h1 : x ∈ ys
    · rw [if_pos h1, if_pos (List.mem_cons_of_mem _ h1), firstOccurrences]
    · rw [if_neg h1]
      by_cases h2 : x = y
      · subst h2
        rw [if_pos (List.mem_cons_self _ _), firstOccurrences, List.filter_append]
        simp
      · have h3 : ¬ x ∈ y :: ys := by
          intro hm
          rcases List.mem_cons.1 hm with e | e
          · exact h2 e
          · exact h1 e
        rw [if_neg h3, firstOccurrences, List.filter_append]
        simp [h2]

theorem nodup_firstOccurrences (l : List Str) : (firstOccurrences l).Nodup := by
  induction l with
  | nil => simp [firstOccurrences]
  | cons y ys ih =>
    simp only [firstOccurrences, List.nodup_cons]
    exact ⟨by simp, ih.filter _⟩

theorem occurrences_snoc (k : Str) (l : List Str) (x : Str) :
    occurrences k (l ++ [x]) = occurrences k l + (if x = k then 1 else 0) := by
  unfold occurrences
  rw [List.countP_append]
  by_cases h : x = k <;> simp [h]

theorem occurrences_of_not_mem (k : Str) (l : List Str) (h : k ∉ l) : occurrences k l = 0 := by
  unfold occurrences
  have : l.countP (fun x => decide (x = k)) = 0 := by
    rw [List.countP_eq_zero]
    intro a ha e
    have e2 : a = k := by simpa using e
    exact h (e2 ▸ ha)
  simp [this]

theorem sum_counts_mapSet (m : List (Str × node)) (k : Str) (v : node) :
    ((mapSet m k v).map (fun e => e.2.count)).sum
      = (m.map (fun e => e.2.count)).sum + v.count
        - (match mapGet m k with
           | some old => old.count
           | none => 0) := by
  induction m with
  | nil => simp [mapSet, mapGet]
  | cons e rest ih =>
    obtain ⟨a, w⟩ := e
    by_cases h : a = k
    · subst h
      simp [mapSet, mapGet]
      ring
    · simp only [mapSet, mapGet, h, if_false, List.map_cons, List.sum_cons, ih]
      ring

/-- The invariant of the loop of `generate` for flat style. -/
theorem insertFlat_inv (P : List Str) (st : countState) (x : Str)
    (h1 : st.overallCount = P.length)
    (h2 : st.packageTree.names = firstOccurrences P)
    (h3 : ∀ k, mapGet st.packageTree.children k
      = if k ∈ P then some (node.mk (occurrences k P) [] []) else none)
    (h4 : (st.packageTree.children.map (fun e => e.2.count)).sum = st.overallCount) :
    (st.overallCount + 1 = (P ++ [x]).length) ∧
    (insertFlat st.packageTree x).names = firstOccurrences (P ++ [x]) ∧
    (∀ k, mapGet (insertFlat st.packageTree x).children k
      = if k ∈ P ++ [x] then some (node.mk (occurrences k (P ++ [x])) [] []) else none) ∧
    (((insertFlat st.packageTree x).children.map (fun e => e.2.count)).sum
      = st.overallCount + 1) := by
  have hx := h3 x
  by_cases hm : x ∈ P
  · rw [if_pos hm] at hx
    have e : insertFlat st.packageTree x = .mk st.packageTree.count st.packageTree.names
        (mapSet st.packageTree.children x (node.mk (occurrences x P + 1) [] [])) := by
      simp only [insertFlat, hx]
      rfl
    rw [e]
    refine ⟨by simp [h1], ?_, ?_, ?_⟩
    · rw [node.names_mk, h2, firstOccurrences_snoc, if_pos hm]
    · intro k
      rw [node.children_mk, mapGet_mapSet, h3 k]
      by_cases hk : x = k
      · subst hk
        simp [hm, occurrences_snoc]
      · have hk2 : ¬ k = x := fun e => hk e.symm
        simp [hk, hk2, occurrences_snoc]
    · rw [node.children_mk, sum_counts_mapSet, hx, h4]
      simp only [node.count_mk]
      ring
  · rw [if_neg hm] at hx
    have e : insertFlat st.packageTree x
        = .mk st.packageTree.count (st.packageTree.names ++ [x])
          (mapSet st.packageTree.children x (node.mk 1 [] [])) := by
      simp only [insertFlat, hx]
      rfl
    rw [e]
    refine ⟨by simp [h1], ?_, ?_, ?_⟩
    · rw [node.names_mk, h2, firstOccurrences_snoc, if_neg hm]
    · intro k
      rw [node.children_mk, mapGet_mapSet, h3 k]
      by_cases hk : x = k
      · subst hk
        simp [occurrences_snoc, occurrences_of_not_mem _ _ hm]
      · have hk2 : ¬ k = x := fun e => hk e.symm
        simp [hk, hk2, occurrences_snoc]
    · rw [node.children_mk, sum_counts_mapSet, hx, h4]
      simp only [node.count_mk]
      ring

theorem flatInvariant_insertFlat (P : List Str) (st : countState) (x : Str)
    (h : flatInvariant P st) :
    flatInvariant (P ++ [x])
      { overallCount := st.overallCount + 1, packageTree := insertFlat st.packageTree x } := by
  obtain ⟨h1, h2, h3, h4, h5⟩ := h
  obtain ⟨g1, g2, g3, g4⟩ := insertFlat_inv P st x h1 h2 h3 h4
  refine ⟨g1, g2, g3, g4, ?_⟩
  show keysNodup (insertFlat st.packageTree x).children
  unfold insertFlat
  cases mapGet st.packageTree.children x with
  | none => exact keysNodup_mapSet _ _ _ h5
  | some n => exact keysNodup_mapSet _ _ _ h5

theorem passesFilter_iff (packageFilter name : Str) :
    passesFilter packageFilter name = true
      ↔ ¬ (packageFilter ≠ [] ∧ stringsHasPrefix name packageFilter = false) := by
  unfold passesFilter
  by_cases h : packageFilter = []
  · simp [h]
  · cases stringsHasPrefix name packageFilter <;> simp [h]

theorem generate_body_flat (includeClasses : Bool) (packageFilter : Str) (maxDepth : Nat)
    (P : List Str) (st : countState) (classDescriptor name : Str)
    (hn : packageNameOf includeClasses classDescriptor = some name)
    (h : flatInvariant P st) :
    ∃ st1, generate.body ⟨outputFlat⟩ includeClasses packageFilter maxDepth st
        classDescriptor = some st1 ∧
      flatInvariant (P ++ [name].filter (passesFilter packageFilter)) st1 := by
  have hne : ¬ outputFlat = outputTree := by decide
  unfold generate.body
  rw [hn]
  by_cases hf : packageFilter ≠ [] ∧ stringsHasPrefix name packageFilter = false
  · have hp : passesFilter packageFilter name = false := by
      cases e : passesFilter packageFilter name with
      | false => rfl
      | true => exact absurd hf ((passesFilter_iff _ _).1 e)
    refine ⟨st, by simp only [if_pos hf], ?_⟩
    simpa [List.filter, hp] using h
  · have hp : passesFilter packageFilter name = true := (passesFilter_iff _ _).2 hf
    refine ⟨{ overallCount := st.overallCount + 1
              packageTree := insertFlat st.packageTree name }, ?_, ?_⟩
    · simp only [if_neg hf, hne, if_false, if_true]
    · simpa [List.filter, hp] using flatInvariant_insertFlat P st name h

theorem generate_loop_flat (includeClasses : Bool) (packageFilter : Str) (maxDepth : Nat)
    (descrs : List Str) :
    ∀ (names P : List Str) (st : countState),
      mapOption (packageNameOf includeClasses) descrs = some names →
      flatInvariant P st →
      ∃ st1, generate.loop ⟨outputFlat⟩ includeClasses packageFilter maxDepth st descrs
          = some st1 ∧
        flatInvariant (P ++ names.filter (passesFilter packageFilter)) st1 := by
  induction descrs with
  | nil =>
    intro names P st hn h
    simp only [mapOption, Option.some.injEq] at hn
    subst hn
    exact ⟨st, rfl, by simpa using h⟩
  | cons cd rest ih =>
    intro names P st hn h
    simp only [mapOption] at hn
    cases e1 : packageNameOf includeClasses cd with
    | none => rw [e1] at hn; exact Option.noConfusion hn
    | some name =>
      rw [e1] at hn
      cases e2 : mapOption (packageNameOf includeClasses) rest with
      | none => rw [e2] at hn; exact Option.noConfusion hn
      | some names1 =>
        rw [e2] at hn
        simp only [Option.some.injEq] at hn
        subst hn
        obtain ⟨st1, b1, i1⟩ :=
          generate_body_flat includeClasses packageFilter maxDepth P st cd name e1 h
        obtain ⟨st2, b2, i2⟩ := ih names1 _ st1 e2 i1
        refine ⟨st2, by simp only [generate.loop, b1, b2], ?_⟩
        have e : P ++ List.filter (passesFilter packageFilter) (name :: names1)
            = P ++ List.filter (passesFilter packageFilter) [name]
              ++ List.filter (passesFilter packageFilter) names1 := by
          rw [List.append_assoc, ← List.filter_append]
          rfl
        rw [e]
        exact i2

theorem mapOption_total {α β : Type} (f : α → Option β) (h : ∀ x, ∃ y, f x = some y)
    (xs : List α) : ∃ ys, mapOption f xs = some ys := by
  induction xs with
  | nil => exact ⟨[], rfl⟩
  | cons x xs ih =>
    obtain ⟨y, hy⟩ := h x
    obtain ⟨ys, hys⟩ := ih
    exact ⟨y :: ys, by simp only [mapOption, hy, hys]⟩

theorem flatInvariant_newNode : flatInvariant [] { overallCount := 0, packageTree := newNode } := by
  refine ⟨rfl, rfl, ?_, rfl, ?_⟩
  · intro k; simp [newNode, node.children_mk, mapGet]
  · simp [newNode, node.children_mk, keysNodup, keys]

theorem flatCountOf_of_flatInvariant (P : List Str) (st : countState)
    (h : flatInvariant P st) : flatCountOf P st := by
  obtain ⟨h1, h2, h3, h4, h5⟩ := h
  refine ⟨h1, h2, ?_, h5, ?_, h4⟩
  · intro name
    rw [mem_keys_iff, h3 name]
    by_cases hm : name ∈ P <;> simp [hm]
  · intro name hm
    exact ⟨node.mk (occurrences name P) [] [],
      by simp only [node.child, h3 name, if_pos hm], rfl⟩

theorem generate_loop_flat_counts (includeClasses : Bool) (packageFilter : Str)
    (maxDepth : Nat) (descrs : List Str) :
    ∃ names st, mapOption (packageNameOf includeClasses) descrs = some names ∧
      generate.loop ⟨outputFlat⟩ includeClasses packageFilter maxDepth
        { overallCount := 0, packageTree := newNode } descrs = some st ∧
      flatCountOf (names.filter (passesFilter packageFilter)) st := by
  obtain ⟨names, hn⟩ := mapOption_total (packageNameOf includeClasses)
    (packageNameOf_total includeClasses) descrs
  obtain ⟨st, e, i⟩ := generate_loop_flat includeClasses packageFilter maxDepth descrs
    names [] _ hn flatInvariant_newNode
  exact ⟨names, st, hn, e, flatCountOf_of_flatInvariant _ _ (by simpa using i)⟩

/-- C8: for flat style and every list of references that `getMethodRefs`
(`getFieldRefs`) returns, `generate` returns a state that is the flat count of
the qualified names of the references that pass the package filter: the
children of the root are exactly the distinct names, `names` holds them once
each in order of first occurrence, the count of a child is the number of
passing references with exactly that name, and the counts of the children add
up to `overallCount`. -/
theorem generate_flat_counts (d : Data) (includeClasses : Bool) (packageFilter : Str)
    (maxDepth : Nat) (f : filter) :
    ((getMethodRefs d f).isSome = true →
      ∃ methodRefs names st, getMethodRefs d f = some methodRefs ∧
        mapOption (packageNameOf includeClasses)
          (methodRefs.map (fun methodRef => methodRef.DeclClass)) = some names ∧
        methodGenerator.generate ⟨⟨outputFlat⟩⟩ d includeClasses packageFilter maxDepth f
          = some st ∧
        flatCountOf (names.filter (passesFilter packageFilter)) st) ∧
    ((getFieldRefs d f).isSome = true →
      ∃ fieldRefs names st, getFieldRefs d f = some fieldRefs ∧
        mapOption (packageNameOf includeClasses)
          (fieldRefs.map (fun fieldRef => fieldRef.DeclClass)) = some names ∧
        fieldGenerator.generate ⟨⟨outputFlat⟩⟩ d includeClasses packageFilter maxDepth f
          = some st ∧
        flatCountOf (names.filter (passesFilter packageFilter)) st) := by
  constructor
  · intro h
    cases e : getMethodRefs d f with
    | none => rw [e] at h; exact absurd h (by simp)
    | some refs =>
      obtain ⟨names, st, hn, hl, hc⟩ := generate_loop_flat_counts includeClasses
        packageFilter maxDepth (refs.map (fun methodRef => methodRef.DeclClass))
      exact ⟨refs, names, st, rfl, hn, by simp only [methodGenerator.generate, e, hl], hc⟩
  · intro h
    cases e : getFieldRefs d f with
    | none => rw [e] at h; exact absurd h (by simp)
    | some refs =>
      obtain ⟨names, st, hn, hl, hc⟩ := generate_loop_flat_counts includeClasses
        packageFilter maxDepth (refs.map (fun fieldRef => fieldRef.DeclClass))
      exact ⟨refs, names, st, rfl, hn, by simp only [fieldGenerator.generate, e, hl], hc⟩

/-- A witness for C8. -/
theorem generate_flat_counts_witness :
    ∃ methodRefs names st, getMethodRefs exampleData ⟨filterAll⟩ = some methodRefs ∧
      mapOption (packageNameOf false)
        (methodRefs.map (fun methodRef => methodRef.DeclClass)) = some names ∧
      methodGenerator.generate ⟨⟨outputFlat⟩⟩ exampleData false (ascii "com") 7 ⟨filterAll⟩
        = some st ∧
      flatCountOf (names.filter (passesFilter (ascii "com"))) st :=
  (generate_flat_counts exampleData false (ascii "com") 7 ⟨filterAll⟩).1 (by decide)

/-! ## The filters -/

theorem filter_partition_lists {α : Type} (l : List α) (isExternal : α → Bool) :
    (l.filter (fun x => !isExternal x)).Disjoint (l.filter isExternal) ∧
    (l.filter (fun x => !isExternal x)).Sublist l ∧
    (l.filter isExternal).Sublist l ∧
    (l.filter (fun x => !isExternal x) ++ l.filter isExternal).Perm l := by
  refine ⟨?_, List.filter_sublist l, List.filter_sublist l, ?_⟩
  · intro x h1 h2
    have g1 := (List.mem_filter.1 h1).2
    have g2 := (List.mem_filter.1 h2).2
    simp [g2] at g1
  · exact List.perm_append_comm.trans (List.filter_append_perm isExternal l)

theorem getMethodRefs_filtered (d : Data) (refs : List MethodRef) (ext : List ClassRef)
    (e1 : GetMethodRefs d = some refs) (e2 : GetExternalReferences d = some ext) :
    getMethodRefs d ⟨filterAll⟩ = some refs ∧
    getMethodRefs d ⟨filterDefinedOnly⟩ = some (refs.filter (fun m =>
      !decide (newMethodRefKey m ∈
        (ext.flatMap (fun classRef => classRef.MethodRefs)).map newMethodRefKey))) ∧
    getMethodRefs d ⟨filterReferencedOnly⟩ = some (refs.filter (fun m =>
      decide (newMethodRefKey m ∈
        (ext.flatMap (fun classRef => classRef.MethodRefs)).map newMethodRefKey))) := by
  simp [getMethodRefs, e1, e2, filterAll, filterDefinedOnly, filterReferencedOnly]

theorem getFieldRefs_filtered (d : Data) (refs : List FieldRef) (ext : List ClassRef)
    (e1 : GetFieldRefs d = some refs) (e2 : GetExternalReferences d = some ext) :
    getFieldRefs d ⟨filterAll⟩ = some refs ∧
    getFieldRefs d ⟨filterDefinedOnly⟩ = some (refs.filter (fun m =>
      !decide (m ∈ ext.flatMap (fun classRef => classRef.FieldRefs)))) ∧
    getFieldRefs d ⟨filterReferencedOnly⟩ = some (refs.filter (fun m =>
      decide (m ∈ ext.flatMap (fun classRef => classRef.FieldRefs)))) := by
  simp [getFieldRefs, e1, e2, filterAll, filterDefinedOnly, filterReferencedOnly]

/-- C10: whenever `getMethodRefs` (`getFieldRefs`) returns for `DefinedOnly`,
it returns for `ReferencedOnly` and for `All` too; the `DefinedOnly` list and
the `ReferencedOnly` list have no element in common, each is a sublist of the
`All` list in its order, and the two lists together are a rearrangement of the
`All` list (every element as often as it occurs there). -/
theorem filter_partition (d : Data) :
    ((getMethodRefs d ⟨filterDefinedOnly⟩).isSome = true →
      ∃ all definedOnly referencedOnly,
        getMethodRefs d ⟨filterAll⟩ = some all ∧
        getMethodRefs d ⟨filterDefinedOnly⟩ = some definedOnly ∧
        getMethodRefs d ⟨filterReferencedOnly⟩ = some referencedOnly ∧
        definedOnly.Disjoint referencedOnly ∧
        definedOnly.Sublist all ∧ referencedOnly.Sublist all ∧
        (definedOnly ++ referencedOnly).Perm all) ∧
    ((getFieldRefs d ⟨filterDefinedOnly⟩).isSome = true →
      ∃ all definedOnly referencedOnly,
        getFieldRefs d ⟨filterAll⟩ = some all ∧
        getFieldRefs d ⟨filterDefinedOnly⟩ = some definedOnly ∧
        getFieldRefs d ⟨filterReferencedOnly⟩ = some referencedOnly ∧
        definedOnly.Disjoint referencedOnly ∧
        definedOnly.Sublist all ∧ referencedOnly.Sublist all ∧
        (definedOnly ++ referencedOnly).Perm all) := by
  have hD : ¬ filterDefinedOnly = filterAll := by decide
  constructor
  · intro h
    cases e1 : GetMethodRefs d with
    | none => simp [getMethodRefs, e1] at h
    | some refs =>
      cases e2 : GetExternalReferences d with
      | none => simp [getMethodRefs, e1, e2, hD] at h
      | some ext =>
        obtain ⟨g1, g2, g3⟩ := getMethodRefs_filtered d refs ext e1 e2
        exact ⟨refs, _, _, g1, g2, g3, filter_partition_lists refs _⟩
  · intro h
    cases e1 : GetFieldRefs d with
    | none => simp [getFieldRefs, e1] at h
    | some refs =>
      cases e2 : GetExternalReferences d with
      | none => simp [getFieldRefs, e1, e2, hD] at h
      | some ext =>
        obtain ⟨g1, g2, g3⟩ := getFieldRefs_filtered d refs ext e1 e2
        exact ⟨refs, _, _, g1, g2, g3, filter_partition_lists refs _⟩

/-- A witness for C10. -/
theorem filter_partition_witness :
    ∃ all definedOnly referencedOnly,
      getMethodRefs exampleData ⟨filterAll⟩ = some all ∧
      getMethodRefs exampleData ⟨filterDefinedOnly⟩ = some definedOnly ∧
      getMethodRefs exampleData ⟨filterReferencedOnly⟩ = some referencedOnly ∧
      definedOnly.Disjoint referencedOnly ∧
      definedOnly.Sublist all ∧ referencedOnly.Sublist all ∧
      (definedOnly ++ referencedOnly).Perm all :=
  (filter_partition exampleData).1 (by decide)

/-! ## DescriptorToDot: the result -/

theorem byteAt_replicate_append (n k : Nat) (b : Byte) (rest : Str) (h : k < n) :
    byteAt (List.replicate n b ++ rest) k = some b := by
  unfold byteAt
  rw [List.getElem?_append_left (by simpa using h)]
  simp [h]

theorem byteAt_append_right (pre rest : Str) (k : Nat) :
    byteAt (pre ++ rest) (pre.length + k) = byteAt rest k := by
  unfold byteAt
  rw [List.getElem?_append_right (by omega)]
  simp

theorem strip_brackets (n : Nat) (rest : Str)
    (hrest : rest.length = 1 ∨ (2 ≤ rest.length ∧ byteAt rest 0 ≠ some (ch '['))) :
    ∀ j k, k + j = n →
      DescriptorToDot.strip (List.replicate n (ch '[') ++ rest) k (j + rest.length)
        = some (n, rest.length) := by
  intro j
  induction j with
  | zero =>
    intro k hk
    have hk2 : k = n := by omega
    subst hk2
    rcases hrest with h1 | ⟨h2, h3⟩
    · simp [h1, DescriptorToDot.strip]
    · obtain ⟨t, ht⟩ : ∃ t, rest.length = t + 2 := ⟨rest.length - 2, by omega⟩
      have hb : byteAt (List.replicate k (ch '[') ++ rest) k = byteAt rest 0 := by
        have := byteAt_append_right (List.replicate k (ch '[')) rest 0
        simpa using this
      simp only [Nat.zero_add, ht, DescriptorToDot.strip, hb]
      cases hr : byteAt rest 0 with
      | none =>
        have : rest = [] := by
          cases rest with
          | nil => rfl
          | cons a r => simp [byteAt] at hr
        simp [this] at ht
      | some b =>
        have hne : ¬ b = ch '[' := by
          intro e; apply h3; rw [hr, e]
        simp [hne]
  | succ j ih =>
    intro k hk
    have hlen : 1 ≤ rest.length := by
      rcases hrest with h1 | ⟨h2, _⟩ <;> omega
    obtain ⟨t, ht⟩ : ∃ t, j + 1 + rest.length = t + 2 := ⟨j + rest.length - 1, by omega⟩
    have hb := byteAt_replicate_append n k (ch '[') rest (by omega)
    have e : t + 1 = j + rest.length := by omega
    rw [ht]
    simp only [DescriptorToDot.strip, hb, if_true]
    rw [e]
    exact ih (k + 1) (by omega)

theorem setByte_append (acc : List Byte) (z : Byte) (zs : List Byte) (x : Byte) :
    setByte (acc ++ z :: zs) acc.length x = some (acc ++ x :: zs) := by
  simp [setByte]

theorem copy_result (descr : Str) (offset : Nat) :
    ∀ (remaining : Nat) (acc zs : List Byte),
      offset + acc.length + remaining ≤ descr.length → remaining ≤ zs.length →
      DescriptorToDot.copy descr offset remaining acc.length (acc ++ zs)
        = some (acc ++ stringsReplace ((descr.drop (offset + acc.length)).take remaining)
            (ch '/') (ch '.') ++ zs.drop remaining) := by
  intro remaining
  induction remaining with
  | zero => intro acc zs _ _; simp [DescriptorToDot.copy, stringsReplace]
  | succ r ih =>
    intro acc zs h1 h2
    cases zs with
    | nil => exact absurd h2 (by simp only [List.length_nil]; omega)
    | cons z zs =>
      have hlt : offset + acc.length < descr.length := by omega
      have hb : byteAt descr (offset + acc.length) = some descr[offset + acc.length] := by
        simp [byteAt, hlt]
      have hd : descr.drop (offset + acc.length)
          = descr[offset + acc.length] :: descr.drop (offset + acc.length + 1) := by
        rw [List.drop_eq_getElem_cons hlt]
      have ih2 := ih (acc ++ [if descr[offset + acc.length] = ch '/' then ch '.'
          else descr[offset + acc.length]]) zs
        (by simp only [List.length_append, List.length_singleton]; omega)
        (by simp only [List.length_cons] at h2; omega)
      simp only [List.length_append, List.length_singleton, List.append_assoc,
        List.singleton_append] at ih2
      simp only [DescriptorToDot.copy, hb, setByte_append, ih2, hd, List.take_succ_cons,
        stringsReplace, List.map_cons, List.drop_succ_cons]
      simp [Nat.add_assoc]

theorem brackets_result :
    ∀ (arrayDepth : Nat) (acc zs : List Byte), 2 * arrayDepth ≤ zs.length →
      DescriptorToDot.brackets arrayDepth acc.length (acc ++ zs)
        = some (acc ++ (List.replicate arrayDepth (ascii "[]")).flatten
            ++ zs.drop (2 * arrayDepth)) := by
  intro arrayDepth
  induction arrayDepth with
  | zero => intro acc zs _; simp [DescriptorToDot.brackets]
  | succ a ih =>
    intro acc zs h
    match zs, h with
    | [], h => exact absurd h (by simp)
    | [_], h => exact absurd h (by simp; omega)
    | z1 :: z2 :: zs, h =>
      have e1 : setByte (acc ++ z1 :: z2 :: zs) acc.length (ch '[')
          = some (acc ++ ch '[' :: z2 :: zs) := setByte_append _ _ _ _
      have e2 : setByte (acc ++ ch '[' :: z2 :: zs) (acc.length + 1) (ch ']')
          = some (acc ++ ch '[' :: ch ']' :: zs) := by
        have := setByte_append (acc ++ [ch '[']) z2 zs (ch ']')
        simpa using this
      have ih2 := ih (acc ++ [ch '[', ch ']']) zs (by simp at h; omega)
      simp only [List.length_append, List.length_cons, List.length_singleton,
        List.length_nil, List.append_assoc, List.cons_append, List.nil_append] at ih2
      simp only [DescriptorToDot.brackets, e1, e2]
      rw [show acc.length + 2 = acc.length + (0 + 1 + 1) by omega, ih2]
      have e3 : ascii "[]" = [ch '[', ch ']'] := by decide
      have e4 : List.drop (2 * (a + 1)) (z1 :: z2 :: zs) = List.drop (2 * a) zs := by
        rw [show 2 * (a + 1) = 2 * a + 1 + 1 by omega]
        rfl
      rw [e4]
      simp [List.replicate_succ, e3]


theorem primitiveTypeLabel_no_slash (c : Byte) :
    stringsReplace (primitiveTypeLabel c) (ch '/') (ch '.') = primitiveTypeLabel c := by
  unfold primitiveTypeLabel
  split_ifs <;> decide

theorem DescriptorToDot_class (n : Nat) (s : Str) :
    DescriptorToDot (List.replicate n (ch '[') ++ ch 'L' :: (s ++ [ch ';']))
      = some (stringsReplace s (ch '/') (ch '.')
          ++ (List.replicate n (ascii "[]")).flatten) := by
  have hL : ¬ ch 'L' = ch '[' := by decide
  have hs := strip_brackets n (ch 'L' :: (s ++ [ch ';']))
    (Or.inr ⟨by simp, by simp [byteAt, hL]⟩) n 0 (by omega)
  have hlen : (List.replicate n (ch '[') ++ ch 'L' :: (s ++ [ch ';'])).length
      = n + (ch 'L' :: (s ++ [ch ';'])).length := by simp
  have ht : DescriptorToDot.target (List.replicate n (ch '[') ++ ch 'L' :: (s ++ [ch ';']))
      n (ch 'L' :: (s ++ [ch ';'])).length
      = some (List.replicate n (ch '[') ++ ch 'L' :: (s ++ [ch ';']), n + 1, s.length) := by
    have b1 : byteAt (List.replicate n (ch '[') ++ ch 'L' :: (s ++ [ch ';'])) n
        = some (ch 'L') := by
      have := byteAt_append_right (List.replicate n (ch '[')) (ch 'L' :: (s ++ [ch ';'])) 0
      simpa [byteAt] using this
    have b2 : byteAt (List.replicate n (ch '[') ++ ch 'L' :: (s ++ [ch ';']))
        (n + (s.length + 1)) = some (ch ';') := by
      have := byteAt_append_right (List.replicate n (ch '[')) (ch 'L' :: (s ++ [ch ';']))
        (s.length + 1)
      simp only [List.length_replicate] at this
      rw [this]
      simp [byteAt]
    have h1 : ¬ s.length + 1 + 1 = 1 := by omega
    have h2 : 2 ≤ s.length + 1 + 1 := by omega
    have e : n + (s.length + 1 + 1) - 1 = n + (s.length + 1) := by omega
    simp only [DescriptorToDot.target, List.length_cons, List.length_append,
      List.length_singleton, List.length_nil, Nat.zero_add, h1, h2, if_false, if_true, b1,
      e, b2]
    simp
  have hc := copy_result (List.replicate n (ch '[') ++ ch 'L' :: (s ++ [ch ';'])) (n + 1)
    s.length [] (List.replicate (s.length + n * 2) 0) (by simp; omega) (by simp)
  have hd : List.take s.length (List.drop (n + 1)
      (List.replicate n (ch '[') ++ ch 'L' :: (s ++ [ch ';']))) = s := by
    have : List.drop (n + 1) (List.replicate n (ch '[') ++ ch 'L' :: (s ++ [ch ';']))
        = s ++ [ch ';'] := by
      rw [List.drop_append_eq_append_drop]
      simp
    rw [this]
    simp
  simp only [List.length_nil, Nat.add_zero, List.nil_append, hd] at hc
  have hb := brackets_result n (stringsReplace s (ch '/') (ch '.'))
    (List.drop s.length (List.replicate (s.length + n * 2) 0)) (by simp; omega)
  have hl : (stringsReplace s (ch '/') (ch '.')).length = s.length := by
    simp [stringsReplace]
  rw [hl] at hb
  unfold DescriptorToDot
  rw [hlen, hs]
  simp only [ht, hc, hb]
  have hz : n * 2 - 2 * n = 0 := by omega
  simp [hz]

theorem DescriptorToDot_primitive (n : Nat) (c : Byte) :
    DescriptorToDot (List.replicate n (ch '[') ++ [c])
      = some (primitiveTypeLabel c ++ (List.replicate n (ascii "[]")).flatten) := by
  have hs := strip_brackets n [c] (Or.inl rfl) n 0 (by omega)
  have hlen : (List.replicate n (ch '[') ++ [c]).length = n + [c].length := by simp
  have ht : DescriptorToDot.target (List.replicate n (ch '[') ++ [c]) n [c].length
      = some (primitiveTypeLabel c, 0, (primitiveTypeLabel c).length) := by
    have b1 : byteAt (List.replicate n (ch '[') ++ [c]) n = some c := by
      simp [byteAt]
    simp [DescriptorToDot.target, b1]
  have hc := copy_result (primitiveTypeLabel c) 0 (primitiveTypeLabel c).length []
    (List.replicate ((primitiveTypeLabel c).length + n * 2) 0) (by simp) (by simp)
  simp only [List.length_nil, Nat.add_zero, List.nil_append, List.drop_zero,
    List.take_length, primitiveTypeLabel_no_slash] at hc
  have hb := brackets_result n (primitiveTypeLabel c)
    (List.drop (primitiveTypeLabel c).length
      (List.replicate ((primitiveTypeLabel c).length + n * 2) 0)) (by simp; omega)
  unfold DescriptorToDot
  rw [hlen, hs]
  simp only [ht, hc, hb]
  have hz : n * 2 - 2 * n = 0 := by omega
  simp [hz]

/-- C14: for every `n` and every string `s`, `DescriptorToDot` of `n` bytes `[`
followed by `L`, `s` and `;` is `s` with every `/` replaced by `.`, followed by
`n` copies of `[]`; of `n` bytes `[` followed by one byte `c` it is the label
of `c` followed by `n` copies of `[]`, where the labels of `B C D F I J S V Z`
are `byte char double float int long short void boolean`; in particular `[I`
gives `int[]`, `Ljava/lang/String;` gives `java.lang.String` and
`[[Ljava/lang/Object;` gives `java.lang.Object[][]`. -/
theorem DescriptorToDot_spec :
    (∀ (n : Nat) (s : Str),
      DescriptorToDot (List.replicate n (ch '[') ++ ch 'L' :: (s ++ [ch ';']))
        = some (stringsReplace s (ch '/') (ch '.')
            ++ (List.replicate n (ascii "[]")).flatten)) ∧
    (∀ (n : Nat) (c : Byte),
      DescriptorToDot (List.replicate n (ch '[') ++ [c])
        = some (primitiveTypeLabel c ++ (List.replicate n (ascii "[]")).flatten)) ∧
    ((ascii "BCDFIJSVZ").map primitiveTypeLabel
      = [ascii "byte", ascii "char", ascii "double", ascii "float", ascii "int",
         ascii "long", ascii "short", ascii "void", ascii "boolean"]) ∧
    DescriptorToDot (ascii "[I") = some (ascii "int[]") ∧
    DescriptorToDot (ascii "Ljava/lang/String;") = some (ascii "java.lang.String") ∧
    DescriptorToDot (ascii "[[Ljava/lang/Object;") = some (ascii "java.lang.Object[][]") :=
  ⟨DescriptorToDot_class, DescriptorToDot_primitive, by decide, by decide, by decide,
    by decide⟩

/-! ## PackageNameOnly -/

theorem stringsLastIndexByte_ge (s : Str) (c : Byte) : -1 ≤ stringsLastIndexByte s c := by
  induction s with
  | nil => simp [stringsLastIndexByte]
  | cons b rest ih =>
    simp only [stringsLastIndexByte]
    split_ifs <;> omega

theorem stringsLastIndexByte_of_not_mem (s : Str) (c : Byte) (h : c ∉ s) :
    stringsLastIndexByte s c = -1 := by
  induction s with
  | nil => simp [stringsLastIndexByte]
  | cons b rest ih =>
    have h1 : ¬ b = c := fun e => h (e ▸ List.mem_cons_self _ _)
    have h2 := ih (fun hm => h (List.mem_cons_of_mem _ hm))
    simp [stringsLastIndexByte, h1, h2]

theorem stringsLastIndexByte_of_mem (s : Str) (c : Byte) (h : c ∈ s) :
    ∃ p r, s = p ++ c :: r ∧ c ∉ r ∧ stringsLastIndexByte s c = p.length := by
  induction s with
  | nil => simp at h
  | cons b rest ih =>
    by_cases hr : c ∈ rest
    · obtain ⟨p, r, e, hn, hl⟩ := ih hr
      refine ⟨b :: p, r, by rw [e]; rfl, hn, ?_⟩
      simp only [stringsLastIndexByte, hl, List.length_cons]
      have : (0 : Int) ≤ (p.length : Int) := by omega
      simp [this]
    · have hb : b = c := by
        rcases List.mem_cons.1 h with e | e
        · exact e.symm
        · exact absurd e hr
      refine ⟨[], rest, by rw [hb]; rfl, hr, ?_⟩
      simp [stringsLastIndexByte, stringsLastIndexByte_of_not_mem rest c hr, hb]

/-- C15: for every descriptor `t`, with `dotted` the result of
`DescriptorToDot t`: if `dotted` contains no `.` then `PackageNameOnly t` is
the empty string; otherwise `PackageNameOnly t` is the part of `dotted` before
its last `.`, so `dotted` is `PackageNameOnly t`, then `.`, then a rest without
`.`; and `Ljava/lang/String;` gives `java.lang`. -/
theorem PackageNameOnly_spec (t : Str) :
    ∃ dotted, DescriptorToDot t = some dotted ∧
      (ch '.' ∉ dotted → PackageNameOnly t = some []) ∧
      (ch '.' ∈ dotted → ∃ p r, PackageNameOnly t = some p ∧
        dotted = p ++ ch '.' :: r ∧ ch '.' ∉ r) ∧
      PackageNameOnly (ascii "Ljava/lang/String;") = some (ascii "java.lang") := by
  obtain ⟨dotted, e⟩ := DescriptorToDot_total t
  refine ⟨dotted, e, ?_, ?_, by decide⟩
  · intro h
    simp [PackageNameOnly, e, stringsLastIndexByte_of_not_mem dotted _ h]
  · intro h
    obtain ⟨p, r, e2, hn, hl⟩ := stringsLastIndexByte_of_mem dotted _ h
    refine ⟨p, r, ?_, e2, hn⟩
    have h0 : ¬ ((p.length : Int) < 0) := by omega
    simp only [PackageNameOnly, e, hl, h0, if_false, Int.toNat_ofNat]
    rw [e2]
    simp

/-- A witness for C15. -/
theorem PackageNameOnly_spec_witness :
    ∃ dotted, DescriptorToDot (ascii "La/b/C;") = some dotted ∧
      ∃ p r, PackageNameOnly (ascii "La/b/C;") = some p ∧
        dotted = p ++ ch '.' :: r ∧ ch '.' ∉ r := by
  obtain ⟨dotted, e, _, h, _⟩ := PackageNameOnly_spec (ascii "La/b/C;")
  have e2 : DescriptorToDot (ascii "La/b/C;") = some (ascii "a.b.C") := by decide
  rw [e2] at e
  have e3 : dotted = ascii "a.b.C" := (Option.some.inj e).symm
  exact ⟨dotted, by rw [e2, e3], h (by rw [e3]; decide)⟩

/-! ## newMethodRefKey -/

theorem stringsJoin_nil (sep : Str) : stringsJoin [] sep = [] := rfl

theorem stringsJoin_singleton (x sep : Str) : stringsJoin [x] sep = x := by
  simp [stringsJoin, List.intercalate]

theorem stringsJoin_cons_cons (x y : Str) (r : List Str) (sep : Str) :
    stringsJoin (x :: y :: r) sep = x ++ sep ++ stringsJoin (y :: r) sep := by
  simp [stringsJoin, List.intercalate, List.intersperse]

/-- Two strings without `,`, each followed by the end or by a `,`, are equal
when the whole strings are. -/
theorem comma_split (x : Str) :
    ∀ (y t1 t2 : Str), ch ',' ∉ x → ch ',' ∉ y →
      (t1 = [] ∨ ∃ u, t1 = ch ',' :: u) → (t2 = [] ∨ ∃ u, t2 = ch ',' :: u) →
      x ++ t1 = y ++ t2 → x = y ∧ t1 = t2 := by
  induction x with
  | nil =>
    intro y t1 t2 _ hy h1 h2 e
    cases y with
    | nil => exact ⟨rfl, by simpa using e⟩
    | cons b y =>
      have hb : ¬ ch ',' = b := fun e => hy (e ▸ List.mem_cons_self _ _)
      rcases h1 with h1 | ⟨u, h1⟩
      · rw [h1] at e; simp at e
      · rw [h1] at e
        simp only [List.nil_append, List.cons_append, List.cons.injEq] at e
        exact absurd e.1 hb
  | cons a x ih =>
    intro y t1 t2 hx hy h1 h2 e
    have ha : ¬ ch ',' = a := fun e => hx (e ▸ List.mem_cons_self _ _)
    cases y with
    | nil =>
      rcases h2 with h2 | ⟨u, h2⟩
      · rw [h2] at e; simp at e
      · rw [h2] at e
        simp only [List.nil_append, List.cons_append, List.cons.injEq] at e
        exact absurd e.1.symm ha
    | cons b y =>
      simp only [List.cons_append, List.cons.injEq] at e
      obtain ⟨g1, g2⟩ := ih y t1 t2 (fun hm => hx (List.mem_cons_of_mem _ hm))
        (fun hm => hy (List.mem_cons_of_mem _ hm)) h1 h2 e.2
      exact ⟨by rw [e.1, g1], g2⟩

theorem stringsJoin_eq_nil (l : List Str) (h : ∀ a ∈ l, a ≠ [])
    (e : stringsJoin l (ascii ",") = []) : l = [] := by
  cases l with
  | nil => rfl
  | cons x r =>
    have hx := h x (List.mem_cons_self _ _)
    cases r with
    | nil => rw [stringsJoin_singleton] at e; exact absurd e hx
    | cons y r =>
      rw [stringsJoin_cons_cons] at e
      have e2 : x = [] := (List.append_eq_nil.1 (List.append_eq_nil.1 e).1).1
      exact absurd e2 hx

theorem stringsJoin_tail (x : Str) (r : List Str) :
    ∃ t, stringsJoin (x :: r) (ascii ",") = x ++ t ∧
      (t = [] ∨ ∃ u, t = ch ',' :: u) ∧
      (r = [] → t = []) ∧ (r ≠ [] → t = ch ',' :: stringsJoin r (ascii ",")) := by
  cases r with
  | nil => exact ⟨[], by simp [stringsJoin_singleton], Or.inl rfl, fun _ => rfl, fun h => absurd rfl h⟩
  | cons y r =>
    refine ⟨ch ',' :: stringsJoin (y :: r) (ascii ","), ?_, Or.inr ⟨_, rfl⟩, ?_, fun _ => rfl⟩
    · rw [stringsJoin_cons_cons]
      have : ascii "," = [ch ','] := by decide
      simp [this]
    · intro h; exact absurd h (by simp)

/-- `strings.Join` with `,` tells apart lists of non-empty strings without `,`. -/
theorem stringsJoin_injective (l1 : List Str) :
    ∀ l2 : List Str, (∀ a ∈ l1, a ≠ [] ∧ ch ',' ∉ a) → (∀ a ∈ l2, a ≠ [] ∧ ch ',' ∉ a) →
      stringsJoin l1 (ascii ",") = stringsJoin l2 (ascii ",") → l1 = l2 := by
  induction l1 with
  | nil =>
    intro l2 _ h2 e
    exact (stringsJoin_eq_nil l2 (fun a ha => (h2 a ha).1) (by rw [← e]; rfl)).symm
  | cons x r1 ih =>
    intro l2 h1 h2 e
    cases l2 with
    | nil =>
      exact stringsJoin_eq_nil (x :: r1) (fun a ha => (h1 a ha).1) (by rw [e]; rfl)
    | cons y r2 =>
      obtain ⟨t1, e1, c1, n1, m1⟩ := stringsJoin_tail x r1
      obtain ⟨t2, e2, c2, n2, m2⟩ := stringsJoin_tail y r2
      rw [e1, e2] at e
      obtain ⟨g1, g2⟩ := comma_split x y t1 t2 (h1 x (List.mem_cons_self _ _)).2
        (h2 y (List.mem_cons_self _ _)).2 c1 c2 e
      have hr1 : ∀ a ∈ r1, a ≠ [] ∧ ch ',' ∉ a := fun a ha => h1 a (List.mem_cons_of_mem _ ha)
      have hr2 : ∀ a ∈ r2, a ≠ [] ∧ ch ',' ∉ a := fun a ha => h2 a (List.mem_cons_of_mem _ ha)
      by_cases z1 : r1 = []
      · by_cases z2 : r2 = []
        · rw [g1, z1, z2]
        · rw [n1 z1, m2 z2] at g2
          exact absurd g2 (by simp)
      · by_cases z2 : r2 = []
        · rw [m1 z1, n2 z2] at g2
          exact absurd g2 (by simp)
        · rw [m1 z1, m2 z2] at g2
          simp only [List.cons.injEq, true_and] at g2
          rw [g1, ih r2 hr1 hr2 g2]

/-- C13, as the code has it: for method references whose argument types are
non-empty and contain no `,` (as type descriptors are), two references have
the same key exactly when they have the same declaring class, method name,
return type and the same ordered list of argument types. -/
theorem newMethodRefKey_injective (m1 m2 : MethodRef)
    (h1 : ∀ a ∈ m1.ArgTypes, a ≠ [] ∧ ch ',' ∉ a)
    (h2 : ∀ a ∈ m2.ArgTypes, a ≠ [] ∧ ch ',' ∉ a) :
    newMethodRefKey m1 = newMethodRefKey m2 ↔
      (m1.DeclClass = m2.DeclClass ∧ m1.MethodName = m2.MethodName ∧
        m1.ReturnType = m2.ReturnType ∧ m1.ArgTypes = m2.ArgTypes) := by
  constructor
  · intro e
    simp only [newMethodRefKey, methodRefKey.mk.injEq] at e
    exact ⟨e.1, e.2.2.2, e.2.2.1, stringsJoin_injective _ _ h1 h2 e.2.1⟩
  · rintro ⟨e1, e2, e3, e4⟩
    simp only [newMethodRefKey, e1, e2, e3, e4]

/-- A witness for C13. -/
theorem newMethodRefKey_injective_witness :
    newMethodRefKey ⟨ascii "LA;", [ascii "I", ascii "[J"], ascii "V", ascii "f"⟩
      = newMethodRefKey ⟨ascii "LA;", [ascii "I", ascii "[J"], ascii "V", ascii "f"⟩ ↔
      (ascii "LA;" = ascii "LA;" ∧ ascii "f" = ascii "f" ∧ ascii "V" = ascii "V" ∧
        [ascii "I", ascii "[J"] = [ascii "I", ascii "[J"]) :=
  newMethodRefKey_injective
    ⟨ascii "LA;", [ascii "I", ascii "[J"], ascii "V", ascii "f"⟩
    ⟨ascii "LA;", [ascii "I", ascii "[J"], ascii "V", ascii "f"⟩ (by decide) (by decide)

/-- C13 fails as stated: the method with the one argument type `I,J` and the
method with the two argument types `I` and `J` have the same key. -/
theorem newMethodRefKey_collision :
    newMethodRefKey ⟨ascii "LA;", [ascii "I,J"], ascii "V", ascii "f"⟩
      = newMethodRefKey ⟨ascii "LA;", [ascii "I", ascii "J"], ascii "V", ascii "f"⟩ ∧
    [ascii "I,J"] ≠ [ascii "I", ascii "J"] := by
  decide

/-! ## The reader: calls on the file -/


/-! ## The byte source -/

theorem Run.bind_eq {σ α β : Type} (x : Run σ α) (f : α → Run σ β) :
    (x >>= f) = Run.bind x f := rfl

theorem Run.pure_eq {σ α : Type} (a : α) : (pure a : Run σ α) = Run.pure a := rfl

theorem Run.bind_ok {σ α β : Type} (x : Run σ α) (f : α → Run σ β) (s s1 : σ) (a : α)
    (h : x s = (.ok a, s1)) : Run.bind x f s = f a s1 := by
  simp [Run.bind, h]

theorem Run.bind_error {σ α β : Type} (x : Run σ α) (f : α → Run σ β) (s s1 : σ) (e : Err)
    (h : x s = (.error e, s1)) : Run.bind x f s = (.error e, s1) := by
  simp [Run.bind, h]

theorem File.Read_ok (n : Nat) (f : File)
    (h : ¬ (n ≠ 0 ∧ ((f.data.drop f.pos).take n).length = 0)) :
    File.Read n f = (.ok ((f.data.drop f.pos).take n),
      { f with pos := f.pos + ((f.data.drop f.pos).take n).length,
               log := f.log ++ [(f.pos, ((f.data.drop f.pos).take n).length)] }) := by
  unfold File.Read
  exact if_neg h

theorem File.Read_eof (n : Nat) (f : File)
    (h : n ≠ 0 ∧ ((f.data.drop f.pos).take n).length = 0) :
    File.Read n f = (.error .eof, { f with log := f.log ++ [(f.pos, 0)] }) := by
  unfold File.Read
  exact if_pos h

theorem readFully_eq (n : Nat) (f : File) :
    readFully n f = Run.bind (File.Read n)
      (fun buf => if buf.length ≠ n then Run.fail .shortRead else Run.pure buf) f := rfl

/-- The call `readFully` when the file has the `n` bytes: they are delivered. -/
theorem readFully_ok (n : Nat) (f : File) (h : f.pos + n ≤ f.data.length) :
    readFully n f = (.ok ((f.data.drop f.pos).take n),
      { f with pos := f.pos + n, log := f.log ++ [(f.pos, n)] }) := by
  have hl : ((f.data.drop f.pos).take n).length = n := by
    simp only [List.length_take, List.length_drop]; omega
  have hc : ¬ (n ≠ 0 ∧ ((f.data.drop f.pos).take n).length = 0) := by
    rw [hl]; intro h2; exact h2.1 h2.2
  rw [readFully_eq, Run.bind_ok _ _ _ _ _ (File.Read_ok n f hc), hl]
  simp [Run.pure]

/-- The call `readFully` when the file has fewer than the `n` bytes: an `error`, after
one `Read` of the bytes that are left. -/
theorem readFully_short (n : Nat) (f : File) (hn : n ≠ 0)
    (h : ¬ f.pos + n ≤ f.data.length) :
    readFully n f = (.error (if f.data.length ≤ f.pos then .eof else .shortRead),
      { f with pos := f.pos + (f.data.length - f.pos),
               log := f.log ++ [(f.pos, f.data.length - f.pos)] }) := by
  have hl : ((f.data.drop f.pos).take n).length = f.data.length - f.pos := by
    simp only [List.length_take, List.length_drop]; omega
  by_cases he : f.data.length ≤ f.pos
  · have hz : f.data.length - f.pos = 0 := by omega
    have hc : n ≠ 0 ∧ ((f.data.drop f.pos).take n).length = 0 := ⟨hn, by rw [hl, hz]⟩
    rw [readFully_eq, Run.bind_error _ _ _ _ _ (File.Read_eof n f hc), hz, if_pos he]
    rfl
  · have hc : ¬ (n ≠ 0 ∧ ((f.data.drop f.pos).take n).length = 0) := by
      rw [hl]; intro h2; omega
    have hne : f.data.length - f.pos ≠ n := by omega
    rw [readFully_eq, Run.bind_ok _ _ _ _ _ (File.Read_ok n f hc), hl, if_neg he]
    simp [hne, Run.fail]


theorem onFile_eq {α : Type} (x : Run File α) (d : Data) :
    onFile x d = ((x d.dexFile).1, { d with dexFile := (x d.dexFile).2 }) := by
  unfold onFile
  rfl

/-- The call `readInt` when four bytes are left. -/
theorem readInt_ok (d : Data) (h : d.dexFile.pos + 4 ≤ d.dexFile.data.length) :
    readInt d = (.ok (signed 32
        (if d.isBigEndian then bigEndian ((d.dexFile.data.drop d.dexFile.pos).take 4)
         else littleEndian ((d.dexFile.data.drop d.dexFile.pos).take 4))),
      { d with dexFile := { d.dexFile with pos := d.dexFile.pos + 4,
                                           log := d.dexFile.log ++ [(d.dexFile.pos, 4)] } }) := by
  have e : readInt d = Run.bind (onFile (readFully 4)) (fun buf => Run.bind Run.get (fun d =>
      Run.pure (signed 32 (if d.isBigEndian then bigEndian buf else littleEndian buf)))) d := rfl
  rw [e, Run.bind_ok _ _ _ _ _ (by rw [onFile_eq, readFully_ok 4 d.dexFile h])]
  rfl

/-- The call `readInt` when fewer than four bytes are left. -/
theorem readInt_short (d : Data) (h : ¬ d.dexFile.pos + 4 ≤ d.dexFile.data.length) :
    readInt d = (.error (if d.dexFile.data.length ≤ d.dexFile.pos then .eof else .shortRead),
      { d with dexFile := { d.dexFile with
          pos := d.dexFile.pos + (d.dexFile.data.length - d.dexFile.pos),
          log := d.dexFile.log ++ [(d.dexFile.pos, d.dexFile.data.length - d.dexFile.pos)] } }) := by
  have e : readInt d = Run.bind (onFile (readFully 4)) (fun buf => Run.bind Run.get (fun d =>
      Run.pure (signed 32 (if d.isBigEndian then bigEndian buf else littleEndian buf)))) d := rfl
  rw [e, Run.bind_error _ _ _ _ _ (by rw [onFile_eq, readFully_short 4 d.dexFile (by omega) h])]

/-- The call `readShort` when two bytes are left. -/
theorem readShort_ok (d : Data) (h : d.dexFile.pos + 2 ≤ d.dexFile.data.length) :
    readShort d = (.ok (signed 16
        (if d.isBigEndian then bigEndian ((d.dexFile.data.drop d.dexFile.pos).take 2)
         else littleEndian ((d.dexFile.data.drop d.dexFile.pos).take 2))),
      { d with dexFile := { d.dexFile with pos := d.dexFile.pos + 2,
                                           log := d.dexFile.log ++ [(d.dexFile.pos, 2)] } }) := by
  have e : readShort d = Run.bind (onFile (readFully 2)) (fun buf => Run.bind Run.get (fun d =>
      Run.pure (signed 16 (if d.isBigEndian then bigEndian buf else littleEndian buf)))) d := rfl
  rw [e, Run.bind_ok _ _ _ _ _ (by rw [onFile_eq, readFully_ok 2 d.dexFile h])]
  rfl

/-- The call `readShort` when fewer than two bytes are left. -/
theorem readShort_short (d : Data) (h : ¬ d.dexFile.pos + 2 ≤ d.dexFile.data.length) :
    readShort d = (.error (if d.dexFile.data.length ≤ d.dexFile.pos then .eof else .shortRead),
      { d with dexFile := { d.dexFile with
          pos := d.dexFile.pos + (d.dexFile.data.length - d.dexFile.pos),
          log := d.dexFile.log ++ [(d.dexFile.pos, d.dexFile.data.length - d.dexFile.pos)] } }) := by
  have e : readShort d = Run.bind (onFile (readFully 2)) (fun buf => Run.bind Run.get (fun d =>
      Run.pure (signed 16 (if d.isBigEndian then bigEndian buf else littleEndian buf)))) d := rfl
  rw [e, Run.bind_error _ _ _ _ _ (by rw [onFile_eq, readFully_short 2 d.dexFile (by omega) h])]

/-! ## The reader: stepping through a function -/

theorem Holds.readInt_bind {β : Type} {D : List Byte} {b : Bool} {p : Nat} {h : headerItem}
    {f : Int → Run Data β} {Q : Outcome β → Data → Prop}
    (hE : ¬ p + 4 ≤ D.length → ∀ e s, Inv D b s → Q (.error e) s)
    (hk : p + 4 ≤ D.length → Holds (HeaderAt D b (p + 4) h) (f (intAt D b p)) Q) :
    Holds (HeaderAt D b p h) (Run.bind readInt f) Q := by
  rintro s ⟨hD, hb, hp, hh⟩
  by_cases hc : s.dexFile.pos + 4 ≤ s.dexFile.data.length
  · rw [Run.bind_ok _ _ _ _ _ (readInt_ok s hc)]
    have e : intAt D b p = signed 32
        (if s.isBigEndian then bigEndian ((s.dexFile.data.drop s.dexFile.pos).take 4)
         else littleEndian ((s.dexFile.data.drop s.dexFile.pos).take 4)) := by
      rw [hD, hb, hp]; rfl
    rw [← e]
    exact hk (by rw [← hD, ← hp]; exact hc) _ ⟨hD, hb, by simp only [hp], hh⟩
  · rw [Run.bind_error _ _ _ _ _ (readInt_short s hc)]
    exact hE (by rw [← hD, ← hp]; exact hc) _ _ ⟨hD, hb⟩

theorem Holds.readFully_bind {β : Type} {D : List Byte} {b : Bool} {p : Nat} {h : headerItem}
    (n : Nat) (hn : n ≠ 0)
    {f : List Byte → Run Data β} {Q : Outcome β → Data → Prop}
    (hE : ¬ p + n ≤ D.length → ∀ e s, Inv D b s → Q (.error e) s)
    (hk : p + n ≤ D.length → Holds (HeaderAt D b (p + n) h) (f ((D.drop p).take n)) Q) :
    Holds (HeaderAt D b p h) (Run.bind (onFile (readFully n)) f) Q := by
  rintro s ⟨hD, hb, hp, hh⟩
  by_cases hc : s.dexFile.pos + n ≤ s.dexFile.data.length
  · rw [Run.bind_ok _ _ _ _ _ (by rw [onFile_eq, readFully_ok n s.dexFile hc])]
    have e : (s.dexFile.data.drop s.dexFile.pos).take n = (D.drop p).take n := by rw [hD, hp]
    rw [e]
    exact hk (by rw [← hD, ← hp]; exact hc) _ ⟨hD, hb, by simp only [hp], hh⟩
  · rw [Run.bind_error _ _ _ _ _ (by rw [onFile_eq, readFully_short n s.dexFile hn hc])]
    exact hE (by rw [← hD, ← hp]; exact hc) _ _ ⟨hD, hb⟩

theorem Holds.seek_bind {β : Type} {D : List Byte} {b : Bool} {p : Nat} {h : headerItem}
    (off : Int) (q : Nat) (hoff : off = (q : Int))
    {f : Unit → Run Data β} {Q : Outcome β → Data → Prop}
    (hk : Holds (HeaderAt D b q h) (f ()) Q) :
    Holds (HeaderAt D b p h) (Run.bind (onFile (File.Seek off)) f) Q := by
  rintro s ⟨hD, hb, _, hh⟩
  have e : onFile (File.Seek off) s =
      (.ok (), { s with dexFile := { s.dexFile with pos := q } }) := by
    rw [onFile_eq]; unfold File.Seek
    rw [if_neg (by omega), hoff, Int.toNat_ofNat]
  rw [Run.bind_ok _ _ _ _ _ e]
  exact hk _ ⟨hD, hb, rfl, hh⟩

theorem Holds.setHeader_bind {β : Type} {D : List Byte} {b : Bool} {p : Nat} {h : headerItem}
    (g : headerItem → headerItem)
    {f : Unit → Run Data β} {Q : Outcome β → Data → Prop}
    (hk : ∀ h1, h1 = g h → Holds (HeaderAt D b p h1) (f ()) Q) :
    Holds (HeaderAt D b p h) (Run.bind (setHeader g) f) Q := by
  rintro s ⟨hD, hb, hp, hh⟩
  have e : setHeader g s = (.ok (), { s with headerItem := g s.headerItem }) := rfl
  rw [Run.bind_ok _ _ _ _ _ e]
  exact hk _ rfl _ ⟨hD, hb, hp, by simp only [hh]⟩

theorem Holds.update_bind {β : Type} {P : Data → Prop} (P1 : Data → Prop) (g : Data → Data)
    {f : Unit → Run Data β} {Q : Outcome β → Data → Prop}
    (hg : ∀ s, P s → P1 (g s)) (hk : Holds P1 (f ()) Q) :
    Holds P (Run.bind (Run.update g) f) Q := by
  intro s hs
  have e : Run.update g s = (.ok (), g s) := rfl
  rw [Run.bind_ok _ _ _ _ _ e]
  exact hk _ (hg s hs)

theorem Holds.pure_bind {α β : Type} {P : Data → Prop} (a : α)
    {f : α → Run Data β} {Q : Outcome β → Data → Prop}
    (hk : Holds P (f a) Q) :
    Holds P (Run.bind (Run.pure a) f) Q := by
  intro s hs
  have e : (Run.pure a : Run Data α) s = (.ok a, s) := rfl
  rw [Run.bind_ok _ _ _ _ _ e]
  exact hk _ hs

theorem Holds.ite {α : Type} {P : Data → Prop} (c : Prop) [Decidable c]
    {x y : Run Data α} {Q : Outcome α → Data → Prop}
    (hx : c → Holds P x Q) (hy : ¬ c → Holds P y Q) :
    Holds P (if c then x else y) Q := by
  by_cases h : c
  · rw [if_pos h]; exact hx h
  · rw [if_neg h]; exact hy h

theorem Holds.fail {α : Type} {P : Data → Prop} (e : Err) {Q : Outcome α → Data → Prop}
    (h : ∀ s, P s → Q (.error e) s) : Holds P (Run.fail e) Q := h

theorem Holds.pure {α : Type} {P : Data → Prop} (a : α) {Q : Outcome α → Data → Prop}
    (h : ∀ s, P s → Q (.ok a) s) : Holds P (Run.pure a) Q := h

/-! ## parseHeaderItem -/

/-- What `parseHeaderItem` does, from any state: it does not panic, and when it
returns without an error the file has the 112 bytes of the header, the offset
is 112 and the header fields are the integers at their offsets, the tag
decoded in the order in force at the call and the other fields in the order
in force at the end. -/
theorem parseHeaderItem_returns (D : List Byte) (b0 : Bool) (p : Nat) (h : headerItem) :
    Holds (HeaderAt D b0 p h) parseHeaderItem (fun o s => o ≠ .panic ∧ ∀ u, o = .ok u →
      112 ≤ D.length ∧ s.dexFile.pos = 112 ∧ s.headerItem = headerOf D b0 s.isBigEndian) := by
  have hE : ∀ (b : Bool) (e : Err) (s : Data), Inv D b s →
      (fun (o : Outcome Unit) (s : Data) => o ≠ .panic ∧ ∀ u, o = .ok u →
      112 ≤ D.length ∧ s.dexFile.pos = 112 ∧ s.headerItem = headerOf D b0 s.isBigEndian)
        (.error e) s := by
    intro b e s _
    exact ⟨by simp, by intro u hu; cases hu⟩
  unfold parseHeaderItem
  refine Holds.update_bind (HeaderAt D b0 p {}) _ (fun s hs => ⟨hs.1, hs.2.1, hs.2.2.1, rfl⟩) ?_
  refine Holds.seek_bind 0 0 rfl ?_
  refine Holds.readFully_bind 8 (by decide) (fun _ => hE b0) (fun h8 => ?_)
  refine Holds.ite _ (fun _ => Holds.fail _ (fun s hs => hE b0 _ s ⟨hs.1, hs.2.1⟩)) (fun hm => ?_)
  refine Holds.seek_bind _ 40 rfl ?_
  refine Holds.readInt_bind (fun _ => hE b0) (fun h44 => ?_)
  refine Holds.setHeader_bind _ (fun h1 e1 => ?_)
  refine Holds.ite _ (fun _ => Holds.fail _ (fun s hs => hE b0 _ s ⟨hs.1, hs.2.1⟩)) (fun ht => ?_)
  refine Holds.ite _ (fun hc => Holds.pure_bind _ ?_) (fun hc => Holds.update_bind
    (HeaderAt D true (40 + 4) h1) _ (fun s hs => ⟨hs.1, rfl, hs.2.2.1, hs.2.2.2⟩) ?_)
  all_goals
    refine Holds.seek_bind _ 32 rfl ?_
    refine Holds.readInt_bind (fun _ => hE _) (fun _ => ?_)
    refine Holds.setHeader_bind _ (fun h2 e2 => ?_)
    refine Holds.readInt_bind (fun _ => hE _) (fun _ => ?_)
    refine Holds.setHeader_bind _ (fun h3 e3 => ?_)
    refine Holds.readInt_bind (fun _ => hE _) (fun _ => ?_)
    refine Holds.readInt_bind (fun _ => hE _) (fun _ => ?_)
    refine Holds.readInt_bind (fun _ => hE _) (fun _ => ?_)
    refine Holds.readInt_bind (fun _ => hE _) (fun _ => ?_)
    refine Holds.readInt_bind (fun _ => hE _) (fun _ => ?_)
    refine Holds.setHeader_bind _ (fun h4 e4 => ?_)
    refine Holds.readInt_bind (fun _ => hE _) (fun _ => ?_)
    refine Holds.setHeader_bind _ (fun h5 e5 => ?_)
    refine Holds.readInt_bind (fun _ => hE _) (fun _ => ?_)
    refine Holds.setHeader_bind _ (fun h6 e6 => ?_)
    refine Holds.readInt_bind (fun _ => hE _) (fun _ => ?_)
    refine Holds.setHeader_bind _ (fun h7 e7 => ?_)
    refine Holds.readInt_bind (fun _ => hE _) (fun _ => ?_)
    refine Holds.setHeader_bind _ (fun h8 e8 => ?_)
    refine Holds.readInt_bind (fun _ => hE _) (fun _ => ?_)
    refine Holds.setHeader_bind _ (fun h9 e9 => ?_)
    refine Holds.readInt_bind (fun _ => hE _) (fun _ => ?_)
    refine Holds.setHeader_bind _ (fun h10 e10 => ?_)
    refine Holds.readInt_bind (fun _ => hE _) (fun _ => ?_)
    refine Holds.setHeader_bind _ (fun h11 e11 => ?_)
    refine Holds.readInt_bind (fun _ => hE _) (fun _ => ?_)
    refine Holds.setHeader_bind _ (fun h12 e12 => ?_)
    refine Holds.readInt_bind (fun _ => hE _) (fun _ => ?_)
    refine Holds.setHeader_bind _ (fun h13 e13 => ?_)
    refine Holds.readInt_bind (fun _ => hE _) (fun _ => ?_)
    refine Holds.setHeader_bind _ (fun h14 e14 => ?_)
    refine Holds.readInt_bind (fun _ => hE _) (fun _ => ?_)
    refine Holds.setHeader_bind _ (fun h15 e15 => ?_)
    refine Holds.readInt_bind (fun _ => hE _) (fun _ => ?_)
    refine Holds.readInt_bind (fun _ => hE _) (fun h112 => ?_)
    refine Holds.pure _ (fun s hs => ⟨by simp, fun _ _ => ⟨by omega, hs.2.2.1, ?_⟩⟩)
    rw [hs.2.2.2, hs.2.1]
    subst e1 e2 e3 e4 e5 e6 e7 e8 e9 e10 e11 e12 e13 e14 e15
    rfl

theorem verifyMagic_iff (m : List Byte) :
    verifyMagic m = true ↔
      m = [0x64, 0x65, 0x78, 0x0a, 0x30, 0x33, 0x35, 0x00] ∨
      m = [0x64, 0x65, 0x78, 0x0a, 0x30, 0x33, 0x36, 0x00] := by
  unfold verifyMagic
  simp only [Bool.or_eq_true, decide_eq_true_eq]
  exact Or.comm

theorem parseHeaderItem_wrongMagic (d : Data)
    (h : verifyMagic (d.dexFile.data.take 8) = false) :
    (∃ e, (parseHeaderItem d).1 = .error e) ∧
      (parseHeaderItem d).2.dexFile.log
        = d.dexFile.log ++ [(0, min 8 d.dexFile.data.length)] := by
  have e0 : Run.update (fun d : Data => { d with headerItem := {} }) d
      = (.ok (), { d with headerItem := {} }) := rfl
  have e1 : onFile (File.Seek 0) { d with headerItem := {} }
      = (.ok (), { d with headerItem := {}, dexFile := { d.dexFile with pos := 0 } }) := rfl
  by_cases hc : 8 ≤ d.dexFile.data.length
  · have e2 := readFully_ok 8 { d.dexFile with pos := 0 } (by simp only []; omega)
    have key : parseHeaderItem d = (.error .wrongMagic,
        { d with headerItem := {}, dexFile := { d.dexFile with pos := 0 + 8, log := d.dexFile.log ++ [(0, 8)] } }) := by
      unfold parseHeaderItem
      refine (Run.bind_ok _ _ _ _ _ e0).trans ?_
      refine (Run.bind_ok _ _ _ _ _ e1).trans ?_
      refine (Run.bind_ok _ _ _ _ _ (by rw [onFile_eq, e2])).trans ?_
      simp only [List.drop_zero]
      rw [if_pos h]
      rfl
    rw [key]
    exact ⟨⟨_, rfl⟩, by simp only [Nat.min_eq_left hc]⟩
  · have e2 := readFully_short 8 { d.dexFile with pos := 0 } (by decide) (by simp only []; omega)
    have key : parseHeaderItem d = (.error (if d.dexFile.data.length ≤ 0 then .eof else .shortRead),
        { d with headerItem := {}, dexFile := { d.dexFile with pos := 0 + (d.dexFile.data.length - 0), log := d.dexFile.log ++ [(0, d.dexFile.data.length - 0)] } }) := by
      unfold parseHeaderItem
      refine (Run.bind_ok _ _ _ _ _ e0).trans ?_
      refine (Run.bind_ok _ _ _ _ _ e1).trans ?_
      exact Run.bind_error _ _ _ _ _ (by rw [onFile_eq, e2])
    rw [key]
    exact ⟨⟨_, rfl⟩, by simp only [Nat.sub_zero, Nat.min_eq_right (Nat.le_of_not_le hc)]⟩

/-- What `parseHeaderItem` does to the byte order, for a file with a valid
magic number and the four bytes of the tag, when the order in force at the
call is little-endian. -/
theorem parseHeaderItem_order (D : List Byte) (p : Nat) (h : headerItem)
    (hm : verifyMagic (D.take 8) = true) (hl : 44 ≤ D.length) :
    Holds (HeaderAt D false p h) parseHeaderItem (fun o s =>
      (intAt D false 40 = endianConstant → s.isBigEndian = false) ∧
      (intAt D false 40 = reverseEndianConstant → s.isBigEndian = true) ∧
      (intAt D false 40 ≠ endianConstant → intAt D false 40 ≠ reverseEndianConstant →
        o = .error .unexpectedEndian)) := by
  have hne : endianConstant ≠ reverseEndianConstant := by decide
  have hfin : ∀ (b : Bool) (o : Outcome Unit) (s : Data), s.isBigEndian = b →
      (intAt D false 40 = endianConstant ∧ b = false) ∨
        (intAt D false 40 = reverseEndianConstant ∧ b = true) →
      (fun (o : Outcome Unit) (s : Data) =>
        (intAt D false 40 = endianConstant → s.isBigEndian = false) ∧
        (intAt D false 40 = reverseEndianConstant → s.isBigEndian = true) ∧
        (intAt D false 40 ≠ endianConstant → intAt D false 40 ≠ reverseEndianConstant →
          o = .error .unexpectedEndian)) o s := by
    intro b o s hs hcase
    rcases hcase with ⟨h1, h2⟩ | ⟨h1, h2⟩
    · exact ⟨fun _ => hs.trans h2, fun h3 => absurd (h1.symm.trans h3) hne,
        fun h3 _ => absurd h1 h3⟩
    · exact ⟨fun h3 => absurd (h3.symm.trans h1) hne, fun _ => hs.trans h2,
        fun _ h3 => absurd h1 h3⟩
  unfold parseHeaderItem
  refine Holds.update_bind (HeaderAt D false p {}) _ (fun s hs => ⟨hs.1, hs.2.1, hs.2.2.1, rfl⟩) ?_
  refine Holds.seek_bind 0 0 rfl ?_
  refine Holds.readFully_bind 8 (by decide) (fun h8 => absurd (by omega) h8) (fun h8 => ?_)
  refine Holds.ite _ (fun hc => absurd hc (by rw [List.drop_zero, hm]; decide)) (fun _ => ?_)
  refine Holds.seek_bind _ 40 rfl ?_
  refine Holds.readInt_bind (fun h44 => absurd (by omega) h44) (fun h44 => ?_)
  refine Holds.setHeader_bind _ (fun h1 _ => ?_)
  refine Holds.ite _ (fun hc => Holds.fail _ (fun s _ =>
    ⟨fun h3 => absurd h3 hc.1, fun h3 => absurd h3 hc.2, fun _ _ => rfl⟩)) (fun ht => ?_)
  refine Holds.ite _ (fun hc => Holds.pure_bind _ ?_) (fun hc => Holds.update_bind
    (HeaderAt D true (40 + 4) h1) _ (fun s hs => ⟨hs.1, rfl, hs.2.2.1, hs.2.2.2⟩) ?_)
  · have hcase : (intAt D false 40 = endianConstant ∧ false = false) ∨
        (intAt D false 40 = reverseEndianConstant ∧ false = true) := Or.inl ⟨hc, rfl⟩
    refine Holds.seek_bind _ 32 rfl ?_
    repeat (first
      | refine Holds.readInt_bind (fun _ _ s hs => hfin _ _ s hs.2 hcase) (fun _ => ?_)
      | refine Holds.setHeader_bind _ (fun _ _ => ?_))
    exact Holds.pure _ (fun s hs => hfin _ _ s hs.2.1 hcase)
  · have hcase : (intAt D false 40 = endianConstant ∧ true = false) ∨
        (intAt D false 40 = reverseEndianConstant ∧ true = true) :=
      Or.inr ⟨by
        by_cases h3 : intAt D false 40 = reverseEndianConstant
        · exact h3
        · exact absurd ⟨hc, h3⟩ ht, rfl⟩
    refine Holds.seek_bind _ 32 rfl ?_
    repeat (first
      | refine Holds.readInt_bind (fun _ _ s hs => hfin _ _ s hs.2 hcase) (fun _ => ?_)
      | refine Holds.setHeader_bind _ (fun _ _ => ?_))
    exact Holds.pure _ (fun s hs => hfin _ _ s hs.2.1 hcase)

/-- C16: `verifyMagic` is true exactly for the two magic numbers; and on every
file whose first eight bytes are neither of them (a file of fewer than eight
bytes included) `parseHeaderItem` returns an error after one single `Read`, at
offset 0, that delivers at most eight bytes. -/
theorem verifyMagic_spec (m : List Byte) (d : Data)
    (h : verifyMagic (d.dexFile.data.take 8) = false) :
    (verifyMagic m = true ↔
      m = [0x64, 0x65, 0x78, 0x0a, 0x30, 0x33, 0x35, 0x00] ∨
      m = [0x64, 0x65, 0x78, 0x0a, 0x30, 0x33, 0x36, 0x00]) ∧
    (∃ e, (parseHeaderItem d).1 = .error e) ∧
    (parseHeaderItem d).2.dexFile.log
      = d.dexFile.log ++ [(0, min 8 d.dexFile.data.length)] :=
  ⟨verifyMagic_iff m, parseHeaderItem_wrongMagic d h⟩

/-- A witness for C16: a file of ten bytes that starts with `dex\n037\0`. -/
theorem verifyMagic_spec_witness :
    (verifyMagic [0x64, 0x65, 0x78, 0x0a, 0x30, 0x33, 0x35, 0x00] = true ↔
      ([0x64, 0x65, 0x78, 0x0a, 0x30, 0x33, 0x35, 0x00] : List Byte)
        = [0x64, 0x65, 0x78, 0x0a, 0x30, 0x33, 0x35, 0x00] ∨
      ([0x64, 0x65, 0x78, 0x0a, 0x30, 0x33, 0x35, 0x00] : List Byte)
        = [0x64, 0x65, 0x78, 0x0a, 0x30, 0x33, 0x36, 0x00]) ∧
    (∃ e, (parseHeaderItem (Data.init
      { data := [0x64, 0x65, 0x78, 0x0a, 0x30, 0x33, 0x37, 0x00, 0x01, 0x02],
        pos := 0, log := [] })).1 = .error e) ∧
    (parseHeaderItem (Data.init
      { data := [0x64, 0x65, 0x78, 0x0a, 0x30, 0x33, 0x37, 0x00, 0x01, 0x02],
        pos := 0, log := [] })).2.dexFile.log = [(0, 8)] :=
  verifyMagic_spec [0x64, 0x65, 0x78, 0x0a, 0x30, 0x33, 0x35, 0x00]
    (Data.init { data := [0x64, 0x65, 0x78, 0x0a, 0x30, 0x33, 0x37, 0x00, 0x01, 0x02],
                 pos := 0, log := [] }) (by decide)

/-- C17: `readInt` returns an error whenever fewer than four bytes remain
after the read position, `readShort` whenever fewer than two remain, and
`parseHeaderItem` returns an error on every file shorter than 112 bytes (so on
those of them that have a valid magic number and endian tag). -/
theorem readInt_readShort_short (d : Data) :
    (d.dexFile.data.length - d.dexFile.pos < 4 → ∃ e, (readInt d).1 = .error e) ∧
    (d.dexFile.data.length - d.dexFile.pos < 2 → ∃ e, (readShort d).1 = .error e) ∧
    (d.dexFile.data.length < 112 → ∃ e, (parseHeaderItem d).1 = .error e) := by
  refine ⟨?_, ?_, ?_⟩
  · intro h
    rw [readInt_short d (by omega)]
    exact ⟨_, rfl⟩
  · intro h
    rw [readShort_short d (by omega)]
    exact ⟨_, rfl⟩
  · intro h
    have g := parseHeaderItem_returns d.dexFile.data d.isBigEndian d.dexFile.pos d.headerItem
      d ⟨rfl, rfl, rfl, rfl⟩
    cases e : (parseHeaderItem d).1 with
    | ok u =>
      have := (g.2 u e).1
      omega
    | error err => exact ⟨err, rfl⟩
    | panic => exact absurd e g.1

/-- A witness for C17: a file of one byte for `readInt` and `readShort`, and
the first hundred bytes of the example file for `parseHeaderItem`. -/
theorem readInt_readShort_short_witness :
    (∃ e, (readInt (Data.init { data := [0x01], pos := 0, log := [] })).1 = .error e) ∧
    (∃ e, (readShort (Data.init { data := [0x01], pos := 0, log := [] })).1 = .error e) ∧
    (∃ e, (parseHeaderItem
      (Data.init { data := exampleFile.data.take 100, pos := 0, log := [] })).1 = .error e) :=
  ⟨(readInt_readShort_short (Data.init { data := [0x01], pos := 0, log := [] })).1 (by decide),
   (readInt_readShort_short (Data.init { data := [0x01], pos := 0, log := [] })).2.1 (by decide),
   (readInt_readShort_short
      (Data.init { data := exampleFile.data.take 100, pos := 0, log := [] })).2.2 (by decide!)⟩

/-- C18: for a file with a valid magic number and the four bytes of the tag,
read in the state that `New` sets up (byte order little-endian), let `e` be the
bytes at offsets 40 to 43 as a little-endian 32-bit integer.  If `e` is
`0x12345678`, `parseHeaderItem` leaves the order little-endian; if `e` is
`0x78563412`, it leaves the order big-endian; for every other `e` it returns
the error of the endian constant.  When it returns without an error, the
header fields it read after the tag are the integers at their offsets in the
order it left.  Every `readInt` and `readShort` decodes in the order of the
state it is called in and leaves that order as it is. -/
theorem parseHeaderItem_endian (d : Data) (hb : d.isBigEndian = false)
    (hm : verifyMagic (d.dexFile.data.take 8) = true) (hl : 44 ≤ d.dexFile.data.length) :
    (signed 32 (littleEndian ((d.dexFile.data.drop 40).take 4)) = endianConstant →
      (parseHeaderItem d).2.isBigEndian = false) ∧
    (signed 32 (littleEndian ((d.dexFile.data.drop 40).take 4)) = reverseEndianConstant →
      (parseHeaderItem d).2.isBigEndian = true) ∧
    (signed 32 (littleEndian ((d.dexFile.data.drop 40).take 4)) ≠ endianConstant →
      signed 32 (littleEndian ((d.dexFile.data.drop 40).take 4)) ≠ reverseEndianConstant →
      (parseHeaderItem d).1 = .error .unexpectedEndian) ∧
    (∀ u, (parseHeaderItem d).1 = .ok u →
      (parseHeaderItem d).2.headerItem
        = headerOf d.dexFile.data false (parseHeaderItem d).2.isBigEndian) ∧
    (∀ s : Data, s.dexFile.pos + 4 ≤ s.dexFile.data.length →
      (readInt s).1 = .ok (signed 32
        (if s.isBigEndian then bigEndian ((s.dexFile.data.drop s.dexFile.pos).take 4)
         else littleEndian ((s.dexFile.data.drop s.dexFile.pos).take 4))) ∧
      (readInt s).2.isBigEndian = s.isBigEndian) ∧
    (∀ s : Data, s.dexFile.pos + 2 ≤ s.dexFile.data.length →
      (readShort s).1 = .ok (signed 16
        (if s.isBigEndian then bigEndian ((s.dexFile.data.drop s.dexFile.pos).take 2)
         else littleEndian ((s.dexFile.data.drop s.dexFile.pos).take 2))) ∧
      (readShort s).2.isBigEndian = s.isBigEndian) := by
  have g := parseHeaderItem_order d.dexFile.data d.dexFile.pos d.headerItem hm hl
    d ⟨rfl, hb, rfl, rfl⟩
  have e : intAt d.dexFile.data false 40
      = signed 32 (littleEndian ((d.dexFile.data.drop 40).take 4)) := rfl
  rw [e] at g
  have g2 := parseHeaderItem_returns d.dexFile.data false d.dexFile.pos d.headerItem
    d ⟨rfl, hb, rfl, rfl⟩
  refine ⟨g.1, g.2.1, g.2.2, fun u hu => (g2.2 u hu).2.2, ?_, ?_⟩
  · intro s hs
    rw [readInt_ok s hs]
    exact ⟨rfl, rfl⟩
  · intro s hs
    rw [readShort_ok s hs]
    exact ⟨rfl, rfl⟩

/-- A witness for C18: the example file, whose tag is `0x12345678`, and the
same file with the four bytes of the tag in the opposite order. -/
theorem parseHeaderItem_endian_witness :
    (parseHeaderItem (Data.init exampleFile)).2.isBigEndian = false ∧
    (parseHeaderItem (Data.init { exampleFile with
      data := exampleFile.data.take 40 ++ [0x12, 0x34, 0x56, 0x78]
        ++ exampleFile.data.drop 44 })).2.isBigEndian = true :=
  ⟨(parseHeaderItem_endian (Data.init exampleFile) rfl (by decide!) (by decide!)).1
      (by decide!),
   (parseHeaderItem_endian (Data.init { exampleFile with
      data := exampleFile.data.take 40 ++ [0x12, 0x34, 0x56, 0x78]
        ++ exampleFile.data.drop 44 }) rfl (by decide!) (by decide!)).2.1 (by decide!)⟩

/-! ## The external references -/

theorem mapOption_forall {α β : Type} (f : α → Option β) (P : β → Prop)
    (hf : ∀ x y, f x = some y → P y) :
    ∀ (l : List α) (r : List β), mapOption f l = some r → ∀ y ∈ r, P y := by
  intro l
  induction l with
  | nil =>
    intro r h y hy
    simp only [mapOption, Option.some.injEq] at h
    rw [← h] at hy
    cases hy
  | cons x xs ih =>
    intro r h y hy
    simp only [mapOption] at h
    cases e1 : f x with
    | none => simp [e1] at h
    | some y1 =>
      cases e2 : mapOption f xs with
      | none => simp [e1, e2] at h
      | some ys =>
        simp only [e1, e2, Option.some.injEq] at h
        rw [← h] at hy
        rcases List.mem_cons.1 hy with e | hm
        · rw [e]; exact hf x y1 e1
        · exact ih ys e2 y hm

/-- The function `addExternalFieldReferences` returns `sparseRefs` as it came. -/
theorem addExternalFieldReferences_same (d : Data) (sparseRefs : List ClassRef) :
    ∀ (l : List fieldIdItem) (r : List ClassRef),
      addExternalFieldReferences d sparseRefs l = some r → r = sparseRefs := by
  intro l
  induction l with
  | nil =>
    intro r h
    simp only [addExternalFieldReferences, Option.some.injEq] at h
    exact h.symm
  | cons x xs ih =>
    intro r h
    simp only [addExternalFieldReferences] at h
    split at h
    · cases h
    · split at h
      · exact ih r h
      · split at h
        · cases h
        · split at h
          · cases h
          · exact ih r h

/-- The function `addExternalMethodReferences` returns `sparseRefs` as it came. -/
theorem addExternalMethodReferences_same (d : Data) (sparseRefs : List ClassRef) :
    ∀ (l : List methodIdItem) (r : List ClassRef),
      addExternalMethodReferences d sparseRefs l = some r → r = sparseRefs := by
  intro l
  induction l with
  | nil =>
    intro r h
    simp only [addExternalMethodReferences, Option.some.injEq] at h
    exact h.symm
  | cons x xs ih =>
    intro r h
    simp only [addExternalMethodReferences] at h
    split at h
    · cases h
    · split at h
      · exact ih r h
      · split at h
        · cases h
        · split at h
          · cases h
          · exact ih r h

/-- The lists of references of every `ClassRef` that `GetExternalReferences`
returns are empty, whatever the tables hold. -/
theorem GetExternalReferences_no_refs (d : Data) (refs : List ClassRef)
    (h : GetExternalReferences d = some refs) :
    ∀ r ∈ refs, r.FieldRefs = [] ∧ r.MethodRefs = [] := by
  unfold GetExternalReferences at h
  cases e0 : GetExternalReferences.sparse d with
  | none => simp [e0] at h
  | some sparse0 =>
    have h0 : ∀ r ∈ sparse0, r.FieldRefs = [] ∧ r.MethodRefs = [] := by
      refine mapOption_forall _ (fun r => r.FieldRefs = [] ∧ r.MethodRefs = []) ?_ d.typeIds
        sparse0 e0
      intro t y hy
      by_cases hi : t.internal = true
      · simp only [hi, if_true, Option.some.injEq] at hy
        rw [← hy]; exact ⟨rfl, rfl⟩
      · have hi2 : t.internal = false := by simpa using hi
        cases e : index d.strings t.descriptorIdx with
        | none => simp [hi2, e] at hy
        | some name =>
          simp only [hi2, e, Bool.false_eq_true, if_false, Option.some.injEq] at hy
          rw [← hy]; exact ⟨rfl, rfl⟩
    simp only [e0] at h
    cases e1 : addExternalFieldReferences d sparse0 d.fieldIds with
    | none => simp [e1] at h
    | some sparse1 =>
      have g1 := addExternalFieldReferences_same d sparse0 _ _ e1
      simp only [e1] at h
      cases e2 : addExternalMethodReferences d sparse1 d.methodIds with
      | none => simp [e2] at h
      | some sparse2 =>
        have g2 := addExternalMethodReferences_same d sparse1 _ _ e2
        simp only [e2, Option.some.injEq] at h
        intro r hr
        rw [← h] at hr
        rcases List.mem_append.1 hr with hr | hr
        · have := (List.mem_filter.1 hr).1
          rw [g2, g1] at this
          exact h0 r this
        · rw [(List.mem_replicate.1 hr).2]; exact ⟨rfl, rfl⟩

theorem flatMap_nil_of_forall {α β : Type} (f : α → List β) :
    ∀ l : List α, (∀ x ∈ l, f x = []) → l.flatMap f = [] := by
  intro l
  induction l with
  | nil => intro _; rfl
  | cons x xs ih =>
    intro h
    rw [List.flatMap_cons, h x (List.mem_cons_self x xs),
      ih (fun y hy => h y (List.mem_cons_of_mem x hy))]
    rfl

/-- With the filter `ReferencedOnly`, `getMethodRefs` and `getFieldRefs` return
the empty list whenever they return, and with `DefinedOnly` the full list of
references, whatever the tables hold. -/
theorem getRefs_external_empty (d : Data) :
    (∀ l, getMethodRefs d ⟨filterReferencedOnly⟩ = some l → l = []) ∧
    (∀ l, getFieldRefs d ⟨filterReferencedOnly⟩ = some l → l = []) ∧
    (∀ l, getMethodRefs d ⟨filterDefinedOnly⟩ = some l → GetMethodRefs d = some l) ∧
    (∀ l, getFieldRefs d ⟨filterDefinedOnly⟩ = some l → GetFieldRefs d = some l) := by
  have hD : ¬ filterDefinedOnly = filterAll := by decide
  have hR : ¬ filterReferencedOnly = filterAll := by decide
  have key : ∀ ext, GetExternalReferences d = some ext →
      ext.flatMap (fun classRef => classRef.MethodRefs) = [] ∧
      ext.flatMap (fun classRef => classRef.FieldRefs) = [] := by
    intro ext he
    have g := GetExternalReferences_no_refs d ext he
    exact ⟨flatMap_nil_of_forall _ ext (fun r hr => (g r hr).2),
      flatMap_nil_of_forall _ ext (fun r hr => (g r hr).1)⟩
  refine ⟨?_, ?_, ?_, ?_⟩
  · intro l h
    cases e1 : GetMethodRefs d with
    | none => simp [getMethodRefs, e1] at h
    | some refs =>
      cases e2 : GetExternalReferences d with
      | none => simp [getMethodRefs, e1, e2, hR] at h
      | some ext =>
        rw [(getMethodRefs_filtered d refs ext e1 e2).2.2, (key ext e2).1] at h
        simp at h
        exact h
  · intro l h
    cases e1 : GetFieldRefs d with
    | none => simp [getFieldRefs, e1] at h
    | some refs =>
      cases e2 : GetExternalReferences d with
      | none => simp [getFieldRefs, e1, e2, hR] at h
      | some ext =>
        rw [(getFieldRefs_filtered d refs ext e1 e2).2.2, (key ext e2).2] at h
        simp at h
        exact h
  · intro l h
    cases e1 : GetMethodRefs d with
    | none => simp [getMethodRefs, e1] at h
    | some refs =>
      cases e2 : GetExternalReferences d with
      | none => simp [getMethodRefs, e1, e2, hD] at h
      | some ext =>
        rw [(getMethodRefs_filtered d refs ext e1 e2).2.1, (key ext e2).1] at h
        simp at h
        rw [h]
  · intro l h
    cases e1 : GetFieldRefs d with
    | none => simp [getFieldRefs, e1] at h
    | some refs =>
      cases e2 : GetExternalReferences d with
      | none => simp [getFieldRefs, e1, e2, hD] at h
      | some ext =>
        rw [(getFieldRefs_filtered d refs ext e1 e2).2.1, (key ext e2).2] at h
        simp at h
        rw [h]

/-- C11: on the tables that `load` leaves for the example file, the method
`run` and the field `x` of `b.Bar` have a declaring class that is external
(type 2, not internal), and yet `getMethodRefs` and `getFieldRefs` return no
reference for `ReferencedOnly` and every reference for `DefinedOnly`; for
`All` they return the full list. -/
theorem getRefs_filters_example :
    (load (Data.init exampleFile)).1 = .ok () ∧
    exampleLoaded.typeIds = [⟨0, false⟩, ⟨1, true⟩, ⟨2, false⟩, ⟨3, false⟩] ∧
    exampleLoaded.methodIds = [⟨1, 0, 4⟩, ⟨2, 1, 4⟩] ∧
    exampleLoaded.fieldIds = [⟨1, 0, 5⟩, ⟨2, 0, 5⟩] ∧
    getMethodRefs exampleLoaded ⟨filterAll⟩
      = some [⟨ascii "La/Foo;", [], ascii "V", ascii "run"⟩,
              ⟨ascii "Lb/Bar;", [], ascii "V", ascii "run"⟩] ∧
    getMethodRefs exampleLoaded ⟨filterReferencedOnly⟩ = some [] ∧
    getMethodRefs exampleLoaded ⟨filterDefinedOnly⟩
      = some [⟨ascii "La/Foo;", [], ascii "V", ascii "run"⟩,
              ⟨ascii "Lb/Bar;", [], ascii "V", ascii "run"⟩] ∧
    getFieldRefs exampleLoaded ⟨filterAll⟩
      = some [⟨ascii "La/Foo;", ascii "I", ascii "x"⟩,
              ⟨ascii "Lb/Bar;", ascii "I", ascii "x"⟩] ∧
    getFieldRefs exampleLoaded ⟨filterReferencedOnly⟩ = some [] ∧
    getFieldRefs exampleLoaded ⟨filterDefinedOnly⟩
      = some [⟨ascii "La/Foo;", ascii "I", ascii "x"⟩,
              ⟨ascii "Lb/Bar;", ascii "I", ascii "x"⟩] := by
  decide!

/-- C12: on the tables that `load` leaves for the example file,
`GetExternalReferences` returns one `ClassRef` for each of the three types
that are not internal, in the order of the type indices, and the lists of
references of all of them are empty, the one of `b.Bar` (type 2) too, which is
the declaring class of the second field and of the second method. -/
theorem GetExternalReferences_example :
    (load (Data.init exampleFile)).1 = .ok () ∧
    exampleLoaded.typeIds = [⟨0, false⟩, ⟨1, true⟩, ⟨2, false⟩, ⟨3, false⟩] ∧
    exampleLoaded.methodIds = [⟨1, 0, 4⟩, ⟨2, 1, 4⟩] ∧
    exampleLoaded.fieldIds = [⟨1, 0, 5⟩, ⟨2, 0, 5⟩] ∧
    resolveFieldRef exampleLoaded ⟨2, 0, 5⟩ = some ⟨ascii "Lb/Bar;", ascii "I", ascii "x"⟩ ∧
    resolveMethodRef exampleLoaded ⟨2, 1, 4⟩
      = some ⟨ascii "Lb/Bar;", [], ascii "V", ascii "run"⟩ ∧
    GetExternalReferences exampleLoaded
      = some [⟨ascii "I", [], []⟩, ⟨ascii "Lb/Bar;", [], []⟩, ⟨ascii "V", [], []⟩] := by
  decide!

/-! ## The tables after load -/

/-- The body of the second loop of `markInternalClasses` leaves the state as
it found it: no flag of `d.typeIds` is set there. -/
theorem markInternalClasses_builtin_same (typeId : typeIdItem) (d : Data) :
    (markInternalClasses.builtin typeId d).2 = d := by
  have e : markInternalClasses.builtin typeId d = Run.bind Run.get (fun d =>
      match index d.strings typeId.descriptorIdx with
      | none => Run.crash
      | some className =>
        if className.length = 1 then Run.pure ()
        else
          match byteAt className 0 with
          | none => Run.crash
          | some b => if b = ch '[' then Run.pure () else Run.pure ()) d := rfl
  rw [e, Run.bind_ok Run.get _ d d d rfl]
  cases index d.strings typeId.descriptorIdx with
  | none => rfl
  | some className =>
    by_cases h1 : className.length = 1
    · simp only [h1, if_true]; rfl
    · simp only [h1, if_false]
      cases byteAt className 0 with
      | none => rfl
      | some b =>
        by_cases h2 : b = ch '['
        · simp only [h2, if_true]; rfl
        · simp only [h2, if_false]; rfl

/-- The second loop of `markInternalClasses` leaves the state as it found it. -/
theorem markInternalClasses_second_loop_same :
    ∀ (l : List typeIdItem) (d : Data), (forEach markInternalClasses.builtin l d).2 = d := by
  intro l
  induction l with
  | nil => intro d; rfl
  | cons x xs ih =>
    intro d
    have g := markInternalClasses_builtin_same x d
    show (Run.bind (markInternalClasses.builtin x) (fun _ => forEach markInternalClasses.builtin xs) d).2 = d
    unfold Run.bind
    rcases h : markInternalClasses.builtin x d with ⟨o, s1⟩
    rw [h] at g
    cases o with
    | ok a => simp only []; rw [ih s1]; exact g
    | error e => exact g
    | panic => exact g

theorem Run.bind_keeps {α β : Type} (x : Run Data α) (f : α → Run Data β)
    (hx : ∀ d, (x d).2.protoIds = d.protoIds) (hf : ∀ a d, (f a d).2.protoIds = d.protoIds) :
    ∀ d, (Run.bind x f d).2.protoIds = d.protoIds := by
  intro d
  have g := hx d
  unfold Run.bind
  rcases h : x d with ⟨o, s1⟩
  rw [h] at g
  cases o with
  | ok a => simp only []; rw [hf a s1]; exact g
  | error e => exact g
  | panic => exact g

theorem onFile_keeps {α : Type} (x : Run File α) :
    ∀ d, (onFile x d).2.protoIds = d.protoIds := by
  intro d; rw [onFile_eq]

theorem readInt_keeps : ∀ d, (readInt d).2.protoIds = d.protoIds := by
  intro d
  by_cases hc : d.dexFile.pos + 4 ≤ d.dexFile.data.length
  · rw [readInt_ok d hc]
  · rw [readInt_short d hc]

theorem readShort_keeps : ∀ d, (readShort d).2.protoIds = d.protoIds := by
  intro d
  by_cases hc : d.dexFile.pos + 2 ≤ d.dexFile.data.length
  · rw [readShort_ok d hc]
  · rw [readShort_short d hc]

theorem readShorts_keeps : ∀ n d, (readShorts n d).2.protoIds = d.protoIds := by
  intro n
  induction n with
  | zero => intro d; rfl
  | succ n ih =>
    exact Run.bind_keeps readShort _ readShort_keeps (fun v =>
      Run.bind_keeps (readShorts n) _ ih (fun rest d => rfl))

/-- The body of the second loop of `loadProtoIds` leaves `d.protoIds` as it
found it: the type list it reads is not stored there. -/
theorem loadProtoIds_typeList_keeps (protoId : protoIdItem) :
    ∀ d, ((loadProtoIds.typeList protoId) d).2.protoIds = d.protoIds := by
  unfold loadProtoIds.typeList
  by_cases h : protoId.parametersOff = 0
  · simp only [h, if_true]
    intro d; rfl
  · simp only [h, if_false]
    refine Run.bind_keeps _ _ (onFile_keeps _) (fun _ => ?_)
    refine Run.bind_keeps _ _ readInt_keeps (fun size => ?_)
    refine Run.bind_keeps _ _ ?_ (fun n => ?_)
    · intro d
      unfold makeSlice
      by_cases hs : size < 0
      · rw [if_pos hs]; rfl
      · rw [if_neg hs]; rfl
    · exact Run.bind_keeps _ _ (readShorts_keeps n) (fun types d => rfl)

/-- C19: `load` returns without an error on the example file, whose only
class definition declares type 1; the types 0 and 3 have the one-character
descriptors `I` and `V`, and their `internal` flag is false after `load`. -/
theorem markInternalClasses_example :
    (load (Data.init exampleFile)).1 = .ok () ∧
    exampleLoaded.strings = [ascii "I", ascii "La/Foo;", ascii "Lb/Bar;", ascii "V",
      ascii "run", ascii "x", ascii "VI"] ∧
    exampleLoaded.classDefs = [⟨1⟩] ∧
    exampleLoaded.typeIds = [⟨0, false⟩, ⟨1, true⟩, ⟨2, false⟩, ⟨3, false⟩] := by
  decide!

/-- C20: after `parseHeaderItem`, `loadStrings`, `loadTypeIds` and
`loadProtoIds` have returned without an error on the example file, the second
prototype has the parameter-list offset 244, where the file holds a list of
size 1 with the type index 0 (descriptor `I`), and `argArrayFromProtoIndex`
returns the empty list for it. -/
theorem argArrayFromProtoIndex_example :
    (Run.bind parseHeaderItem (fun _ => Run.bind loadStrings (fun _ =>
      Run.bind loadTypeIds (fun _ => loadProtoIds))) (Data.init exampleFile)).1 = .ok () ∧
    (Run.bind parseHeaderItem (fun _ => Run.bind loadStrings (fun _ =>
      Run.bind loadTypeIds (fun _ => loadProtoIds))) (Data.init exampleFile)).2.protoIds
      = [⟨3, 3, 0, []⟩, ⟨6, 3, 244, []⟩] ∧
    (exampleFile.data.drop 244).take 6 = [1, 0, 0, 0, 0, 0] ∧
    classNameFromTypeIndex (Run.bind parseHeaderItem (fun _ => Run.bind loadStrings (fun _ =>
      Run.bind loadTypeIds (fun _ => loadProtoIds))) (Data.init exampleFile)).2 0
      = some (ascii "I") ∧
    argArrayFromProtoIndex (Run.bind parseHeaderItem (fun _ => Run.bind loadStrings (fun _ =>
      Run.bind loadTypeIds (fun _ => loadProtoIds))) (Data.init exampleFile)).2 1
      = some [] := by
  decide!

/-! ## The structure of a tree after an insertion -/

theorem everyNode_iff (P : node → Prop) (t : node) :
    everyNode P t ↔ P t ∧ ∀ k c, t.child k = some c → everyNode P c := by
  constructor
  · intro h
    refine ⟨h [] t rfl, ?_⟩
    intro k c hc path n hn
    refine h (k :: path) n ?_
    rw [nodeAt_cons, hc]
    exact hn
  · rintro ⟨h0, h1⟩ path n hn
    cases path with
    | nil =>
      simp only [nodeAt, Option.some.injEq] at hn
      rw [← hn]; exact h0
    | cons k path =>
      rw [nodeAt_cons] at hn
      cases hc : t.child k with
      | none => rw [hc] at hn; cases hn
      | some c =>
        rw [hc] at hn
        exact h1 k c hc path n hn

theorem everyNode_newNode (P : node → Prop) (h : P newNode) : everyNode P newNode := by
  rw [everyNode_iff]
  refine ⟨h, ?_⟩
  intro k c hc
  simp [node.child, newNode, node.children, mapGet] at hc

theorem mapSet_mapSet {β : Type} (m : List (Str × β)) (k : Str) (v w : β) :
    mapSet (mapSet m k v) k w = mapSet m k w := by
  induction m with
  | nil => simp [mapSet]
  | cons e rest ih =>
    obtain ⟨a, x⟩ := e
    by_cases h : a = k
    · simp [mapSet, h]
    · simp [mapSet, h, ih]

theorem mapGet_mapSet_self {β : Type} (m : List (Str × β)) (k : Str) (v : β) :
    mapGet (mapSet m k v) k = some v := by
  rw [mapGet_mapSet, if_pos rfl]

/-- The names a node has after a child was stored under `name`. -/
theorem namesAfter_def (t : node) (name : Str) :
    (match mapGet t.children name with
      | some _ => t.names
      | none => t.names ++ [name])
      = if name ∈ keys t.children then t.names else t.names ++ [name] := by
  by_cases h : name ∈ keys t.children
  · obtain ⟨v, hv⟩ := (mem_keys_iff _ _).1 h
    rw [hv, if_pos h]
  · rw [(not_mem_keys_iff _ _).1 h, if_neg h]

/-- Insertions of paths that begin with the same piece: they all go to the
child under the name of the piece, which the first of them creates when the
node has none. -/
theorem foldl_incrementCount_cons (piece : Str) :
    ∀ (L : List (List Str)) (x : List Str) (t : node),
      ((x :: L).map (fun q => piece :: q)).foldl incrementCount t
        = .mk t.count
            (if childName piece ∈ keys t.children then t.names
              else t.names ++ [childName piece])
            (mapSet t.children (childName piece)
              ((x :: L).foldl incrementCount
                ((mapGet t.children (childName piece)).getD newNode))) := by
  intro L
  induction L with
  | nil =>
    intro x t
    simp only [List.map_cons, List.map_nil, List.foldl_cons, List.foldl_nil]
    rw [incrementCount_cons, ← namesAfter_def]
    cases mapGet t.children (childName piece) <;> rfl
  | cons y L ih =>
    intro x t
    have e : ((x :: y :: L).map (fun q => piece :: q)).foldl incrementCount t
        = ((y :: L).map (fun q => piece :: q)).foldl incrementCount
            (incrementCount t (piece :: x)) := rfl
    rw [e, ih y (incrementCount t (piece :: x)), incrementCount_cons, ← namesAfter_def]
    cases hc : mapGet t.children (childName piece) with
    | some child =>
      simp only [node.count_mk, node.names_mk, node.children_mk, mapGet_mapSet_self,
        mapSet_mapSet, Option.getD_some, List.foldl_cons]
      rw [if_pos ((mem_keys_iff _ _).2 ⟨child, hc⟩)]
    | none =>
      simp only [node.count_mk, node.names_mk, node.children_mk, mapGet_mapSet_self,
        mapSet_mapSet, Option.getD_some, Option.getD_none, List.foldl_cons]
      rw [if_neg ((not_mem_keys_iff _ _).2 hc)]

theorem stringsSequence_nil (maxDepth : Nat) :
    stringsSequence [] (maxDepth + 1) = [[]] := by
  rw [stringsSequence_eq]
  simp

theorem stringsSequence_one (strs : List Str) : stringsSequence strs 1 = [[]] := by
  rw [stringsSequence_eq]
  have e : min (strs.length + 1) 1 = 1 := by omega
  rw [e]
  rfl

theorem stringsSequence_cons (piece : Str) (rest : List Str) (maxDepth : Nat) :
    stringsSequence (piece :: rest) (maxDepth + 1)
      = [] :: (stringsSequence rest maxDepth).map (fun q => piece :: q) := by
  rw [stringsSequence_eq, stringsSequence_eq]
  have e : min ((piece :: rest).length + 1) (maxDepth + 1)
      = min (rest.length + 1) maxDepth + 1 := by
    simp only [List.length_cons]; omega
  rw [e, List.range_succ_eq_map, List.map_cons, List.map_map, List.map_map]
  rfl

/-- With `maxDepth = 1`, and for a path without pieces, an insertion
increments the count of the node and nothing else. -/
theorem nodeForNamePieces_one (t : node) (s : List Str) :
    nodeForNamePieces t s 1 = t.increment := by
  unfold nodeForNamePieces
  rw [stringsSequence_one]
  rfl

theorem nodeForNamePieces_nil (t : node) (maxDepth : Nat) :
    nodeForNamePieces t [] (maxDepth + 1) = t.increment := by
  unfold nodeForNamePieces
  rw [stringsSequence_nil]
  rfl

/-- With `maxDepth >= 2`, an insertion of a path with a first piece increments
the count of the node and inserts the other pieces, with `maxDepth - 1`, into
the child under the name of the first piece, a new one when the node has
none. -/
theorem nodeForNamePieces_cons (t : node) (piece : Str) (rest : List Str) (maxDepth : Nat) :
    nodeForNamePieces t (piece :: rest) (maxDepth + 2)
      = .mk (t.count + 1)
          (if childName piece ∈ keys t.children then t.names
            else t.names ++ [childName piece])
          (mapSet t.children (childName piece)
            (nodeForNamePieces ((mapGet t.children (childName piece)).getD newNode)
              rest (maxDepth + 1))) := by
  have e1 : stringsSequence rest (maxDepth + 1)
      = [] :: (stringsSequence rest (maxDepth + 1)).tail := by
    cases rest with
    | nil => rw [stringsSequence_nil]; rfl
    | cons p r => rw [stringsSequence_cons]; rfl
  unfold nodeForNamePieces
  rw [stringsSequence_cons, List.foldl_cons, e1, foldl_incrementCount_cons]
  rfl

/-! ## The empty piece, the count of `main` -/

/-- After the loop of `main` the variable `overallCount` holds the count of the
counter of the last input, whatever the inputs before it. -/
theorem main_loop_last (countFields includeClasses : Bool) (packageFilter : Str)
    (maxDepth : Nat) (f : filter) (out : output) (last : List Data) (counter : dexCounter)
    (hl : main.counter countFields includeClasses packageFilter maxDepth f out last
      = some counter) :
    ∀ (inputs : List (List Data)) (acc : Int) (r : Int),
      main.loop countFields includeClasses packageFilter maxDepth f out acc (inputs ++ [last])
        = some r → r = counter.countState.overallCount := by
  intro inputs
  induction inputs with
  | nil =>
    intro acc r h
    simp only [List.nil_append, main.loop, hl, Option.some.injEq] at h
    exact h.symm
  | cons x xs ih =>
    intro acc r h
    simp only [List.cons_append, main.loop] at h
    cases e : main.counter countFields includeClasses packageFilter maxDepth f out x with
    | none => simp [e] at h
    | some c =>
      simp only [e] at h
      exact ih _ r h

/-- C26: with two inputs that are the example tables each, the counter of each
input has the count 4, and the count `main` reports after the loop is 4. -/
theorem main_overallCount_example :
    (main.counter false false [] 4294967295 ⟨filterAll⟩ ⟨outputTree⟩ [exampleData]).map
      (fun c => c.countState.overallCount) = some 4 ∧
    main.overallCount false false [] 4294967295 ⟨filterAll⟩ ⟨outputTree⟩
      [[exampleData], [exampleData]] = some 4 := by
  decide!

/-- C25, as the code has it: an insertion with `maxDepth >= 2` of a path whose
first piece is the empty string stores the child of the root under the key
`<default>`; that name is appended to the names of the root when the root had
no such child; the child under the empty string and the occurrence of the
empty string among the names are as they were before. -/
theorem nodeForNamePieces_default_key (t : node) (rest : List Str) (maxDepth : Nat)
    (hd : 2 ≤ maxDepth) :
    (∃ c, (nodeForNamePieces t ([] :: rest) maxDepth).child (ascii "<default>") = some c) ∧
    (nodeForNamePieces t ([] :: rest) maxDepth).names
      = (if ascii "<default>" ∈ keys t.children then t.names
         else t.names ++ [ascii "<default>"]) ∧
    (nodeForNamePieces t ([] :: rest) maxDepth).child [] = t.child [] ∧
    (([] : Str) ∈ (nodeForNamePieces t ([] :: rest) maxDepth).names ↔ ([] : Str) ∈ t.names) := by
  obtain ⟨d, rfl⟩ : ∃ d, maxDepth = d + 2 := ⟨maxDepth - 2, by omega⟩
  have hc : childName [] = ascii "<default>" := rfl
  have hne : ¬ ascii "<default>" = ([] : Str) := by decide
  rw [nodeForNamePieces_cons, hc]
  refine ⟨⟨_, mapGet_mapSet_self _ _ _⟩, rfl, ?_, ?_⟩
  · simp only [node.child, node.children_mk, mapGet_mapSet, if_neg hne]
  · simp only [node.names_mk]
    split
    · exact Iff.rfl
    · simp only [List.mem_append, List.mem_singleton]
      constructor
      · rintro (h | h)
        · exact h
        · exact absurd h.symm hne
      · exact Or.inl

/-- A witness for C25: the path of the empty piece and `a`, inserted into the
empty tree. -/
theorem nodeForNamePieces_default_key_witness :
    (∃ c, (nodeForNamePieces newNode [[], ascii "a"] 2).child (ascii "<default>") = some c) ∧
    (nodeForNamePieces newNode [[], ascii "a"] 2).names
      = (if ascii "<default>" ∈ keys newNode.children then newNode.names
         else newNode.names ++ [ascii "<default>"]) ∧
    (nodeForNamePieces newNode [[], ascii "a"] 2).child [] = newNode.child [] ∧
    (([] : Str) ∈ (nodeForNamePieces newNode [[], ascii "a"] 2).names
      ↔ ([] : Str) ∈ newNode.names) :=
  nodeForNamePieces_default_key newNode [ascii "a"] 2 (by decide)

/-- C25 fails as stated: after the path of the empty piece and `a` was
inserted into the empty tree with `maxDepth = 2`, the only name and the only
key of the root is `<default>`, and the root has no child under the empty
string. -/
theorem nodeForNamePieces_empty_piece :
    nodeForNamePieces newNode [[], ascii "a"] 2
      = .mk 1 [ascii "<default>"] [(ascii "<default>", .mk 1 [] [])] ∧
    (nodeForNamePieces newNode [[], ascii "a"] 2).child [] = none ∧
    ([] : Str) ∉ (nodeForNamePieces newNode [[], ascii "a"] 2).names := by
  decide

/-! ## Names and keys -/

theorem increment_names (t : node) : t.increment.names = t.names := by
  cases t; rfl

theorem increment_children (t : node) : t.increment.children = t.children := by
  cases t; rfl

theorem increment_count (t : node) : t.increment.count = t.count + 1 := by
  cases t; rfl

/-- A property of nodes that does not depend on the count holds at every node
of `t.increment` when it does at every node of `t`. -/
theorem everyNode_increment (P : node → Prop)
    (hP : ∀ c c2 ns ch, P (.mk c ns ch) → P (.mk c2 ns ch)) (t : node)
    (h : everyNode P t) : everyNode P t.increment := by
  rw [everyNode_iff] at h ⊢
  cases t with
  | mk c ns ch => exact ⟨hP _ _ _ _ h.1, h.2⟩

/-- The children of a node after the child under `name` was replaced. -/
theorem everyNode_mapSet (P : node → Prop) (c : Int) (ns : List Str) (ch : List (Str × node))
    (name : Str) (v : node) (h0 : P (.mk c ns (mapSet ch name v)))
    (hv : everyNode P v) (hch : ∀ k x, mapGet ch k = some x → everyNode P x) :
    everyNode P (.mk c ns (mapSet ch name v)) := by
  rw [everyNode_iff]
  refine ⟨h0, ?_⟩
  intro k x hx
  simp only [node.child, node.children_mk, mapGet_mapSet] at hx
  by_cases hk : name = k
  · rw [if_pos hk] at hx
    simp only [Option.some.injEq] at hx
    rw [← hx]; exact hv
  · rw [if_neg hk] at hx
    exact hch k x hx

theorem namesAreKeys_count (c c2 : Int) (ns : List Str) (ch : List (Str × node))
    (h : namesAreKeys (.mk c ns ch)) : namesAreKeys (.mk c2 ns ch) := h

theorem namesAreKeys_newNode : namesAreKeys newNode := by
  refine ⟨?_, ?_, ?_⟩
  · simp [keysNodup, keys, newNode, node.children]
  · simp [newNode, node.names]
  · intro k; simp [keys, newNode, node.children, node.names]

/-- A node whose names are the keys, after a child was stored under `name`:
under a key it has, or under a new key that is appended to the names. -/
theorem namesAreKeys_store (t : node) (name : Str) (v : node) (c : Int)
    (h : namesAreKeys t) :
    namesAreKeys (.mk c
      (if name ∈ keys t.children then t.names else t.names ++ [name])
      (mapSet t.children name v)) := by
  obtain ⟨h1, h2, h3⟩ := h
  refine ⟨keysNodup_mapSet _ _ _ h1, ?_, ?_⟩
  · simp only [node.names_mk]
    split
    · exact h2
    · rename_i hk
      rw [List.nodup_append]
      refine ⟨h2, List.nodup_singleton name, ?_⟩
      intro x hx hx2
      simp only [List.mem_singleton] at hx2
      subst hx2
      exact hk ((h3 x).1 hx)
  · intro k
    simp only [node.names_mk, node.children_mk, keys_mapSet]
    split
    · exact h3 k
    · simp only [List.mem_append, List.mem_singleton, h3 k]

theorem incrementCount_cons_store (n : node) (piece : Str) (rest : List Str) :
    incrementCount n (piece :: rest) =
      .mk n.count
        (if childName piece ∈ keys n.children then n.names else n.names ++ [childName piece])
        (mapSet n.children (childName piece)
          (incrementCount ((mapGet n.children (childName piece)).getD newNode) rest)) := by
  rw [incrementCount_cons, ← namesAfter_def]
  cases mapGet n.children (childName piece) <;> rfl

theorem everyNode_getD (P : node → Prop) (t : node) (name : Str) (h : everyNode P t)
    (h0 : P newNode) : everyNode P ((mapGet t.children name).getD newNode) := by
  cases hc : mapGet t.children name with
  | none => exact everyNode_newNode P h0
  | some c => exact ((everyNode_iff P t).1 h).2 name c hc

theorem namesAreKeys_incrementCount (pieces : List Str) :
    ∀ t, everyNode namesAreKeys t → everyNode namesAreKeys (incrementCount t pieces) := by
  induction pieces with
  | nil =>
    intro t h
    exact everyNode_increment _ namesAreKeys_count t h
  | cons piece rest ih =>
    intro t h
    rw [incrementCount_cons_store]
    have ht := (everyNode_iff _ t).1 h
    exact everyNode_mapSet _ _ _ _ _ _ (namesAreKeys_store t _ _ _ ht.1)
      (ih _ (everyNode_getD _ t _ h namesAreKeys_newNode)) (fun k x hx => ht.2 k x hx)

theorem namesAreKeys_foldl (L : List (List Str)) :
    ∀ t, everyNode namesAreKeys t → everyNode namesAreKeys (L.foldl incrementCount t) := by
  induction L with
  | nil => intro t h; exact h
  | cons q L ih =>
    intro t h
    exact ih _ (namesAreKeys_incrementCount q t h)

theorem insertFlat_store (t : node) (name : Str) :
    insertFlat t name =
      .mk t.count (if name ∈ keys t.children then t.names else t.names ++ [name])
        (mapSet t.children name ((mapGet t.children name).getD newNode).increment) := by
  unfold insertFlat
  rw [← namesAfter_def]
  cases mapGet t.children name <;> rfl

theorem namesAreKeys_insertFlat (t : node) (name : Str) (h : everyNode namesAreKeys t) :
    everyNode namesAreKeys (insertFlat t name) := by
  rw [insertFlat_store]
  have ht := (everyNode_iff _ t).1 h
  exact everyNode_mapSet _ _ _ _ _ _ (namesAreKeys_store t _ _ _ ht.1)
    (everyNode_increment _ namesAreKeys_count _
      (everyNode_getD _ t _ h namesAreKeys_newNode)) (fun k x hx => ht.2 k x hx)

/-- A property of nodes that holds for the merge of two nodes that have it
holds at every node of the merge of two trees that have it at every node. -/
theorem everyNode_mergeNodes (P : node → Prop) (hK : ∀ n, P n → keysNodup n.children)
    (hstep : ∀ a b, P a → P b → P (mergeNodes a b)) (path : List Str) :
    ∀ a b, everyNode P a → everyNode P b →
      ∀ n, nodeAt (mergeNodes a b) path = some n → P n := by
  induction path with
  | nil =>
    intro a b ha hb n hn
    simp only [nodeAt, Option.some.injEq] at hn
    rw [← hn]
    exact hstep a b (ha [] a rfl) (hb [] b rfl)
  | cons k p ih =>
    intro a b ha hb n hn
    have ha2 := (everyNode_iff P a).1 ha
    have hb2 := (everyNode_iff P b).1 hb
    rw [nodeAt_cons, child_mergeNodes a b k (hK a ha2.1) (hK b hb2.1)] at hn
    cases hca : a.child k with
    | none =>
      cases hcb : b.child k with
      | none => rw [hca, hcb] at hn; cases hn
      | some y =>
        rw [hca, hcb] at hn
        exact hb2.2 k y hcb p n hn
    | some x =>
      cases hcb : b.child k with
      | none =>
        rw [hca, hcb] at hn
        exact ha2.2 k x hca p n hn
      | some y =>
        rw [hca, hcb] at hn
        exact ih x y (ha2.2 k x hca) (hb2.2 k y hcb) n hn

theorem namesAreKeys_mergeNodes_node (a b : node) (ha : namesAreKeys a) (hb : namesAreKeys b) :
    namesAreKeys (mergeNodes a b) := by
  refine ⟨keysNodup_mergeNodes a b, ?_, ?_⟩
  · rw [mergeNodes_names]
    unfold mergeNames
    exact (sortStrings_perm _).nodup_iff.2 (List.nodup_dedup _)
  · intro k
    rw [mergeNodes_names, mergeNodes_children, mem_mergeNames,
      mem_keys_mergeChildren _ _ _ ha.1 hb.1, ha.2.2 k, hb.2.2 k]

/-- C27: the invariant that at every node of a tree the names are the keys of
the children, each once, holds for `newNode()`, and it holds after
`incrementCount`, after `nodeForNamePieces`, after the insertion of flat style
and after `mergeNodes` whenever it holds for the tree, or the two trees,
before. -/
theorem namesAreKeys_invariant :
    everyNode namesAreKeys newNode ∧
    (∀ t pieces, everyNode namesAreKeys t → everyNode namesAreKeys (incrementCount t pieces)) ∧
    (∀ t pieces maxDepth, everyNode namesAreKeys t →
      everyNode namesAreKeys (nodeForNamePieces t pieces maxDepth)) ∧
    (∀ t name, everyNode namesAreKeys t → everyNode namesAreKeys (insertFlat t name)) ∧
    (∀ a b, everyNode namesAreKeys a → everyNode namesAreKeys b →
      everyNode namesAreKeys (mergeNodes a b)) :=
  ⟨everyNode_newNode _ namesAreKeys_newNode,
   fun t pieces h => namesAreKeys_incrementCount pieces t h,
   fun t pieces maxDepth h => namesAreKeys_foldl (stringsSequence pieces maxDepth) t h,
   namesAreKeys_insertFlat,
   fun a b ha hb path n hn =>
     everyNode_mergeNodes namesAreKeys (fun _ h => h.1) namesAreKeys_mergeNodes_node
       path a b ha hb n hn⟩

/-- A witness for C27: the merge of a tree built by an insertion of tree style
and a tree built by an insertion of flat style. -/
theorem namesAreKeys_invariant_witness :
    everyNode namesAreKeys
      (mergeNodes (nodeForNamePieces newNode [ascii "a", ascii "b"] 3)
        (insertFlat newNode (ascii "a.b"))) :=
  namesAreKeys_invariant.2.2.2.2 _ _
    (namesAreKeys_invariant.2.2.1 _ _ _ namesAreKeys_invariant.1)
    (namesAreKeys_invariant.2.2.2.1 _ _ namesAreKeys_invariant.1)

/-! ## Counts of a node and of its children -/

theorem sum_counts_mapSet_new (m : List (Str × node)) (k : Str) (v : node)
    (h : mapGet m k = none) :
    ((mapSet m k v).map (fun e => e.2.count)).sum
      = (m.map (fun e => e.2.count)).sum + v.count := by
  rw [sum_counts_mapSet, h]
  simp

/-- The sum of the counts after the first loop of `mergeChildren`: every entry
of `c` adds its count and the count of the entry of `c2` with its key. -/
theorem sum_counts_first (c2 : List (Str × node)) :
    ∀ (c merged : List (Str × node)), keysNodup c →
      (∀ k ∈ keys c, mapGet merged k = none) →
      ((mergeChildren.first c c2 merged).map (fun e => e.2.count)).sum
        = (merged.map (fun e => e.2.count)).sum + (c.map (fun e => e.2.count)).sum
          + (c.map (fun e => ((mapGet c2 e.1).map node.count).getD 0)).sum := by
  intro c
  induction c with
  | nil => intro merged _ _; simp [mergeChildren.first]
  | cons e rest ih =>
    intro merged hc hm
    obtain ⟨name, n⟩ := e
    have hrest := keysNodup_tail _ _ hc
    have hhead := keysNodup_head _ _ _ hc
    have hname : mapGet merged name = none := hm name (by simp [keys])
    have hm2 : ∀ v, ∀ k ∈ keys rest, mapGet (mapSet merged name v) k = none := by
      intro v k hk
      rw [mapGet_mapSet]
      have hne : ¬ name = k := by
        intro e
        subst e
        exact (not_mem_keys_iff _ _).2 hhead hk
      rw [if_neg hne]
      exact hm k (by simp only [keys, List.map_cons, List.mem_cons]; exact Or.inr hk)
    cases h2 : mapGet c2 name with
    | none =>
      simp only [mergeChildren.first, h2]
      rw [ih _ hrest (hm2 n), sum_counts_mapSet_new _ _ _ hname]
      simp only [List.map_cons, List.sum_cons, h2, Option.map_none', Option.getD_none]
      ring
    | some o =>
      simp only [mergeChildren.first, h2]
      rw [ih _ hrest (hm2 _), sum_counts_mapSet_new _ _ _ hname, mergeNodes_count]
      simp only [List.map_cons, List.sum_cons, h2, Option.map_some', Option.getD_some]
      ring

/-- The sum of the counts after the second loop of `mergeChildren`: every
entry of `c2` whose key `c` does not have adds its count. -/
theorem sum_counts_second (c : List (Str × node)) :
    ∀ (c2 merged : List (Str × node)), keysNodup c2 →
      (∀ k ∈ keys c2, mapGet c k = none → mapGet merged k = none) →
      ((mergeChildren.second c c2 merged).map (fun e => e.2.count)).sum
        = (merged.map (fun e => e.2.count)).sum
          + (c2.map (fun e => if mapGet c e.1 = none then e.2.count else 0)).sum := by
  intro c2
  induction c2 with
  | nil => intro merged _ _; simp [mergeChildren.second]
  | cons e rest ih =>
    intro merged hc hm
    obtain ⟨name, n⟩ := e
    have hrest := keysNodup_tail _ _ hc
    have hhead := keysNodup_head _ _ _ hc
    cases h2 : mapGet c name with
    | none =>
      have hname : mapGet merged name = none := hm name (by simp [keys]) h2
      have hm2 : ∀ k ∈ keys rest, mapGet c k = none → mapGet (mapSet merged name n) k = none := by
        intro k hk hck
        rw [mapGet_mapSet]
        have hne : ¬ name = k := by
          intro e
          subst e
          exact (not_mem_keys_iff _ _).2 hhead hk
        rw [if_neg hne]
        exact hm k (by simp only [keys, List.map_cons, List.mem_cons]; exact Or.inr hk) hck
      simp only [mergeChildren.second, h2]
      rw [ih _ hrest hm2, sum_counts_mapSet_new _ _ _ hname]
      simp only [List.map_cons, List.sum_cons, h2, if_true]
      ring
    | some o =>
      have hm2 : ∀ k ∈ keys rest, mapGet c k = none → mapGet merged k = none := by
        intro k hk hck
        exact hm k (by simp only [keys, List.map_cons, List.mem_cons]; exact Or.inr hk) hck
      simp only [mergeChildren.second, h2]
      rw [ih _ hrest hm2]
      simp [h2]

/-- In a map that holds each key once, the entries with the key `k` add up to
the value at `k`. -/
theorem sum_ite_key (c : List (Str × node)) (k : Str) (v : Int) (h : keysNodup c) :
    (c.map (fun e => if k = e.1 then v else 0)).sum
      = if mapGet c k = none then 0 else v := by
  induction c with
  | nil => simp [mapGet]
  | cons e rest ih =>
    obtain ⟨name, n⟩ := e
    have hrest := keysNodup_tail _ _ h
    have hhead := keysNodup_head _ _ _ h
    by_cases hk : k = name
    · subst hk
      simp only [List.map_cons, List.sum_cons, if_true, mapGet, ih hrest, hhead]
      simp
    · have hk2 : ¬ name = k := fun e => hk e.symm
      simp only [List.map_cons, List.sum_cons, if_neg hk, mapGet, if_neg hk2, ih hrest]
      simp

/-- The counts that the entries of `c` find in `c2` and the counts of the
entries of `c2` that `c` does not have are, together, the counts of `c2`. -/
theorem sum_counts_split (c : List (Str × node)) (hc : keysNodup c) :
    ∀ c2 : List (Str × node), keysNodup c2 →
      (c.map (fun e => ((mapGet c2 e.1).map node.count).getD 0)).sum
        + (c2.map (fun e => if mapGet c e.1 = none then e.2.count else 0)).sum
        = (c2.map (fun e => e.2.count)).sum := by
  intro c2
  induction c2 with
  | nil => intro _; simp [mapGet]
  | cons e rest ih =>
    intro h2
    obtain ⟨name, n⟩ := e
    have hrest := keysNodup_tail _ _ h2
    have hhead := keysNodup_head _ _ _ h2
    have e1 : ∀ x : Str × node,
        ((mapGet ((name, n) :: rest) x.1).map node.count).getD 0
          = (if name = x.1 then n.count else 0)
            + ((mapGet rest x.1).map node.count).getD 0 := by
      intro x
      by_cases hx : name = x.1
      · rw [← hx]
        simp [mapGet, hhead]
      · simp [mapGet, hx]
    have e2 : (c.map (fun e => ((mapGet ((name, n) :: rest) e.1).map node.count).getD 0)).sum
        = (c.map (fun e => if name = e.1 then n.count else 0)).sum
          + (c.map (fun e => ((mapGet rest e.1).map node.count).getD 0)).sum := by
      rw [← List.sum_map_add]
      exact congrArg List.sum (List.map_congr_left (fun x _ => e1 x))
    rw [e2, sum_ite_key c name n.count hc]
    have ih2 := ih hrest
    simp only [List.map_cons, List.sum_cons]
    by_cases hn : mapGet c name = none
    · rw [if_pos hn, if_pos hn]; omega
    · rw [if_neg hn, if_neg hn]; omega

/-- The counts of the children of a merge add up to the counts of the children
of both nodes. -/
theorem sum_counts_mergeChildren (c c2 : List (Str × node))
    (hc : keysNodup c) (hc2 : keysNodup c2) :
    ((mergeChildren c c2).map (fun e => e.2.count)).sum
      = (c.map (fun e => e.2.count)).sum + (c2.map (fun e => e.2.count)).sum := by
  unfold mergeChildren
  have hm : ∀ k ∈ keys c2, mapGet c k = none →
      mapGet (mergeChildren.first c c2 []) k = none := by
    intro k _ hk
    rw [mapGet_first _ _ _ _ hc, hk]
    rfl
  rw [sum_counts_second c c2 _ hc2 hm,
    sum_counts_first c2 c [] hc (fun k _ => rfl)]
  have := sum_counts_split c hc c2 hc2
  simp only [List.map_nil, List.sum_nil]
  omega

theorem countCoversChildren_newNode : countCoversChildren newNode := by
  refine ⟨?_, ?_⟩
  · simp [keysNodup, keys, newNode, node.children]
  · simp [newNode, node.children, node.count]

theorem countCoversChildren_increment (t : node) (h : everyNode countCoversChildren t) :
    everyNode countCoversChildren t.increment := by
  rw [everyNode_iff] at h ⊢
  cases t with
  | mk c ns ch =>
    refine ⟨⟨h.1.1, ?_⟩, h.2⟩
    have := h.1.2
    simp only [node.increment, node.children_mk, node.count_mk] at this ⊢
    omega

/-- An insertion of tree style keeps the count of every node at or above the
sum of the counts of its children, whatever `maxDepth` is. -/
theorem countCoversChildren_nodeForNamePieces (pieces : List Str) :
    ∀ (maxDepth : Nat) (t : node), everyNode countCoversChildren t →
      everyNode countCoversChildren (nodeForNamePieces t pieces maxDepth) := by
  induction pieces with
  | nil =>
    intro maxDepth t h
    cases maxDepth with
    | zero => rw [nodeForNamePieces_zero]; exact h
    | succ d => rw [nodeForNamePieces_nil]; exact countCoversChildren_increment t h
  | cons piece rest ih =>
    intro maxDepth t h
    cases maxDepth with
    | zero => rw [nodeForNamePieces_zero]; exact h
    | succ d =>
      cases d with
      | zero => rw [nodeForNamePieces_one]; exact countCoversChildren_increment t h
      | succ d =>
        rw [nodeForNamePieces_cons]
        have ht := (everyNode_iff _ t).1 h
        refine everyNode_mapSet _ _ _ _ _ _ ⟨keysNodup_mapSet _ _ _ ht.1.1, ?_⟩
          (ih _ _ (everyNode_getD _ t _ h countCoversChildren_newNode))
          (fun k x hx => ht.2 k x hx)
        have hcount := nodeForNamePieces_count
          ((mapGet t.children (childName piece)).getD newNode) rest (d + 1) (by omega)
        have hsum := ht.1.2
        simp only [node.children_mk, node.count_mk]
        rw [sum_counts_mapSet, hcount]
        cases hc : mapGet t.children (childName piece) with
        | none =>
          have h0 : newNode.count = 0 := rfl
          simp only [Option.getD_none, h0]
          omega
        | some old =>
          simp only [Option.getD_some]
          omega

theorem countCoversChildren_mergeNodes_node (a b : node)
    (ha : countCoversChildren a) (hb : countCoversChildren b) :
    countCoversChildren (mergeNodes a b) := by
  refine ⟨keysNodup_mergeNodes a b, ?_⟩
  rw [mergeNodes_children, mergeNodes_count, sum_counts_mergeChildren _ _ ha.1 hb.1]
  have := ha.2
  have := hb.2
  omega

/-- C28: in every tree built from the empty tree by insertions of tree style
with one `maxDepth`, the count of every node is at least the sum of the counts
of its children, and the merge of two trees with this property has it too. -/
theorem countCoversChildren_invariant (maxDepth : Nat) :
    (∀ t, builtByInsertions maxDepth t → everyNode countCoversChildren t) ∧
    (∀ a b, everyNode countCoversChildren a → everyNode countCoversChildren b →
      everyNode countCoversChildren (mergeNodes a b)) := by
  refine ⟨?_, ?_⟩
  · intro t h
    induction h with
    | empty => exact everyNode_newNode _ countCoversChildren_newNode
    | insert t pieces _ ih => exact countCoversChildren_nodeForNamePieces pieces maxDepth t ih
  · intro a b ha hb path n hn
    exact everyNode_mergeNodes countCoversChildren (fun _ h => h.1)
      countCoversChildren_mergeNodes_node path a b ha hb n hn

/-- A witness for C28: the merge of two trees built by insertions with
`maxDepth = 3`. -/
theorem countCoversChildren_invariant_witness :
    everyNode countCoversChildren
      (mergeNodes
        (nodeForNamePieces (nodeForNamePieces newNode [ascii "a", ascii "b"] 3)
          [ascii "a", ascii "c"] 3)
        (nodeForNamePieces newNode [ascii "a"] 3)) :=
  (countCoversChildren_invariant 3).2 _ _
    ((countCoversChildren_invariant 3).1 _ (.insert _ _ (.insert _ _ .empty)))
    ((countCoversChildren_invariant 3).1 _ (.insert _ _ .empty))

/-! ## The order of the names in a merge -/

theorem differsInNamesOrder_child (a a2 : node) (h : differsInNamesOrder a a2) (k : Str) :
    (a.child k = none ∧ a2.child k = none) ∨
    ∃ x x2, a.child k = some x ∧ a2.child k = some x2 ∧ differsInNamesOrder x x2 := by
  have hk := h [k]
  rw [nodeAt_cons, nodeAt_cons] at hk
  cases hx : a.child k with
  | none =>
    cases hx2 : a2.child k with
    | none => exact Or.inl ⟨rfl, rfl⟩
    | some x2 => rw [hx, hx2] at hk; exact absurd hk (by simp [sameButNamesOrder, nodeAt])
  | some x =>
    cases hx2 : a2.child k with
    | none => rw [hx, hx2] at hk; exact absurd hk (by simp [sameButNamesOrder, nodeAt])
    | some x2 =>
      refine Or.inr ⟨x, x2, rfl, rfl, ?_⟩
      intro q
      have hq := h (k :: q)
      rw [nodeAt_cons, nodeAt_cons, hx, hx2] at hq
      exact hq

theorem mergeNames_perm_left (n n2 m : List Str) (h : n.Perm n2) :
    mergeNames n m = mergeNames n2 m := by
  unfold mergeNames
  exact sortStrings_congr _ _ ((h.append_right m).dedup)

theorem mergeNames_sorted (n m : List Str) :
    (mergeNames n m).Sorted (· ≤ ·) ∧ (mergeNames n m).Nodup := by
  unfold mergeNames
  exact ⟨sortStrings_sorted _, (sortStrings_perm _).nodup_iff.2 (List.nodup_dedup _)⟩

/-- The names at the nodes of a merge that the second tree has, when the first
tree is replaced by one that differs from it in the order of names only. -/
theorem mergeNodes_names_at (path : List Str) :
    ∀ (a a2 b nb : node), a.wf = true → a2.wf = true → b.wf = true →
      differsInNamesOrder a a2 → nodeAt b path = some nb →
      ∃ m m2, nodeAt (mergeNodes a b) path = some m ∧
        nodeAt (mergeNodes a2 b) path = some m2 ∧ m.names = m2.names ∧
        (∀ na, nodeAt a path = some na →
          m.names.Sorted (· ≤ ·) ∧ m.names.Nodup ∧
          ∀ name, name ∈ m.names ↔ name ∈ na.names ∨ name ∈ nb.names) := by
  induction path with
  | nil =>
    intro a a2 b nb _ _ _ h hb
    simp only [nodeAt, Option.some.injEq] at hb
    subst hb
    have h0 := h []
    simp only [nodeAt, sameButNamesOrder] at h0
    refine ⟨_, _, rfl, rfl, ?_, ?_⟩
    · rw [mergeNodes_names, mergeNodes_names, mergeNames_perm_left _ _ _ h0.2]
    · intro na hna
      simp only [nodeAt, Option.some.injEq] at hna
      subst hna
      rw [mergeNodes_names]
      exact ⟨(mergeNames_sorted _ _).1, (mergeNames_sorted _ _).2,
        fun name => mem_mergeNames _ _ name⟩
  | cons k p ih =>
    intro a a2 b nb ha ha2 hb h hnb
    have ka := wf_keysNodup a ha
    have ka2 := wf_keysNodup a2 ha2
    have kb := wf_keysNodup b hb
    rw [nodeAt_cons] at hnb
    cases hy : b.child k with
    | none => rw [hy] at hnb; cases hnb
    | some y =>
      rw [hy] at hnb
      change nodeAt y p = some nb at hnb
      rw [nodeAt_cons, nodeAt_cons, child_mergeNodes a b k ka kb,
        child_mergeNodes a2 b k ka2 kb, hy]
      rcases differsInNamesOrder_child a a2 h k with ⟨e1, e2⟩ | ⟨x, x2, e1, e2, hx⟩
      · rw [e1, e2]
        refine ⟨nb, nb, hnb, hnb, rfl, ?_⟩
        intro na hna
        rw [nodeAt_cons, e1] at hna
        cases hna
      · rw [e1, e2]
        obtain ⟨m, m2, g1, g2, g3, g4⟩ := ih x x2 y nb (wf_child a x k ha e1)
          (wf_child a2 x2 k ha2 e2) (wf_child b y k hb hy) hx hnb
        refine ⟨m, m2, g1, g2, g3, ?_⟩
        intro na hna
        rw [nodeAt_cons, e1] at hna
        exact g4 na hna

theorem sameButNamesOrder_refl (o : Option node) : sameButNamesOrder o o := by
  cases o with
  | none => trivial
  | some x => exact ⟨rfl, List.Perm.refl _⟩

theorem differsInNamesOrder_refl (a : node) : differsInNamesOrder a a :=
  fun _ => sameButNamesOrder_refl _

theorem differsInNamesOrder_of (a a2 : node) (h0 : a.count = a2.count)
    (hn : a.names.Perm a2.names)
    (hch : ∀ k, (a.child k = none ∧ a2.child k = none) ∨
      ∃ x x2, a.child k = some x ∧ a2.child k = some x2 ∧ differsInNamesOrder x x2) :
    differsInNamesOrder a a2 := by
  intro path
  cases path with
  | nil => exact ⟨h0, hn⟩
  | cons k p =>
    rw [nodeAt_cons, nodeAt_cons]
    rcases hch k with ⟨e1, e2⟩ | ⟨x, x2, e1, e2, hx⟩
    · rw [e1, e2]; trivial
    · rw [e1, e2]; exact hx p

/-- C23, as the code has it: when `a2` differs from `a` only in the order of
the names of its nodes, the merges of `a` and of `a2` with `b`, on either side,
have the same names in the same order at every node whose path `b` has, the
root among them; where `a` has the path too, these names are the names of the
two merged nodes in ascending lexicographic order, each once. -/
theorem mergeNodes_names_order (a a2 b : node) (ha : a.wf = true) (ha2 : a2.wf = true)
    (hb : b.wf = true) (h : differsInNamesOrder a a2) (path : List Str) (nb : node)
    (hnb : nodeAt b path = some nb) :
    (∃ m m2, nodeAt (mergeNodes a b) path = some m ∧
      nodeAt (mergeNodes a2 b) path = some m2 ∧ m.names = m2.names ∧
      (∀ na, nodeAt a path = some na →
        m.names.Sorted (· ≤ ·) ∧ m.names.Nodup ∧
        ∀ name, name ∈ m.names ↔ name ∈ na.names ∨ name ∈ nb.names)) ∧
    (∃ m m2, nodeAt (mergeNodes b a) path = some m ∧
      nodeAt (mergeNodes b a2) path = some m2 ∧ m.names = m2.names) := by
  obtain ⟨m, m2, g1, g2, g3, g4⟩ := mergeNodes_names_at path a a2 b nb ha ha2 hb h hnb
  refine ⟨⟨m, m2, g1, g2, g3, g4⟩, ?_⟩
  have c1 := mergeNodes_comm_at path b a hb ha
  have c2 := mergeNodes_comm_at path b a2 hb ha2
  rw [g1] at c1
  rw [g2] at c2
  cases e1 : nodeAt (mergeNodes b a) path with
  | none => rw [e1] at c1; exact absurd c1 (by simp [sameOption])
  | some m3 =>
    cases e2 : nodeAt (mergeNodes b a2) path with
    | none => rw [e2] at c2; exact absurd c2 (by simp [sameOption])
    | some m4 =>
      rw [e1] at c1
      rw [e2] at c2
      exact ⟨m3, m4, rfl, rfl, c1.2.1.trans (g3.trans c2.2.1.symm)⟩

/-- What the two example trees are. -/
theorem exampleTrees_eq :
    exampleTreeBA = .mk 2 [ascii "x"] [(ascii "x", .mk 2 [ascii "b", ascii "a"]
      [(ascii "b", .mk 1 [] []), (ascii "a", .mk 1 [] [])])] ∧
    exampleTreeAB = .mk 2 [ascii "x"] [(ascii "x", .mk 2 [ascii "a", ascii "b"]
      [(ascii "a", .mk 1 [] []), (ascii "b", .mk 1 [] [])])] := by
  decide

theorem exampleTrees_differ : differsInNamesOrder exampleTreeBA exampleTreeAB := by
  rw [exampleTrees_eq.1, exampleTrees_eq.2]
  refine differsInNamesOrder_of _ _ rfl (List.Perm.refl _) ?_
  intro k
  by_cases hk : ascii "x" = k
  · subst hk
    refine Or.inr ⟨_, _, rfl, rfl, ?_⟩
    refine differsInNamesOrder_of _ _ rfl (List.Perm.swap _ _ _) ?_
    intro k
    by_cases hb : ascii "b" = k
    · subst hb
      exact Or.inr ⟨_, _, rfl, rfl, differsInNamesOrder_refl _⟩
    · by_cases ha : ascii "a" = k
      · subst ha
        exact Or.inr ⟨_, _, rfl, rfl, differsInNamesOrder_refl _⟩
      · exact Or.inl ⟨by simp [node.child, node.children, mapGet, ha, hb],
          by simp [node.child, node.children, mapGet, ha, hb]⟩
  · exact Or.inl ⟨by simp [node.child, node.children, mapGet, hk],
      by simp [node.child, node.children, mapGet, hk]⟩

/-- A witness for C23: the two example trees, merged with the tree of the
path `x`. -/
theorem mergeNodes_names_order_witness :
    (∃ m m2, nodeAt (mergeNodes exampleTreeBA (nodeForNamePieces newNode [ascii "x"] 3))
        [ascii "x"] = some m ∧
      nodeAt (mergeNodes exampleTreeAB (nodeForNamePieces newNode [ascii "x"] 3))
        [ascii "x"] = some m2 ∧ m.names = m2.names ∧
      (∀ na, nodeAt exampleTreeBA [ascii "x"] = some na →
        m.names.Sorted (· ≤ ·) ∧ m.names.Nodup ∧
        ∀ name, name ∈ m.names ↔ name ∈ na.names ∨ name ∈ (node.mk 1 [] []).names)) ∧
    (∃ m m2, nodeAt (mergeNodes (nodeForNamePieces newNode [ascii "x"] 3) exampleTreeBA)
        [ascii "x"] = some m ∧
      nodeAt (mergeNodes (nodeForNamePieces newNode [ascii "x"] 3) exampleTreeAB)
        [ascii "x"] = some m2 ∧ m.names = m2.names) :=
  mergeNodes_names_order exampleTreeBA exampleTreeAB (nodeForNamePieces newNode [ascii "x"] 3)
    (by decide) (by decide) (by decide) exampleTrees_differ [ascii "x"] (.mk 1 [] [])
    (by decide)

/-- C23 fails as stated: the two example trees differ only in the order of the
names of the node `x`, and the merge of each of them with the empty tree has
the node `x` with its names as they were, `b`, `a` in the one and `a`, `b` in
the other. -/
theorem mergeNodes_names_order_depends :
    differsInNamesOrder exampleTreeBA exampleTreeAB ∧
    (nodeAt (mergeNodes exampleTreeBA newNode) [ascii "x"]).map node.names
      = some [ascii "b", ascii "a"] ∧
    (nodeAt (mergeNodes exampleTreeAB newNode) [ascii "x"]).map node.names
      = some [ascii "a", ascii "b"] :=
  ⟨exampleTrees_differ, by decide, by decide⟩

/-! ## readUnsignedLeb128, readString, loadStrings -/

/-- The call `readByte` when the file has a byte at its offset. -/
theorem readByte_ok (f : File) (b : Byte) (tl : List Byte)
    (h : f.data.drop f.pos = b :: tl) :
    readByte f = (.ok b, { f with pos := f.pos + 1, log := f.log ++ [(f.pos, 1)] }) := by
  have e : readByte f = Run.bind (File.Read 1) (fun buf =>
      match buf with
      | [b] => Run.pure b
      | _ => Run.fail .shortRead) f := rfl
  have hb : (f.data.drop f.pos).take 1 = [b] := by rw [h]; rfl
  have hr : File.Read 1 f = (.ok [b],
      { f with pos := f.pos + 1, log := f.log ++ [(f.pos, 1)] }) := by
    rw [File.Read_ok 1 f (by rw [hb]; simp), hb]
    rfl
  rw [e, Run.bind_ok _ _ _ _ _ hr]
  rfl

theorem drop_succ_of_drop {α : Type} (l : List α) (n : Nat) (b : α) (tl : List α)
    (h : l.drop n = b :: tl) : l.drop (n + 1) = tl := by
  have e : l.drop (n + 1) = (l.drop n).drop 1 := by
    rw [List.drop_drop]
  rw [e, h]
  rfl

/-- One round of the loop of `readUnsignedLeb128`: the seven low bits of the
byte are put below the bits read so far. -/
theorem leb128_round (result : Nat) (b : Byte) (h : result < 2 ^ 25) :
    ((result <<< 7) % 2 ^ 32) ||| (b.val &&& 0x7f) = result * 128 + b.val % 128 := by
  have e1 : result <<< 7 = 2 ^ 7 * result := by rw [Nat.shiftLeft_eq, Nat.mul_comm]
  have e2 : b.val &&& 0x7f = b.val % 2 ^ 7 := Nat.and_pow_two_sub_one_eq_mod b.val 7
  have e3 : (2 ^ 7 * result) % 2 ^ 32 = 2 ^ 7 * result := Nat.mod_eq_of_lt (by omega)
  rw [e1, e3, e2, ← Nat.mul_add_lt_is_or (Nat.mod_lt _ (by norm_num)) result]
  omega

/-- The loop of `readUnsignedLeb128` on bytes with the high bit set followed by
a byte with the high bit clear: it reads them all and no more, and every byte
moves the bits read before it seven places up. -/
theorem readUnsignedLeb128_loop_eq (last : Byte) (hlast : last.val < 0x80) :
    ∀ (bs : List Byte) (fuel result : Nat) (f : File) (rest : List Byte),
      (∀ b ∈ bs, 0x80 ≤ b.val) → bs.length < fuel →
      (result + 1) * 128 ^ bs.length ≤ 2 ^ 25 →
      f.data.drop f.pos = bs ++ last :: rest →
      (readUnsignedLeb128.loop fuel result f).1
          = .ok ((bs ++ [last]).foldl (fun acc b => acc * 128 + b.val % 128) result) ∧
        (readUnsignedLeb128.loop fuel result f).2.pos = f.pos + bs.length + 1 ∧
        (readUnsignedLeb128.loop fuel result f).2.data = f.data := by
  intro bs
  induction bs with
  | nil =>
    intro fuel result f rest _ hfuel hres hdata
    obtain ⟨fuel, rfl⟩ : ∃ k, fuel = k + 1 := ⟨fuel - 1, by simp at hfuel; omega⟩
    have e : readUnsignedLeb128.loop (fuel + 1) result f = Run.bind readByte (fun val =>
        if val.val ≥ 0x80 then
          readUnsignedLeb128.loop fuel (((result <<< 7) % 2 ^ 32) ||| (val.val &&& 0x7f))
        else Run.pure (((result <<< 7) % 2 ^ 32) ||| (val.val &&& 0x7f))) f := rfl
    rw [e, Run.bind_ok _ _ _ _ _ (readByte_ok f last rest hdata),
      if_neg (by omega), leb128_round result last (by simp at hres; omega)]
    exact ⟨rfl, rfl, rfl⟩
  | cons b bs ih =>
    intro fuel result f rest hbs hfuel hres hdata
    obtain ⟨fuel, rfl⟩ : ∃ k, fuel = k + 1 := ⟨fuel - 1, by simp at hfuel; omega⟩
    have e : readUnsignedLeb128.loop (fuel + 1) result f = Run.bind readByte (fun val =>
        if val.val ≥ 0x80 then
          readUnsignedLeb128.loop fuel (((result <<< 7) % 2 ^ 32) ||| (val.val &&& 0x7f))
        else Run.pure (((result <<< 7) % 2 ^ 32) ||| (val.val &&& 0x7f))) f := rfl
    have hb : 0x80 ≤ b.val := hbs b (List.mem_cons_self b bs)
    have hpow : (result + 1) * 128 ^ (bs.length + 1) ≤ 2 ^ 25 := by simpa using hres
    have h1 : 1 ≤ 128 ^ (bs.length + 1) := Nat.one_le_pow _ _ (by norm_num)
    have hres1 : result < 2 ^ 25 := by
      have h2 : (result + 1) * 1 ≤ (result + 1) * 128 ^ (bs.length + 1) :=
        Nat.mul_le_mul_left _ h1
      omega
    rw [e, Run.bind_ok _ _ _ _ _ (readByte_ok f b (bs ++ last :: rest) hdata),
      if_pos hb, leb128_round result b hres1]
    have hmod : b.val % 128 < 128 := Nat.mod_lt _ (by norm_num)
    have hnext : (result * 128 + b.val % 128 + 1) * 128 ^ bs.length ≤ 2 ^ 25 := by
      have h2 : (result * 128 + b.val % 128 + 1) * 128 ^ bs.length
          ≤ ((result + 1) * 128) * 128 ^ bs.length :=
        Nat.mul_le_mul_right _ (by omega)
      have h3 : ((result + 1) * 128) * 128 ^ bs.length
          = (result + 1) * 128 ^ (bs.length + 1) := by
        rw [Nat.pow_succ, Nat.mul_assoc, Nat.mul_comm 128]
      omega
    obtain ⟨g1, g2, g3⟩ := ih fuel (result * 128 + b.val % 128)
      { f with pos := f.pos + 1, log := f.log ++ [(f.pos, 1)] } rest
      (fun x hx => hbs x (List.mem_cons_of_mem b hx)) (by simp at hfuel; omega) hnext
      (drop_succ_of_drop _ _ _ _ hdata)
    refine ⟨?_, ?_, ?_⟩
    · rw [g1]; rfl
    · rw [g2]; simp only [List.length_cons]; omega
    · rw [g3]

/-- What `readUnsignedLeb128` returns for at most three bytes with the high
bit set followed by a byte with the high bit clear: it reads exactly these
bytes, and the value has the seven low bits of the first byte in the highest
place and those of the last byte in the lowest. -/
theorem readUnsignedLeb128_value (bs : List Byte) (last : Byte) (f : File) (rest : List Byte)
    (hbs : ∀ b ∈ bs, 0x80 ≤ b.val) (hlast : last.val < 0x80) (hk : bs.length ≤ 3)
    (hdata : f.data.drop f.pos = bs ++ last :: rest) :
    (readUnsignedLeb128 f).1
        = .ok ((bs ++ [last]).foldl (fun acc b => acc * 128 + b.val % 128) 0) ∧
      (readUnsignedLeb128 f).2.pos = f.pos + bs.length + 1 ∧
      (readUnsignedLeb128 f).2.data = f.data := by
  have hlen : bs.length < f.data.length - f.pos + 1 := by
    have := congrArg List.length hdata
    simp only [List.length_drop, List.length_append, List.length_cons] at this
    omega
  have hpow : (0 + 1) * 128 ^ bs.length ≤ 2 ^ 25 := by
    have : 128 ^ bs.length ≤ 128 ^ 3 := Nat.pow_le_pow_right (by norm_num) hk
    omega
  exact readUnsignedLeb128_loop_eq last hlast bs _ 0 f rest hbs hlen hpow hdata

/-- The loop of `readString` on bytes that are not zero, followed by a zero
byte, when the buffer has room for them: it returns them. -/
theorem readString_loop_eq :
    ∀ (p : List Byte) (remaining : Nat) (acc : List Byte) (f : File) (rest : List Byte),
      (∀ b ∈ p, b ≠ 0) → p.length ≤ remaining →
      f.data.drop f.pos = p ++ 0 :: rest →
      (readString.loop remaining acc f).1 = .ok (acc ++ p) := by
  intro p
  induction p with
  | nil =>
    intro remaining acc f rest _ _ hdata
    cases remaining with
    | zero => simp [readString.loop, pure, Run.pure]
    | succ r =>
      have e : readString.loop (r + 1) acc f = Run.bind readByte (fun val =>
          if val = 0 then Run.pure acc else readString.loop r (acc ++ [val])) f := rfl
      rw [e, Run.bind_ok _ _ _ _ _ (readByte_ok f 0 rest hdata), if_pos rfl]
      simp [Run.pure]
  | cons b p ih =>
    intro remaining acc f rest hp hlen hdata
    obtain ⟨r, rfl⟩ : ∃ k, remaining = k + 1 := ⟨remaining - 1, by simp at hlen; omega⟩
    have e : readString.loop (r + 1) acc f = Run.bind readByte (fun val =>
        if val = 0 then Run.pure acc else readString.loop r (acc ++ [val])) f := rfl
    rw [e, Run.bind_ok _ _ _ _ _ (readByte_ok f b (p ++ 0 :: rest) hdata),
      if_neg (hp b (List.mem_cons_self b p)),
      ih r (acc ++ [b]) _ rest (fun x hx => hp x (List.mem_cons_of_mem b hx))
        (by simp at hlen; omega) (drop_succ_of_drop _ _ _ _ hdata)]
    simp

/-- What `readString` returns for a string data item whose length `n` is below
128, so that its encoding is the one byte `n`: the payload, whole. -/
theorem readString_short_length (n : Byte) (p : List Byte) (f : File) (rest : List Byte)
    (hn : n.val < 0x80) (hp : ∀ b ∈ p, b ≠ 0) (hlen : p.length ≤ 3 * n.val)
    (hdata : f.data.drop f.pos = n :: (p ++ 0 :: rest)) :
    (readString f).1 = .ok p := by
  obtain ⟨g1, g2, g3⟩ := readUnsignedLeb128_value [] n f (p ++ 0 :: rest)
    (fun _ h => by cases h) hn (by simp) hdata
  have e : readString f = Run.bind readUnsignedLeb128 (fun utf16len =>
      readString.loop ((utf16len * 3) % 2 ^ 32) []) f := rfl
  rcases h : readUnsignedLeb128 f with ⟨o, f1⟩
  rw [h] at g1 g2 g3
  simp only at g1 g2 g3
  subst g1
  have hv : ([] ++ [n]).foldl (fun acc (b : Byte) => acc * 128 + b.val % 128) 0 = n.val := by
    simp only [List.nil_append, List.foldl_cons, List.foldl_nil]
    omega
  have hd1 : f1.data.drop f1.pos = p ++ 0 :: rest := by
    rw [g3, g2]
    exact drop_succ_of_drop _ _ _ _ hdata
  rw [e, Run.bind_ok _ _ _ _ _ h, hv,
    readString_loop_eq p _ [] f1 rest hp (by
      have : n.val * 3 % 2 ^ 32 = n.val * 3 := Nat.mod_eq_of_lt (by omega)
      omega) hd1]
  rfl

/-- C22: on the two bytes `80 01`, the unsigned LEB128 encoding of 128,
`readUnsignedLeb128` reads both bytes and returns 1; the sum of the claim,
`(b0 AND 0x7f) * 128^0 + (b1 AND 0x7f) * 128^1`, is 128. -/
theorem readUnsignedLeb128_example :
    readUnsignedLeb128 { data := [0x80, 0x01], pos := 0, log := [] }
      = (.ok 1, { data := [0x80, 0x01], pos := 2, log := [(0, 1), (1, 1)] }) ∧
    (0x80 &&& 0x7f) * 128 ^ 0 + (0x01 &&& 0x7f) * 128 ^ 1 = 128 := by
  decide!

/-- C21: on the string data item `80 01 61 62 63 64 00`, the encoding of the
length 128, the payload `abcd` of four bytes and the zero byte, `readString`
returns the three bytes `abc` and leaves the offset at 5. -/
theorem readString_example :
    (readString { data := [0x80, 0x01, 0x61, 0x62, 0x63, 0x64, 0x00], pos := 0, log := [] }).1
      = .ok [0x61, 0x62, 0x63] ∧
    (readString { data := [0x80, 0x01, 0x61, 0x62, 0x63, 0x64, 0x00], pos := 0, log := [] }).2.pos
      = 5 := by
  decide!

/-- C29: on the file of 112 bytes that is a header with the string count 0,
`parseHeaderItem` returns without an error and `loadStrings` panics; so does
`New`. -/
theorem loadStrings_example :
    headerOnlyFile.data.length = 112 ∧
    (parseHeaderItem (Data.init headerOnlyFile)).1 = .ok () ∧
    (parseHeaderItem (Data.init headerOnlyFile)).2.headerItem.stringIdsSize = 0 ∧
    (loadStrings (parseHeaderItem (Data.init headerOnlyFile)).2).1 = .panic ∧
    New headerOnlyFile = .panic := by
  decide!

/-! ## The fields of the header -/

/-- On a file with a valid magic number, a valid tag and the 112 bytes of the
header, `parseHeaderItem` returns without an error. -/
theorem parseHeaderItem_succeeds (D : List Byte) (p : Nat) (h : headerItem)
    (hm : verifyMagic (D.take 8) = true) (hl : 112 ≤ D.length)
    (ht : intAt D false 40 = endianConstant ∨ intAt D false 40 = reverseEndianConstant) :
    Holds (HeaderAt D false p h) parseHeaderItem (fun o _ => o = .ok ()) := by
  unfold parseHeaderItem
  refine Holds.update_bind (HeaderAt D false p {}) _
    (fun s hs => ⟨hs.1, hs.2.1, hs.2.2.1, rfl⟩) ?_
  refine Holds.seek_bind 0 0 rfl ?_
  refine Holds.readFully_bind 8 (by decide) (fun h8 => absurd (by omega) h8) (fun h8 => ?_)
  refine Holds.ite _ (fun hc => absurd hc (by rw [List.drop_zero, hm]; decide)) (fun _ => ?_)
  refine Holds.seek_bind _ 40 rfl ?_
  refine Holds.readInt_bind (fun h44 => absurd (by omega) h44) (fun h44 => ?_)
  refine Holds.setHeader_bind _ (fun h1 _ => ?_)
  refine Holds.ite _ (fun hc => ?_) (fun _ => ?_)
  · rcases ht with e | e
    · exact absurd e hc.1
    · exact absurd e hc.2
  refine Holds.ite _ (fun hc => Holds.pure_bind _ ?_) (fun hc => Holds.update_bind
    (HeaderAt D true (40 + 4) h1) _ (fun s hs => ⟨hs.1, rfl, hs.2.2.1, hs.2.2.2⟩) ?_)
  all_goals
    refine Holds.seek_bind _ 32 rfl ?_
    repeat (first
      | refine Holds.readInt_bind (fun hn => absurd (by omega) hn) (fun _ => ?_)
      | refine Holds.setHeader_bind _ (fun _ _ => ?_))
    exact Holds.pure _ (fun _ _ => rfl)

/-- C24: for a file of at least 112 bytes with a valid magic number and a
valid endian tag `e` (the bytes at offsets 40 to 43, little-endian), read in
the state that `New` sets up, `parseHeaderItem` returns without an error; the
byte order it leaves is big-endian exactly when `e` is `0x78563412`; and the
header it leaves has `fileSize` and `headerSize` from the 32-bit fields at the
offsets 32 and 36 and the six pairs of size and offset from the twelve fields
at the offsets 56, 60, ..., 100, each a signed 32-bit integer decoded in that
byte order. -/
theorem parseHeaderItem_fields (d : Data) (hb : d.isBigEndian = false)
    (hm : verifyMagic (d.dexFile.data.take 8) = true) (hl : 112 ≤ d.dexFile.data.length)
    (ht : signed 32 (littleEndian ((d.dexFile.data.drop 40).take 4)) = endianConstant ∨
      signed 32 (littleEndian ((d.dexFile.data.drop 40).take 4)) = reverseEndianConstant) :
    (parseHeaderItem d).1 = .ok () ∧
    (parseHeaderItem d).2.isBigEndian
      = decide (signed 32 (littleEndian ((d.dexFile.data.drop 40).take 4))
          = reverseEndianConstant) ∧
    (parseHeaderItem d).2.headerItem =
      { fileSize := intAt d.dexFile.data (parseHeaderItem d).2.isBigEndian 32
        headerSize := intAt d.dexFile.data (parseHeaderItem d).2.isBigEndian 36
        endianTag := signed 32 (littleEndian ((d.dexFile.data.drop 40).take 4))
        stringIdsSize := intAt d.dexFile.data (parseHeaderItem d).2.isBigEndian 56
        stringIdsOff := intAt d.dexFile.data (parseHeaderItem d).2.isBigEndian 60
        typeIdsSize := intAt d.dexFile.data (parseHeaderItem d).2.isBigEndian 64
        typeIdsOff := intAt d.dexFile.data (parseHeaderItem d).2.isBigEndian 68
        protoIdsSize := intAt d.dexFile.data (parseHeaderItem d).2.isBigEndian 72
        protoIdsOff := intAt d.dexFile.data (parseHeaderItem d).2.isBigEndian 76
        fieldIdsSize := intAt d.dexFile.data (parseHeaderItem d).2.isBigEndian 80
        fieldIdsOff := intAt d.dexFile.data (parseHeaderItem d).2.isBigEndian 84
        methodIdsSize := intAt d.dexFile.data (parseHeaderItem d).2.isBigEndian 88
        methodIdsOff := intAt d.dexFile.data (parseHeaderItem d).2.isBigEndian 92
        classDefsSize := intAt d.dexFile.data (parseHeaderItem d).2.isBigEndian 96
        classDefsOff := intAt d.dexFile.data (parseHeaderItem d).2.isBigEndian 100 } := by
  have e : intAt d.dexFile.data false 40
      = signed 32 (littleEndian ((d.dexFile.data.drop 40).take 4)) := rfl
  have hst : HeaderAt d.dexFile.data false d.dexFile.pos d.headerItem d := ⟨rfl, hb, rfl, rfl⟩
  have g1 := parseHeaderItem_succeeds d.dexFile.data d.dexFile.pos d.headerItem hm hl
    (by rw [e]; exact ht) d hst
  have g2 := parseHeaderItem_order d.dexFile.data d.dexFile.pos d.headerItem hm (by omega) d hst
  have g3 := parseHeaderItem_returns d.dexFile.data false d.dexFile.pos d.headerItem d hst
  rw [e] at g2
  have hne : endianConstant ≠ reverseEndianConstant := by decide
  refine ⟨g1, ?_, ?_⟩
  · rcases ht with h1 | h1
    · rw [g2.1 h1, h1]; exact (decide_eq_false hne).symm
    · rw [g2.2.1 h1, h1]; exact (decide_eq_true rfl).symm
  · exact (g3.2 () g1).2.2

/-- A witness for C24: the example file. -/
theorem parseHeaderItem_fields_witness :
    (parseHeaderItem (Data.init exampleFile)).1 = .ok () ∧
    (parseHeaderItem (Data.init exampleFile)).2.isBigEndian = false ∧
    (parseHeaderItem (Data.init exampleFile)).2.headerItem.stringIdsSize = 7 ∧
    (parseHeaderItem (Data.init exampleFile)).2.headerItem.classDefsOff = 212 := by
  have g := parseHeaderItem_fields (Data.init exampleFile) rfl (by decide!) (by decide!)
    (Or.inl (by decide!))
  refine ⟨g.1, ?_, ?_, ?_⟩
  · rw [g.2.1]; decide!
  · rw [g.2.2]; decide!
  · rw [g.2.2]; decide!

/-! ## The declaring class of a reference -/

theorem mapOption_forall2 {α β : Type} (f : α → Option β) (R : α → β → Prop) :
    ∀ (l : List α) (r : List β), mapOption f l = some r →
      (∀ x ∈ l, ∀ y, f x = some y → R x y) → List.Forall₂ R l r := by
  intro l
  induction l with
  | nil =>
    intro r h _
    simp only [mapOption, Option.some.injEq] at h
    rw [← h]
    exact List.Forall₂.nil
  | cons x xs ih =>
    intro r h hR
    simp only [mapOption] at h
    cases e1 : f x with
    | none => simp [e1] at h
    | some y1 =>
      cases e2 : mapOption f xs with
      | none => simp [e1, e2] at h
      | some ys =>
        simp only [e1, e2, Option.some.injEq] at h
        rw [← h]
        exact List.Forall₂.cons (hR x (List.mem_cons_self x xs) y1 e1)
          (ih ys e2 (fun z hz => hR z (List.mem_cons_of_mem x hz)))

theorem signed16_of_lt (u : Nat) (h : u < 32768) : signed 16 u = (u : Int) := by
  unfold signed
  rw [if_pos (by norm_num; omega)]

theorem signed16_nonneg_iff (u : Nat) (h : u < 65536) : 0 ≤ signed 16 u ↔ u < 32768 := by
  unfold signed
  by_cases hu : u < 32768
  · rw [if_pos (by norm_num; omega)]
    simp [hu]
  · rw [if_neg (by norm_num; omega)]
    constructor
    · intro h2
      norm_num at h2
      omega
    · intro h2; exact absurd h2 hu

/-- The access `d.typeIds[idx]` for an index that is not negative and below
the number of types. -/
theorem classNameFromTypeIndex_inBounds (d : Data) (idx : Int) (u : Nat) (hu : u < 65536)
    (h0 : 0 ≤ idx) (e : idx = signed 16 u) (name : Str)
    (h : classNameFromTypeIndex d idx = some name) :
    ∃ t, index d.typeIds idx = some t ∧ d.typeIds[u]? = some t ∧
      index d.strings t.descriptorIdx = some name := by
  have h32 : u < 32768 := (signed16_nonneg_iff u hu).1 (e ▸ h0)
  have e2 : idx = (u : Int) := e.trans (signed16_of_lt u h32)
  unfold classNameFromTypeIndex at h
  cases e3 : index d.typeIds idx with
  | none => simp [e3] at h
  | some t =>
    simp only [e3] at h
    refine ⟨t, rfl, ?_, h⟩
    unfold index at e3
    rw [if_neg (by omega), e2, Int.toNat_ofNat] at e3
    exact e3

theorem index_inBounds {α : Type} (xs : List α) (i : Int) (h0 : 0 ≤ i) (h : i < xs.length) :
    ∃ x, index xs i = some x := by
  unfold index
  rw [if_neg (by omega)]
  have hl : i.toNat < xs.length := by omega
  exact ⟨xs[i.toNat], List.getElem?_eq_getElem hl⟩

/-- Where the declaring class is resolved as the comment on `classIdx` says
(`index into type_ids`): the index is held as a signed 16-bit integer, so an
unsigned value `u` of the file is the index `u` below 32768 and a negative
index from there on.  For every `Data` in which the index held for each field
and method entry is not negative and smaller than the number of type entries,
the accesses `d.typeIds[classIdx]` are within bounds, and whenever
`GetFieldRefs` (`GetMethodRefs`) returns, the `DeclClass` of each reference is
the descriptor of the type entry at the unsigned value stored for the entry. -/
theorem declClass_resolves (d : Data)
    (hf : ∀ f ∈ d.fieldIds, 0 ≤ f.classIdx ∧ f.classIdx < d.typeIds.length)
    (hm : ∀ m ∈ d.methodIds, 0 ≤ m.classIdx ∧ m.classIdx < d.typeIds.length) :
    (∀ u : Nat, u < 65536 →
      (0 ≤ signed 16 u ↔ u < 32768) ∧ (u < 32768 → signed 16 u = (u : Int))) ∧
    (∀ f ∈ d.fieldIds, ∃ t, index d.typeIds f.classIdx = some t) ∧
    (∀ m ∈ d.methodIds, ∃ t, index d.typeIds m.classIdx = some t) ∧
    (∀ refs, GetFieldRefs d = some refs →
      List.Forall₂ (fun (f : fieldIdItem) (r : FieldRef) =>
        ∀ u : Nat, u < 65536 → f.classIdx = signed 16 u →
          ∃ t, d.typeIds[u]? = some t ∧ index d.strings t.descriptorIdx = some r.DeclClass)
        d.fieldIds refs) ∧
    (∀ refs, GetMethodRefs d = some refs →
      List.Forall₂ (fun (m : methodIdItem) (r : MethodRef) =>
        ∀ u : Nat, u < 65536 → m.classIdx = signed 16 u →
          ∃ t, d.typeIds[u]? = some t ∧ index d.strings t.descriptorIdx = some r.DeclClass)
        d.methodIds refs) := by
  refine ⟨fun u hu => ⟨signed16_nonneg_iff u hu, signed16_of_lt u⟩,
    fun f hfm => index_inBounds _ _ (hf f hfm).1 (hf f hfm).2,
    fun m hmm => index_inBounds _ _ (hm m hmm).1 (hm m hmm).2, ?_, ?_⟩
  · intro refs h
    refine mapOption_forall2 _ _ d.fieldIds refs h ?_
    intro f hfm r hr u hu e
    have hc : classNameFromTypeIndex d f.classIdx = some r.DeclClass := by
      unfold resolveFieldRef at hr
      cases e1 : classNameFromTypeIndex d f.classIdx with
      | none => simp [e1] at hr
      | some declClass =>
        cases e2 : classNameFromTypeIndex d f.typeIdx with
        | none => simp [e1, e2] at hr
        | some fieldType =>
          cases e3 : index d.strings f.nameIdx with
          | none => simp [e1, e2, e3] at hr
          | some fieldName =>
            simp only [e1, e2, e3, Option.some.injEq] at hr
            rw [← hr]
    obtain ⟨t, _, h2, h3⟩ :=
      classNameFromTypeIndex_inBounds d f.classIdx u hu (hf f hfm).1 e _ hc
    exact ⟨t, h2, h3⟩
  · intro refs h
    refine mapOption_forall2 _ _ d.methodIds refs h ?_
    intro m hmm r hr u hu e
    have hc : classNameFromTypeIndex d m.classIdx = some r.DeclClass := by
      unfold resolveMethodRef at hr
      cases e1 : classNameFromTypeIndex d m.classIdx with
      | none => simp [e1] at hr
      | some declClass =>
        cases e2 : argArrayFromProtoIndex d m.protoIdx with
        | none => simp [e1, e2] at hr
        | some argTypes =>
          cases e3 : returnTypeFromProtoIndex d m.protoIdx with
          | none => simp [e1, e2, e3] at hr
          | some returnType =>
            cases e4 : index d.strings m.nameIdx with
            | none => simp [e1, e2, e3, e4] at hr
            | some methodName =>
              simp only [e1, e2, e3, e4, Option.some.injEq] at hr
              rw [← hr]
    obtain ⟨t, _, h2, h3⟩ :=
      classNameFromTypeIndex_inBounds d m.classIdx u hu (hm m hmm).1 e _ hc
    exact ⟨t, h2, h3⟩

/-- An instance of `declClass_resolves`: the tables of the example and the
three field references that `GetFieldRefs` returns for them. -/
theorem declClass_resolves_example :
    List.Forall₂ (fun (f : fieldIdItem) (r : FieldRef) =>
        ∀ u : Nat, u < 65536 → f.classIdx = signed 16 u →
          ∃ t, exampleData.typeIds[u]? = some t ∧
            index exampleData.strings t.descriptorIdx = some r.DeclClass)
      exampleData.fieldIds
      [⟨ascii "Lcom/a/Foo;", ascii "Ljava/lang/String;", ascii "x"⟩,
       ⟨ascii "Ljava/lang/String;", ascii "Ljava/lang/String;", ascii "x"⟩,
       ⟨ascii "Lcom/a/Foo;", ascii "Lcom/a/Foo;", ascii "run"⟩] :=
  (declClass_resolves exampleData (by decide) (by decide)).2.2.2.1 _ (by decide)

/-- C30: the two bytes `00 80` of a declaring-class index hold the unsigned
value 32768, and `readShort` returns -32768 for them.  In tables with 32769
types, where 32768 is smaller than the number of type entries and the type
entry 32768 has the descriptor `I`, the access `d.typeIds[classIdx]` is out of
range for the field with this index, and `GetFieldRefs` panics. -/
theorem declClass_unsigned_out_of_range :
    (readShort (Data.init { data := [0x00, 0x80], pos := 0, log := [] })).1 = .ok (-32768) ∧
    littleEndian [0x00, 0x80] = 32768 ∧
    signed 16 32768 = -32768 ∧
    manyTypesData.fieldIds = [⟨signed 16 32768, 0, 0⟩] ∧
    32768 < manyTypesData.typeIds.length ∧
    manyTypesData.typeIds[32768]? = some ⟨0, false⟩ ∧
    index manyTypesData.strings 0 = some (ascii "I") ∧
    index manyTypesData.typeIds (signed 16 32768) = none ∧
    classNameFromTypeIndex manyTypesData (signed 16 32768) = none ∧
    GetFieldRefs manyTypesData = none := by
  have e : manyTypesData.typeIds = List.replicate 32769 ⟨0, false⟩ := rfl
  refine ⟨by decide!, by decide!, by decide!, by decide!, ?_, ?_, by decide!, by decide!,
    by decide!, by decide!⟩
  · rw [e, List.length_replicate]
    omega
  · rw [e, List.getElem?_replicate]
    simp

/-! ## DescriptorToDot: the length of the result -/

/-- The loop that strips the leading `[`: it stops at the first byte that is
not a `[`, and before the last byte of the string. -/
theorem strip_value (descr : Str) :
    ∀ (targetLen offset : Nat), offset + targetLen = descr.length →
      DescriptorToDot.strip descr offset targetLen
        = some (offset + min ((descr.drop offset).takeWhile
              (fun b => decide (b = ch '['))).length (targetLen - 1),
            targetLen - min ((descr.drop offset).takeWhile
              (fun b => decide (b = ch '['))).length (targetLen - 1)) := by
  intro targetLen
  induction targetLen using Nat.strong_induction_on with
  | _ n ih =>
    intro offset h
    match n, ih, h with
    | 0, _, h => simp [DescriptorToDot.strip]
    | 1, _, h => simp [DescriptorToDot.strip]
    | t + 2, ih, h =>
      have hlt : offset < descr.length := by omega
      have hd : descr.drop offset = descr[offset] :: descr.drop (offset + 1) :=
        List.drop_eq_getElem_cons hlt
      have hb : byteAt descr offset = some descr[offset] := by simp [byteAt, hlt]
      by_cases hc : descr[offset] = ch '['
      · have e := ih (t + 1) (by omega) (offset + 1) (by omega)
        have hw : ((descr.drop offset).takeWhile (fun b => decide (b = ch '['))).length
            = ((descr.drop (offset + 1)).takeWhile (fun b => decide (b = ch '['))).length + 1 := by
          rw [hd, List.takeWhile_cons_of_pos (by simpa using hc), List.length_cons]
        simp only [DescriptorToDot.strip, hb, hc, if_true, e, hw]
        congr 2 <;> omega
      · have hw : ((descr.drop offset).takeWhile (fun b => decide (b = ch '['))).length = 0 := by
          rw [hd, List.takeWhile_cons_of_neg (by simpa using hc), List.length_nil]
        simp [DescriptorToDot.strip, hb, hc, hw]

/-- C31: for every string, `DescriptorToDot` returns, so that every index of a
byte it reads or writes is in range (an index out of range is `none` here).
The number `arrayDepth` of leading `[` that its first loop strips is the
number of leading `[` of the string, or one less than the length of the
string when that is smaller; with `targetLen` the length the conditional
leaves (the length of the label, or of the class name without `L` and `;`),
the result has the length `targetLen + 2 * arrayDepth`.  For the empty
string and for `L;` the result is empty, for `[[[` it is `UNKNOWN[][]`. -/
theorem DescriptorToDot_total_length (descr : Str) :
    (∃ arrayDepth targetLen0 descr1 offset1 targetLen result,
      DescriptorToDot.strip descr 0 descr.length = some (arrayDepth, targetLen0) ∧
      arrayDepth = min (descr.takeWhile (fun b => decide (b = ch '['))).length
        (descr.length - 1) ∧
      DescriptorToDot.target descr arrayDepth targetLen0 = some (descr1, offset1, targetLen) ∧
      DescriptorToDot descr = some result ∧
      result.length = targetLen + 2 * arrayDepth) ∧
    DescriptorToDot [] = some [] ∧
    DescriptorToDot (ascii "L;") = some [] ∧
    DescriptorToDot (ascii "[") = some (ascii "UNKNOWN") ∧
    DescriptorToDot (ascii "[[[") = some (ascii "UNKNOWN[][]") := by
  refine ⟨?_, by decide, by decide, by decide, by decide⟩
  have e1 := strip_value descr descr.length 0 (by omega)
  simp only [List.drop_zero, Nat.zero_add] at e1
  obtain ⟨d1, o1, t1, e2, h2⟩ := target_total descr
    (min (descr.takeWhile (fun b => decide (b = ch '['))).length (descr.length - 1))
    (descr.length - min (descr.takeWhile (fun b => decide (b = ch '['))).length
      (descr.length - 1)) (by omega)
  obtain ⟨buf1, e3, h3⟩ := copy_total d1 o1 t1 0
    (List.replicate (t1 + min (descr.takeWhile (fun b => decide (b = ch '['))).length
      (descr.length - 1) * 2) 0) (by omega) (by simp)
  obtain ⟨buf2, e4, h4⟩ := brackets_total
    (min (descr.takeWhile (fun b => decide (b = ch '['))).length (descr.length - 1))
    t1 buf1 (by simp [h3]; omega)
  refine ⟨_, _, d1, o1, t1, buf2, e1, rfl, e2, by simp [DescriptorToDot, e1, e2, e3, e4], ?_⟩
  rw [h4, h3, List.length_replicate]
  omega

end DexMethodCounts
